import Mathlib

/-!
Verification of the `set<T>` container of `src/set.h`: an unbalanced binary
search tree with a container-embedded sentinel ("fake") node that holds the
root in its `left` slot and serves as the one-past-the-end position, and a
node-identity-preserving, merge-based `erase`.

The C++ code is shallowly embedded with an explicit heap: nodes live at
natural-number addresses, a heap maps addresses to node records, pointers are
`Option Addr` (`none` = `nullptr`).  Pointer loops (`find_min`, the parent
climbs of `find_next` / `operator--`, the descent of `insert`,
`lower_bound`/`upper_bound`) are translated with an explicit fuel parameter;
a result of `none` at the outermost `Option` means the fuel ran out or the
code dereferenced a dangling/null pointer (C++ undefined behaviour), and is
never relied on by the theorems.  `assert` failures are modelled as distinct,
observable results.
-/

namespace DebugSet

/-- Machine addresses of node objects. -/
abbrev Addr := Nat

/-- One `sentinel_node`/`node` object: the three link fields and, for value
nodes (`struct node : sentinel_node`), the stored value.  The sentinel has
`val = none`; for it, reading `value_` (after `static_cast<node*>`) is
undefined behaviour in the source and yields `none` here. -/
structure HNode where
  left : Option Addr
  right : Option Addr
  parent : Option Addr
  val : Option Int
deriving DecidableEq, Repr

/-- The heap: a partial map from addresses to node records. -/
def Heap := Addr → Option HNode

/-- Store a whole record at an address (`new`, or re-initialisation). -/
def hupd (h : Heap) (a : Addr) (n : HNode) : Heap :=
  fun x => if x = a then some n else h x

/-- Free the object at an address (`delete`). -/
def hdel (h : Heap) (a : Addr) : Heap :=
  fun x => if x = a then none else h x

/-- Write the `left` field of the node at `a` (no-op on a dangling address,
which the source never does in the verified paths). -/
def setL (h : Heap) (a : Addr) (l : Option Addr) : Heap :=
  match h a with
  | some n => hupd h a { n with left := l }
  | none => h

/-- Write the `right` field of the node at `a`. -/
def setR (h : Heap) (a : Addr) (r : Option Addr) : Heap :=
  match h a with
  | some n => hupd h a { n with right := r }
  | none => h

/-- Write the `parent` field of the node at `a`. -/
def setP (h : Heap) (a : Addr) (p : Option Addr) : Heap :=
  match h a with
  | some n => hupd h a { n with parent := p }
  | none => h

/-- `if (ptr) ptr->parent = target;` — conditional re-parenting through a
possibly null pointer. -/
def setPO (h : Heap) (q : Option Addr) (p : Option Addr) : Heap :=
  match q with
  | some a => setP h a p
  | none => h

/-- The container shell state: the address of its embedded `fake_` sentinel
and its `size_` counter.  The tree itself lives in the shared heap. -/
structure SetSt where
  fake : Addr
  size : Nat
deriving DecidableEq, Repr

/-- A heap together with a bump allocator producing fresh addresses for
`new`.  Addresses are never reused, matching the model's notion of node
identity. -/
structure World where
  heap : Heap
  next : Addr

/-- The empty address space. -/
def emptyWorld : World := ⟨fun _ => none, 0⟩

/-- `set() : set(0)`: the private constructor makes the sentinel with
`fake_.left = &fake_` (self-reference marking "no root") and
`fake_.parent = &fake_`, `size_ = 0`. -/
def mkSet (w : World) : World × SetSt :=
  let a := w.next
  (⟨hupd w.heap a ⟨some a, none, some a, none⟩, a + 1⟩, ⟨a, 0⟩)

/-- `s_iterator::find_min`: `while (current->left) current = current->left`. -/
def findMinH (h : Heap) : Addr → Nat → Option Addr
  | _, 0 => none
  | a, fuel + 1 =>
    match h a with
    | none => none
    | some n =>
      match n.left with
      | none => some a
      | some l => findMinH h l fuel

/-- `s_iterator::find_max`: `while (current->right) current = current->right`. -/
def findMaxH (h : Heap) : Addr → Nat → Option Addr
  | _, 0 => none
  | a, fuel + 1 =>
    match h a with
    | none => none
    | some n =>
      match n.right with
      | none => some a
      | some r => findMaxH h r fuel

/-- The parent climb of `find_next`:
`while (parent && node == parent->right) { node = parent; parent = parent->parent; } return parent;`.
Result `some p?` is the returned pointer; outer `none` is exhausted fuel or a
dangling parent pointer. -/
def climbR (h : Heap) : Addr → Option Addr → Nat → Option (Option Addr)
  | _, _, 0 => none
  | _, none, _ + 1 => some none
  | a, some p, fuel + 1 =>
    match h p with
    | none => none
    | some n => if n.right = some a then climbR h p n.parent fuel else some (some p)

/-- The parent climb of `operator--`:
`while (parent != nullptr && new_node == parent->left) { ... } new_node = parent;`. -/
def climbL (h : Heap) : Addr → Option Addr → Nat → Option (Option Addr)
  | _, _, 0 => none
  | _, none, _ + 1 => some none
  | a, some p, fuel + 1 =>
    match h p with
    | none => none
    | some n => if n.left = some a then climbL h p n.parent fuel else some (some p)

/-- `s_iterator::find_next`: the in-order successor walk.  Returns the
successor pointer (possibly `nullptr`, when the climb exhausts the parent
chain). -/
def findNextH (h : Heap) (a : Addr) (fuel : Nat) : Option (Option Addr) :=
  match h a with
  | none => none
  | some n =>
    match n.right with
    | some r => (findMinH h r fuel).map some
    | none => climbR h a n.parent fuel

/-- `operator*` guarded by `base_assert()`:
`assert(node_ && node_->left != node_)` and then the `value_` field.  `none`
covers: singular iterator, assertion failure, and the undefined read of a
sentinel's `value_`. -/
def derefH (h : Heap) (it : Option Addr) : Option Int :=
  match it with
  | none => none
  | some a =>
    match h a with
    | none => none
    | some n => if n.left = some a then none else n.val

/-- `operator--`.  Result `some (some b)`: the iterator successfully moved to
`b`; `some none`: one of the two `base_assert()` calls failed (contract
violation caught); outer `none`: out of fuel / undefined behaviour. -/
def decH (h : Heap) (it : Option Addr) (fuel : Nat) : Option (Option Addr) :=
  match it with
  | none => some none
  | some a =>
    match h a with
    | none => none
    | some n =>
      if n.left = some a then some none
      else
        let step : Option (Option Addr) :=
          match n.left with
          | some l => (findMaxH h l fuel).map some
          | none => climbL h a n.parent fuel
        match step with
        | none => none
        | some none => some none
        | some (some b) =>
          match h b with
          | none => none
          | some nb => if nb.left = some b then some none else some (some b)

/-- The descent loop of `set::insert`, tracking the last visited node as the
candidate parent.  `Sum.inl pp` means the loop fell off a null child with
final parent `pp` (the attachment point); `Sum.inr c` means the value was
found at address `c`. -/
def insLoop (h : Heap) (v : Int) : Option Addr → Option Addr → Nat → Option (Option Addr ⊕ Addr)
  | pp, none, _ => some (Sum.inl pp)
  | _, some _, 0 => none
  | pp, some c, fuel + 1 =>
    match h c with
    | none => none
    | some n =>
      match n.val with
      | none => none
      | some x =>
        if v < x then insLoop h v (some c) n.left fuel
        else if x < v then insLoop h v (some c) n.right fuel
        else some (Sum.inr c)

/-- `set::insert`, success path (allocation never fails; see `insertHF` for
the failing paths).  Returns the new world, new shell state, and the returned
`(iterator, bool)` pair as `(address, inserted?)`. -/
def insertH (w : World) (s : SetSt) (v : Int) (fuel : Nat) :
    Option (World × SetSt × Addr × Bool) :=
  if s.size = 0 then
    let a := w.next
    let h1 := hupd w.heap a ⟨none, none, some s.fake, some v⟩
    let h2 := setL h1 s.fake (some a)
    let h3 := setP h2 s.fake none
    some (⟨h3, a + 1⟩, ⟨s.fake, s.size + 1⟩, a, true)
  else
    match w.heap s.fake with
    | none => none
    | some fn =>
      match insLoop w.heap v none fn.left fuel with
      | none => none
      | some (Sum.inr c) => some (w, s, c, false)
      | some (Sum.inl none) => none
      | some (Sum.inl (some p)) =>
        match w.heap p with
        | none => none
        | some pn =>
          match pn.val with
          | none => none
          | some pv =>
            let a := w.next
            let h1 := hupd w.heap a ⟨none, none, some p, some v⟩
            let h2 := if v < pv then setL h1 p (some a) else setR h1 p (some a)
            some (⟨h2, a + 1⟩, ⟨s.fake, s.size + 1⟩, a, true)

/-- `set::merge(left, right)`: splices the minimum of `right` out of its
position and makes it the root of the merged subtree, left completely
physically intact otherwise — no value is ever copied between nodes.
Returns the updated heap and the new subtree root pointer. -/
def mergeH (h : Heap) (l r : Option Addr) (fuel : Nat) : Option (Heap × Option Addr) :=
  match l, r with
  | none, r => some (h, r)
  | some la, none => some (h, some la)
  | some la, some ra =>
    match findMinH h ra fuel with
    | none => none
    | some mr =>
      if mr = ra then
        let h1 := setL h ra (some la)
        let h2 := setP h1 la (some ra)
        some (h2, some ra)
      else
        match h mr with
        | none => none
        | some mn =>
          match mn.parent with
          | none => none
          | some mp =>
            match h mp with
            | none => none
            | some mpn =>
              let h1 :=
                if mpn.left = some mr then
                  let hA := setL h mp mn.right
                  match mn.right with
                  | some rr => setP hA rr (some mp)
                  | none => hA
                else
                  let hA := setR h mp mn.right
                  match mn.right with
                  | some rr => setP hA rr (some mp)
                  | none => hA
              let h2 := setL h1 mr (some la)
              let h3 := setR h2 mr (some ra)
              let h4 := setP h3 la (some mr)
              let h5 := setP h4 ra (some mr)
              some (h5, some mr)

/-- `set::erase(const_iterator)`.  `pos` is the iterator's node pointer (the
`assert(this == pos.container_)` is assumed: `pos` belongs to this set).
Captures the successor *before* any mutation, merges the children, splices
the result into the parent slot, re-runs the (dead, see `C6`) root fix-up,
frees exactly the erased node, and decrements `size_`.  The returned
`Option Addr` is the node of the returned iterator. -/
def eraseH (w : World) (s : SetSt) (pos : Option Addr) (fuel : Nat) :
    Option (World × SetSt × Option Addr) :=
  if s.size = 0 then
    some (w, s, some s.fake)
  else
    match pos with
    | none => none
    | some p =>
      match w.heap p with
      | none => none
      | some pn =>
        match findNextH w.heap p fuel with
        | none => none
        | some ret =>
          match pn.parent with
          | none => none
          | some dp =>
            match mergeH w.heap pn.left pn.right fuel with
            | none => none
            | some (h1, m) =>
              match h1 dp with
              | none => none
              | some dpn =>
                let h2 := if dpn.left = some p then setL h1 dp m else setR h1 dp m
                let h3 := setPO h2 m (some dp)
                let rootNow := (h3 s.fake).bind HNode.left
                let h4 := if rootNow = some p then setL h3 s.fake (some (m.getD dp)) else h3
                let h5 := hdel h4 p
                some (⟨h5, w.next⟩, ⟨s.fake, s.size - 1⟩, ret)

/-- The effect of `delete node_to_delete` on the outstanding iterators: the
freed node's destructor walks its share list and sets `node_ = nullptr` on
each member.  By the registration protocol an iterator is in a node's share
list exactly when its `node_` is that node, so the iterators transitioned to
the singular state are exactly those recorded on the freed address; all
others are untouched.  Each iterator is represented by its `node_` field. -/
def eraseIterEffect (p : Addr) (its : List (Option Addr)) : List (Option Addr) :=
  its.map fun n => if n = some p then none else n

/-- `set::del_subtree`: recursive teardown, freeing every node of a subtree. -/
def delSubtreeH (h : Heap) : Option Addr → Nat → Option Heap
  | none, _ => some h
  | some _, 0 => none
  | some a, fuel + 1 =>
    match h a with
    | none => none
    | some n =>
      match delSubtreeH h n.left fuel with
      | none => none
      | some h1 =>
        match delSubtreeH h1 n.right fuel with
        | none => none
        | some h2 => some (hdel h2 a)

/-- `set::clear`: `if (empty()) return; del_subtree(take_root()); fake_.left = nullptr; size_ = 0;`. -/
def clearH (w : World) (s : SetSt) (fuel : Nat) : Option (World × SetSt) :=
  if s.size = 0 then some (w, s)
  else
    match w.heap s.fake with
    | none => none
    | some fn =>
      match delSubtreeH w.heap fn.left fuel with
      | none => none
      | some h1 => some (⟨setL h1 s.fake none, w.next⟩, ⟨s.fake, 0⟩)

/-- `set::copy_tree`: recursive deep copy of a subtree into fresh nodes
(`new node(nullptr, value)`, then the children are copied and re-parented).
Returns the heap, the advanced allocator, and the new subtree root. -/
def copyTreeH (h : Heap) (nx : Addr) (src : Option Addr) (fuel : Nat) :
    Option (Heap × Addr × Option Addr) :=
  match fuel with
  | 0 => none
  | fuel + 1 =>
    match src with
    | none => some (h, nx, none)
    | some sa =>
      match h sa with
      | none => none
      | some sn =>
        match sn.val with
        | none => none
        | some v =>
          let a := nx
          let h0 := hupd h a ⟨none, none, none, some v⟩
          match copyTreeH h0 (a + 1) sn.left fuel with
          | none => none
          | some (h1, n1, lres) =>
            let h2 :=
              match lres with
              | some lr => setP (setL h1 a (some lr)) lr (some a)
              | none => h1
            match copyTreeH h2 n1 sn.right fuel with
            | none => none
            | some (h3, n3, rres) =>
              let h4 :=
                match rres with
                | some rr => setP (setR h3 a (some rr)) rr (some a)
                | none => h3
              some (h4, n3, some a)

/-- `set::set(const set&)`: delegates to the private `set(other.size())`
(which builds a fresh sentinel with the self-referencing `root-slot` and the
self-referencing `parent`), then deep-copies the tree and re-parents the new
root onto the new sentinel.  Note it never resets `fake_.parent`. -/
def copySetH (w : World) (src : SetSt) (fuel : Nat) : Option (World × SetSt) :=
  let fa := w.next
  let h0 := hupd w.heap fa ⟨some fa, none, some fa, none⟩
  if src.size = 0 then some (⟨h0, fa + 1⟩, ⟨fa, src.size⟩)
  else
    match h0 src.fake with
    | none => none
    | some sfn =>
      match copyTreeH h0 (fa + 1) sfn.left fuel with
      | none => none
      | some (h1, n1, none) => some (⟨h1, n1⟩, ⟨fa, src.size⟩)
      | some (h1, n1, some nr) =>
        let h2 := setL h1 fa (some nr)
        let h3 := setP h2 nr (some fa)
        some (⟨h3, n1⟩, ⟨fa, src.size⟩)

/-- `set::begin`: `if (empty()) return end(); return iterator(find_min(take_root()))`. -/
def beginH (h : Heap) (s : SetSt) (fuel : Nat) : Option Addr :=
  if s.size = 0 then some s.fake
  else
    match h s.fake with
    | none => none
    | some fn =>
      match fn.left with
      | none => none
      | some r => findMinH h r fuel

/-- `set::end`: an iterator positioned on the container's own sentinel. -/
def endH (s : SetSt) : Addr := s.fake

/-- The `lower_bound` descent: `result` tracks the leftmost node whose value
is `>= val`. -/
def lbLoop (h : Heap) (v : Int) : Option Addr → Option Addr → Nat → Option (Option Addr)
  | none, res, _ => some res
  | some _, _, 0 => none
  | some c, res, fuel + 1 =>
    match h c with
    | none => none
    | some n =>
      match n.val with
      | none => none
      | some x => if v ≤ x then lbLoop h v n.left (some c) fuel else lbLoop h v n.right res fuel

/-- The `upper_bound` descent: `result` tracks the leftmost node whose value
is `> val`. -/
def ubLoop (h : Heap) (v : Int) : Option Addr → Option Addr → Nat → Option (Option Addr)
  | none, res, _ => some res
  | some _, _, 0 => none
  | some c, res, fuel + 1 =>
    match h c with
    | none => none
    | some n =>
      match n.val with
      | none => none
      | some x => if v < x then ubLoop h v n.left (some c) fuel else ubLoop h v n.right res fuel

/-- `set::lower_bound`: `some fake` is `end()`. -/
def lowerBoundH (h : Heap) (s : SetSt) (v : Int) (fuel : Nat) : Option Addr :=
  if s.size = 0 then some s.fake
  else
    match h s.fake with
    | none => none
    | some fn =>
      match lbLoop h v fn.left none fuel with
      | none => none
      | some none => some s.fake
      | some (some r) => some r

/-- `set::upper_bound`: `some fake` is `end()`. -/
def upperBoundH (h : Heap) (s : SetSt) (v : Int) (fuel : Nat) : Option Addr :=
  if s.size = 0 then some s.fake
  else
    match h s.fake with
    | none => none
    | some fn =>
      match ubLoop h v fn.left none fuel with
      | none => none
      | some none => some s.fake
      | some (some r) => some r

/-- `swap(set&, set&)`: saves both roots, swaps the three link fields of the
two embedded sentinels (the sentinel objects themselves do not move), swaps
the sizes, then re-parents each saved root onto the other sentinel. -/
def swapH (h : Heap) (A B : SetSt) : Option (Heap × SetSt × SetSt) :=
  match h A.fake, h B.fake with
  | some an, some bn =>
    let h1 := hupd h A.fake { an with left := bn.left, right := bn.right, parent := bn.parent }
    let h2 := hupd h1 B.fake { bn with left := an.left, right := an.right, parent := an.parent }
    let h3 := setPO h2 an.left (some B.fake)
    let h4 := setPO h3 bn.left (some A.fake)
    some (h4, ⟨A.fake, B.size⟩, ⟨B.fake, A.size⟩)
  | _, _ => none

/-- An iterator value for equality comparison: its node pointer and its
owning-container tag (`container_`). -/
structure ItH where
  node : Option Addr
  cont : Option Nat
deriving DecidableEq, Repr

/-- `operator==` on iterators: asserts both belong to the same, non-null
container, then compares node pointers.  `none` models a tripped assert. -/
def iterEqH (l r : ItH) : Option Bool :=
  if l.cont = r.cont then
    match l.cont with
    | none => none
    | some _ => some (decide (l.node = r.node))
  else none

/-- One full iteration `for (it = begin(); it != end(); ++it) collect *it;`
starting at `cur`, stopping on the sentinel.  Each step performs the
`base_assert` of `operator*` / `operator++` and the `find_next` walk.
`steps` bounds the number of elements, `nf` is the walk fuel. -/
def walkH (h : Heap) (fake : Addr) : Addr → Nat → Nat → Option (List Int)
  | _, 0, _ => none
  | cur, steps + 1, nf =>
    if cur = fake then some []
    else
      match h cur with
      | none => none
      | some n =>
        if n.left = some cur then none
        else
          match n.val with
          | none => none
          | some v =>
            match findNextH h cur nf with
            | some (some nxt) => (walkH h fake nxt steps nf).map (v :: ·)
            | _ => none

/-- Iterate the whole container from `begin()` to `end()`. -/
def iterateH (h : Heap) (s : SetSt) (steps nf : Nat) : Option (List Int) :=
  (beginH h s nf).bind fun b => walkH h s.fake b steps nf

/-- Which allocation of an `insert` call fails: none, the `new node`, or the
iterator registration (`std::vector::push_back` in `add_iterator`). -/
inductive AllocFail
  | ok
  | atNode
  | atIter
deriving DecidableEq, Repr

/-- `set::insert` with its exception behaviour.  `Sum.inl` is the state after
the exception escaped (the caller sees `bad_alloc`), `Sum.inr` the successful
result.  Mirrors the source: the empty-set path attaches the node *first* and
unwinds with `clear()` if the iterator registration throws; the non-empty
path allocates and registers *before* attaching, and its `catch` block
frees nothing (its condition `!new_node` is inverted, so a node whose
iterator registration threw is leaked — but never attached). -/
def insertHF (w : World) (s : SetSt) (v : Int) (fp : AllocFail) (fuel : Nat) :
    Option ((World × SetSt) ⊕ (World × SetSt × Addr × Bool)) :=
  if s.size = 0 then
    match fp with
    | .atNode => some (Sum.inl (w, s))
    | .atIter =>
      let a := w.next
      let h1 := hupd w.heap a ⟨none, none, some s.fake, some v⟩
      let h2 := setL h1 s.fake (some a)
      let h3 := setP h2 s.fake none
      let h4 := hdel h3 a
      let h5 := setL h4 s.fake none
      some (Sum.inl (⟨h5, a + 1⟩, ⟨s.fake, 0⟩))
    | .ok =>
      let a := w.next
      let h1 := hupd w.heap a ⟨none, none, some s.fake, some v⟩
      let h2 := setL h1 s.fake (some a)
      let h3 := setP h2 s.fake none
      some (Sum.inr (⟨h3, a + 1⟩, ⟨s.fake, s.size + 1⟩, a, true))
  else
    match w.heap s.fake with
    | none => none
    | some fn =>
      match insLoop w.heap v none fn.left fuel with
      | none => none
      | some (Sum.inr c) => some (Sum.inr (w, s, c, false))
      | some (Sum.inl none) => none
      | some (Sum.inl (some p)) =>
        match fp with
        | .atNode => some (Sum.inl (w, s))
        | .atIter =>
          let a := w.next
          let h1 := hupd w.heap a ⟨none, none, some p, some v⟩
          some (Sum.inl (⟨h1, a + 1⟩, s))
        | .ok =>
          match w.heap p with
          | none => none
          | some pn =>
            match pn.val with
            | none => none
            | some pv =>
              let a := w.next
              let h1 := hupd w.heap a ⟨none, none, some p, some v⟩
              let h2 := if v < pv then setL h1 p (some a) else setR h1 p (some a)
              some (Sum.inr (⟨h2, a + 1⟩, ⟨s.fake, s.size + 1⟩, a, true))

/-! ## Abstract trees

`ATree` is the proof-side abstraction of the pointer tree: each node carries
the address of the heap object realising it (so node identity is visible) and
its value.  `reprA` says a heap pointer structure realises such a tree. -/

/-- Address-decorated binary tree. -/
inductive ATree where
  | leaf
  | nd (l : ATree) (a : Addr) (v : Int) (r : ATree)
deriving DecidableEq, Repr

/-- In-order list of node addresses. -/
def addrsA : ATree → List Addr
  | .leaf => []
  | .nd l a _ r => addrsA l ++ a :: addrsA r

/-- In-order list of values. -/
def inorderV : ATree → List Int
  | .leaf => []
  | .nd l _ v r => inorderV l ++ v :: inorderV r

/-- Number of nodes. -/
def sizeA : ATree → Nat
  | .leaf => 0
  | .nd l _ _ r => sizeA l + sizeA r + 1

/-- Root address (the pointer a parent slot holding this subtree contains). -/
def rootO : ATree → Option Addr
  | .leaf => none
  | .nd _ a _ _ => some a

/-- The binary-search-tree ordering invariant. -/
def BSTA : ATree → Prop
  | .leaf => True
  | .nd l _ v r =>
    (∀ x ∈ inorderV l, x < v) ∧ (∀ x ∈ inorderV r, v < x) ∧ BSTA l ∧ BSTA r

instance BSTA.dec : ∀ t, Decidable (BSTA t)
  | .leaf => by unfold BSTA; infer_instance
  | .nd l _ v r =>
    have dl := BSTA.dec l
    have dr := BSTA.dec r
    by unfold BSTA; infer_instance

/-- `reprA h t ptr par`: the pointer `ptr`, whose holder's address is `par`,
realises the tree `t` in heap `h`: each `nd l a v r` is an object at `a`
holding value `v`, parent pointer `par`, and child pointers realising `l`
and `r`. -/
def reprA (h : Heap) : ATree → Option Addr → Addr → Prop
  | .leaf, ptr, _ => ptr = none
  | .nd l a v r, ptr, par =>
    match h a with
    | none => False
    | some n =>
      ptr = some a ∧ n.parent = some par ∧ n.val = some v ∧
        reprA h l n.left a ∧ reprA h r n.right a

instance reprA.dec (h : Heap) : ∀ t ptr par, Decidable (reprA h t ptr par)
  | .leaf, ptr, par => by unfold reprA; infer_instance
  | .nd l a v r, ptr, par =>
    match hh : h a with
    | none => .isFalse (by simp [reprA, hh])
    | some n =>
      have d1 := reprA.dec h l n.left a
      have d2 := reprA.dec h r n.right a
      decidable_of_iff
        (ptr = some a ∧ n.parent = some par ∧ n.val = some v ∧
          reprA h l n.left a ∧ reprA h r n.right a)
        (by simp [reprA, hh])

/-- Well-formed container: the sentinel exists with a null `right` slot and
no value, its `left` slot holds the root of a realised, duplicate-address
free, search-ordered tree matching `size_`, and all addresses are below the
allocator mark. -/
structure WFS (w : World) (s : SetSt) (t : ATree) : Prop where
  fake_right : (w.heap s.fake).map HNode.right = some none
  fake_val : (w.heap s.fake).map HNode.val = some none
  fake_root : t ≠ .leaf → (w.heap s.fake).map HNode.left = some (rootO t)
  tree : reprA w.heap t (rootO t) s.fake
  nodup : (addrsA t).Nodup
  fake_notin : s.fake ∉ addrsA t
  size_eq : s.size = sizeA t
  bst : BSTA t
  bound : ∀ a ∈ addrsA t, a < w.next
  fake_lt : s.fake < w.next

/-- Functional mirror of the `insert` descent: where the pointer code
attaches the freshly allocated node at address `a`. -/
def insertA : ATree → Int → Addr → ATree
  | .leaf, v, a => .nd .leaf a v .leaf
  | .nd l b x r, v, a =>
    if v < x then .nd (insertA l v a) b x r
    else if x < v then .nd l b x (insertA r v a)
    else .nd l b x r

/-- Leftmost (minimum) node: its address and value. -/
def minA : ATree → Option (Addr × Int)
  | .leaf => none
  | .nd .leaf a v _ => some (a, v)
  | .nd l _ _ _ => minA l

/-- Rightmost (maximum) node: its address and value. -/
def maxA : ATree → Option (Addr × Int)
  | .leaf => none
  | .nd _ a v .leaf => some (a, v)
  | .nd _ _ _ r => maxA r

/-- Remove the leftmost node (the parent slot that held it receives its
right subtree — exactly the detach step of `set::merge`). -/
def delMinT : ATree → ATree
  | .leaf => .leaf
  | .nd .leaf _ _ r => r
  | .nd l a v r => .nd (delMinT l) a v r

/-- Functional mirror of `set::merge`: the minimum node of `right` becomes
the root, keeping its address. -/
def mergeT : ATree → ATree → ATree
  | .leaf, r => r
  | l, .leaf => l
  | l, r =>
    match minA r with
    | some (ma, mv) => .nd l ma mv (delMinT r)
    | none => .leaf

/-- Functional mirror of `erase(position)` on the abstract tree: the node at
address `p` is replaced by the merge of its two subtrees. -/
def eraseAtT : ATree → Addr → ATree
  | .leaf, _ => .leaf
  | .nd l a v r, p =>
    if a = p then mergeT l r else .nd (eraseAtT l p) a v (eraseAtT r p)

/-- The subtree rooted at address `p` (assumes addresses are unique). -/
def subAt : ATree → Addr → Option ATree
  | .leaf, _ => none
  | .nd l a v r, p =>
    if a = p then some (.nd l a v r)
    else
      match subAt l p with
      | some u => some u
      | none => subAt r p

/-- The parent address of the node at `p`; `up` is the address owning the
root slot (the sentinel, at top level). -/
def parentOfA : ATree → Addr → Addr → Option Addr
  | .leaf, _, _ => none
  | .nd l a _ r, p, up =>
    if a = p then some up
    else
      match parentOfA l p a with
      | some q => some q
      | none => parentOfA r p a

/-- Run a sequence of `insert` calls left to right with a fixed descent
fuel. -/
def insertList (w : World) (s : SetSt) (vs : List Int) (F : Nat) :
    Option (World × SetSt) :=
  match vs with
  | [] => some (w, s)
  | v :: rest => (insertH w s v F).bind fun r => insertList r.1 r.2.1 rest F

/-- Run a whole sequence of `insert` calls on a freshly constructed set
(fuel `vs.length + 2` dominates every descent). -/
def runInserts (vs : List Int) : Option (World × SetSt) :=
  insertList (mkSet emptyWorld).1 (mkSet emptyWorld).2 vs (vs.length + 2)

/-! ## Heap update lemmas -/

theorem hupd_apply (h : Heap) (a : Addr) (n : HNode) (x : Addr) :
    hupd h a n x = if x = a then some n else h x := rfl

theorem hdel_apply (h : Heap) (a : Addr) (x : Addr) :
    hdel h a x = if x = a then none else h x := rfl

theorem setL_apply (h : Heap) (a : Addr) (l : Option Addr) (x : Addr) :
    setL h a l x = if x = a then (h a).map (fun n => { n with left := l }) else h x := by
  unfold setL
  cases hh : h a with
  | none =>
    simp only [hh, Option.map_none']
    split
    · next he => rw [he]; exact hh
    · rfl
  | some n => simp only [hh, Option.map_some']; rfl

theorem setR_apply (h : Heap) (a : Addr) (r : Option Addr) (x : Addr) :
    setR h a r x = if x = a then (h a).map (fun n => { n with right := r }) else h x := by
  unfold setR
  cases hh : h a with
  | none =>
    simp only [hh, Option.map_none']
    split
    · next he => rw [he]; exact hh
    · rfl
  | some n => simp only [hh, Option.map_some']; rfl

theorem setP_apply (h : Heap) (a : Addr) (p : Option Addr) (x : Addr) :
    setP h a p x = if x = a then (h a).map (fun n => { n with parent := p }) else h x := by
  unfold setP
  cases hh : h a with
  | none =>
    simp only [hh, Option.map_none']
    split
    · next he => rw [he]; exact hh
    · rfl
  | some n => simp only [hh, Option.map_some']; rfl

theorem setL_ne (h : Heap) (a : Addr) (l : Option Addr) {x : Addr} (hx : x ≠ a) :
    setL h a l x = h x := by rw [setL_apply, if_neg hx]

theorem setR_ne (h : Heap) (a : Addr) (r : Option Addr) {x : Addr} (hx : x ≠ a) :
    setR h a r x = h x := by rw [setR_apply, if_neg hx]

theorem setP_ne (h : Heap) (a : Addr) (p : Option Addr) {x : Addr} (hx : x ≠ a) :
    setP h a p x = h x := by rw [setP_apply, if_neg hx]

theorem setL_val (h : Heap) (a : Addr) (l : Option Addr) (x : Addr) :
    (setL h a l x).map HNode.val = (h x).map HNode.val := by
  rw [setL_apply]; split
  · next he => rw [he, Option.map_map]; rfl
  · rfl

theorem setR_val (h : Heap) (a : Addr) (r : Option Addr) (x : Addr) :
    (setR h a r x).map HNode.val = (h x).map HNode.val := by
  rw [setR_apply]; split
  · next he => rw [he, Option.map_map]; rfl
  · rfl

theorem setP_val (h : Heap) (a : Addr) (p : Option Addr) (x : Addr) :
    (setP h a p x).map HNode.val = (h x).map HNode.val := by
  rw [setP_apply]; split
  · next he => rw [he, Option.map_map]; rfl
  · rfl

theorem setL_isSome (h : Heap) (a : Addr) (l : Option Addr) (x : Addr) :
    (setL h a l x).isSome = (h x).isSome := by
  rw [setL_apply]; split
  · next he => rw [he]; cases h a <;> rfl
  · rfl

theorem setR_isSome (h : Heap) (a : Addr) (r : Option Addr) (x : Addr) :
    (setR h a r x).isSome = (h x).isSome := by
  rw [setR_apply]; split
  · next he => rw [he]; cases h a <;> rfl
  · rfl

theorem setP_isSome (h : Heap) (a : Addr) (p : Option Addr) (x : Addr) :
    (setP h a p x).isSome = (h x).isSome := by
  rw [setP_apply]; split
  · next he => rw [he]; cases h a <;> rfl
  · rfl

/-! ## Representation lemmas -/

theorem reprA_leaf_iff {h : Heap} {ptr : Option Addr} {par : Addr} :
    reprA h .leaf ptr par ↔ ptr = none := Iff.rfl

theorem reprA_nd_iff {h : Heap} {l : ATree} {a : Addr} {v : Int} {r : ATree}
    {ptr : Option Addr} {par : Addr} :
    reprA h (.nd l a v r) ptr par ↔
      ∃ n, h a = some n ∧ ptr = some a ∧ n.parent = some par ∧ n.val = some v ∧
        reprA h l n.left a ∧ reprA h r n.right a := by
  constructor
  · intro hr
    unfold reprA at hr
    cases hh : h a with
    | none => rw [hh] at hr; exact hr.elim
    | some n => rw [hh] at hr; exact ⟨n, rfl, hr⟩
  · rintro ⟨n, hn, h1, h2, h3, h4, h5⟩
    unfold reprA
    rw [hn]
    exact ⟨h1, h2, h3, h4, h5⟩

theorem mem_addrsA {l : ATree} {a : Addr} {v : Int} {r : ATree} {x : Addr} :
    x ∈ addrsA (.nd l a v r) ↔ x ∈ addrsA l ∨ x = a ∨ x ∈ addrsA r := by
  simp [addrsA, or_comm, or_assoc, or_left_comm]

theorem reprA_frame {h h' : Heap} :
    ∀ {t : ATree} {ptr : Option Addr} {par : Addr}, reprA h t ptr par →
      (∀ a ∈ addrsA t, h' a = h a) → reprA h' t ptr par := by
  intro t
  induction t with
  | leaf => intro ptr par hrep _; exact hrep
  | nd l a v r ihl ihr =>
    intro ptr par hrep hf
    rw [reprA_nd_iff] at hrep
    obtain ⟨n, hn, h1, h2, h3, h4, h5⟩ := hrep
    have ha : h' a = h a := hf a (by simp [mem_addrsA])
    rw [reprA_nd_iff]
    refine ⟨n, by rw [ha, hn], h1, h2, h3, ?_, ?_⟩
    · exact ihl h4 fun b hb => hf b (by simp [mem_addrsA, hb])
    · exact ihr h5 fun b hb => hf b (by simp [mem_addrsA, hb])

/-- Every address of a realised tree is live in the heap. -/
theorem reprA_isSome {h : Heap} :
    ∀ {t : ATree} {ptr : Option Addr} {par : Addr}, reprA h t ptr par →
      ∀ a ∈ addrsA t, (h a).isSome = true := by
  intro t
  induction t with
  | leaf => intro ptr par _ a ha; simp [addrsA] at ha
  | nd l b v r ihl ihr =>
    intro ptr par hrep a ha
    rw [reprA_nd_iff] at hrep
    obtain ⟨n, hn, h1, h2, h3, h4, h5⟩ := hrep
    rw [mem_addrsA] at ha
    rcases ha with ha | rfl | ha
    · exact ihl h4 a ha
    · rw [hn]; rfl
    · exact ihr h5 a ha

/-! ## Fuel monotonicity -/

theorem findMinH_mono {h : Heap} :
    ∀ {f : Nat} {a : Addr} {f' : Nat} {res : Addr},
      findMinH h a f = some res → f ≤ f' → findMinH h a f' = some res := by
  intro f
  induction f with
  | zero => intro a f' res hr _; simp [findMinH] at hr
  | succ f ih =>
    intro a f' res hr hle
    obtain ⟨f'', rfl⟩ : ∃ f'', f' = f'' + 1 := ⟨f' - 1, by omega⟩
    rw [findMinH] at hr ⊢
    cases hh : h a with
    | none => rw [hh] at hr; exact absurd hr (by simp)
    | some n =>
      simp only [hh] at hr ⊢
      cases hl : n.left with
      | none => simp only [hl] at hr ⊢; exact hr
      | some l => simp only [hl] at hr ⊢; exact ih hr (by omega)

theorem findMaxH_mono {h : Heap} :
    ∀ {f : Nat} {a : Addr} {f' : Nat} {res : Addr},
      findMaxH h a f = some res → f ≤ f' → findMaxH h a f' = some res := by
  intro f
  induction f with
  | zero => intro a f' res hr _; simp [findMaxH] at hr
  | succ f ih =>
    intro a f' res hr hle
    obtain ⟨f'', rfl⟩ : ∃ f'', f' = f'' + 1 := ⟨f' - 1, by omega⟩
    rw [findMaxH] at hr ⊢
    cases hh : h a with
    | none => rw [hh] at hr; exact absurd hr (by simp)
    | some n =>
      simp only [hh] at hr ⊢
      cases hl : n.right with
      | none => simp only [hl] at hr ⊢; exact hr
      | some r => simp only [hl] at hr ⊢; exact ih hr (by omega)

theorem climbR_mono {h : Heap} :
    ∀ {f : Nat} {a : Addr} {p : Option Addr} {f' : Nat} {res : Option Addr},
      climbR h a p f = some res → f ≤ f' → climbR h a p f' = some res := by
  intro f
  induction f with
  | zero => intro a p f' res hr _; simp [climbR] at hr
  | succ f ih =>
    intro a p f' res hr hle
    obtain ⟨f'', rfl⟩ : ∃ f'', f' = f'' + 1 := ⟨f' - 1, by omega⟩
    cases p with
    | none => rw [climbR] at hr ⊢; exact hr
    | some p =>
      rw [climbR] at hr ⊢
      cases hh : h p with
      | none => rw [hh] at hr; exact absurd hr (by simp)
      | some n =>
        simp only [hh] at hr ⊢
        by_cases hc : n.right = some a
        · rw [if_pos hc] at hr ⊢; exact ih hr (by omega)
        · rw [if_neg hc] at hr ⊢; exact hr

theorem climbL_mono {h : Heap} :
    ∀ {f : Nat} {a : Addr} {p : Option Addr} {f' : Nat} {res : Option Addr},
      climbL h a p f = some res → f ≤ f' → climbL h a p f' = some res := by
  intro f
  induction f with
  | zero => intro a p f' res hr _; simp [climbL] at hr
  | succ f ih =>
    intro a p f' res hr hle
    obtain ⟨f'', rfl⟩ : ∃ f'', f' = f'' + 1 := ⟨f' - 1, by omega⟩
    cases p with
    | none => rw [climbL] at hr ⊢; exact hr
    | some p =>
      rw [climbL] at hr ⊢
      cases hh : h p with
      | none => rw [hh] at hr; exact absurd hr (by simp)
      | some n =>
        simp only [hh] at hr ⊢
        by_cases hc : n.left = some a
        · rw [if_pos hc] at hr ⊢; exact ih hr (by omega)
        · rw [if_neg hc] at hr ⊢; exact hr

theorem findNextH_mono {h : Heap} {a : Addr} {f f' : Nat} {res : Option Addr}
    (hr : findNextH h a f = some res) (hle : f ≤ f') : findNextH h a f' = some res := by
  rw [findNextH] at hr ⊢
  cases hh : h a with
  | none => rw [hh] at hr; exact absurd hr (by simp)
  | some n =>
    simp only [hh] at hr ⊢
    cases hcr : n.right with
    | some r =>
      simp only [hcr] at hr ⊢
      cases hm : findMinH h r f with
      | none => rw [hm] at hr; exact absurd hr (by simp)
      | some m => rw [findMinH_mono hm hle]; rw [hm] at hr; exact hr
    | none => simp only [hcr] at hr ⊢; exact climbR_mono hr hle

/-! ## Minimum / maximum node lemmas -/

theorem minA_of_ne_leaf : ∀ {t : ATree}, t ≠ .leaf → ∃ ma mv, minA t = some (ma, mv)
  | .leaf, ht => absurd rfl ht
  | .nd .leaf a v _, _ => ⟨a, v, rfl⟩
  | .nd (.nd l' a' v' r') _ _ _, _ =>
    minA_of_ne_leaf (t := .nd l' a' v' r') (by intro hc; cases hc)

theorem maxA_of_ne_leaf : ∀ {t : ATree}, t ≠ .leaf → ∃ xa xv, maxA t = some (xa, xv)
  | .leaf, ht => absurd rfl ht
  | .nd _ a v .leaf, _ => ⟨a, v, rfl⟩
  | .nd _ _ _ (.nd l' a' v' r'), _ =>
    maxA_of_ne_leaf (t := .nd l' a' v' r') (by intro hc; cases hc)

theorem minA_mem_addrs :
    ∀ {t : ATree} {ma : Addr} {mv : Int}, minA t = some (ma, mv) → ma ∈ addrsA t := by
  intro t
  induction t with
  | leaf => intro ma mv hm; simp [minA] at hm
  | nd l a v r ihl _ =>
    intro ma mv hm
    cases l with
    | leaf =>
      simp only [minA] at hm
      injection hm with hm
      rw [mem_addrsA]
      exact Or.inr (Or.inl (congrArg Prod.fst hm).symm)
    | nd l' a' v' r' =>
      simp only [minA] at hm
      rw [mem_addrsA]
      exact Or.inl (ihl hm)

theorem maxA_mem_addrs :
    ∀ {t : ATree} {xa : Addr} {xv : Int}, maxA t = some (xa, xv) → xa ∈ addrsA t := by
  intro t
  induction t with
  | leaf => intro xa xv hm; simp [maxA] at hm
  | nd l a v r _ ihr =>
    intro xa xv hm
    cases r with
    | leaf =>
      simp only [maxA] at hm
      injection hm with hm
      rw [mem_addrsA]
      exact Or.inr (Or.inl (congrArg Prod.fst hm).symm)
    | nd l' a' v' r' =>
      simp only [maxA] at hm
      rw [mem_addrsA]
      exact Or.inr (Or.inr (ihr hm))

/-- `find_min` lands on the leftmost node of the realised subtree. -/
theorem findMinH_spec {h : Heap} :
    ∀ {t : ATree} {rt : Addr} {par : Addr} {ma : Addr} {mv : Int} {f : Nat},
      reprA h t (some rt) par → minA t = some (ma, mv) → sizeA t + 1 ≤ f →
        findMinH h rt f = some ma := by
  intro t
  induction t with
  | leaf => intro rt par ma mv f hrep _ _; exact absurd hrep (by simp [reprA_leaf_iff])
  | nd l a v r ihl _ =>
    intro rt par ma mv f hrep hm hf
    rw [reprA_nd_iff] at hrep
    obtain ⟨n, hn, hrt, hpar, hval, hl, hr⟩ := hrep
    injection hrt with hrt
    subst hrt
    obtain ⟨f', rfl⟩ : ∃ f', f = f' + 1 := ⟨f - 1, by omega⟩
    rw [findMinH]
    simp only [hn]
    cases l with
    | leaf =>
      rw [reprA_leaf_iff] at hl
      simp only [hl]
      simp only [minA] at hm
      injection hm with hm
      exact congrArg some (congrArg Prod.fst hm)
    | nd l' a' v' r' =>
      rw [reprA_nd_iff] at hl
      obtain ⟨n', hn', hrt', hrest⟩ := hl
      simp only [hrt']
      simp only [minA] at hm
      exact ihl (by rw [reprA_nd_iff]; exact ⟨n', hn', rfl, hrest⟩) hm
        (by simp [sizeA] at hf ⊢; omega)

/-- `find_max` lands on the rightmost node of the realised subtree. -/
theorem findMaxH_spec {h : Heap} :
    ∀ {t : ATree} {rt : Addr} {par : Addr} {xa : Addr} {xv : Int} {f : Nat},
      reprA h t (some rt) par → maxA t = some (xa, xv) → sizeA t + 1 ≤ f →
        findMaxH h rt f = some xa := by
  intro t
  induction t with
  | leaf => intro rt par xa xv f hrep _ _; exact absurd hrep (by simp [reprA_leaf_iff])
  | nd l a v r _ ihr =>
    intro rt par xa xv f hrep hm hf
    rw [reprA_nd_iff] at hrep
    obtain ⟨n, hn, hrt, hpar, hval, hl, hr⟩ := hrep
    injection hrt with hrt
    subst hrt
    obtain ⟨f', rfl⟩ : ∃ f', f = f' + 1 := ⟨f - 1, by omega⟩
    rw [findMaxH]
    simp only [hn]
    cases r with
    | leaf =>
      rw [reprA_leaf_iff] at hr
      simp only [hr]
      simp only [maxA] at hm
      injection hm with hm
      exact congrArg some (congrArg Prod.fst hm)
    | nd l' a' v' r' =>
      rw [reprA_nd_iff] at hr
      obtain ⟨n', hn', hrt', hrest⟩ := hr
      simp only [hrt']
      simp only [maxA] at hm
      exact ihr (by rw [reprA_nd_iff]; exact ⟨n', hn', rfl, hrest⟩) hm
        (by simp [sizeA] at hf ⊢; omega)

/-! ## Successor-walk lemmas -/

/-- Starting `find_next`'s climb at the rightmost node of a realised subtree
continues exactly like the climb that has just arrived at the subtree's root
with the subtree's parent. -/
theorem findNextH_max {h : Heap} :
    ∀ {t : ATree} {rt par xa : Addr} {xv : Int} {f : Nat} {res : Option Addr},
      reprA h t (some rt) par → maxA t = some (xa, xv) →
      climbR h rt (some par) f = some res →
      findNextH h xa (f + sizeA t) = some res := by
  intro t
  induction t with
  | leaf => intro rt par xa xv f res hrep _ _; exact absurd hrep (by simp [reprA_leaf_iff])
  | nd l a v r _ ihr =>
    intro rt par xa xv f res hrep hm hcl
    rw [reprA_nd_iff] at hrep
    obtain ⟨n, hn, hrt, hpar, hval, hl, hr⟩ := hrep
    injection hrt with hrt
    subst hrt
    cases r with
    | leaf =>
      simp only [maxA] at hm
      injection hm with hm
      cases hm
      rw [findNextH]
      simp only [hn]
      rw [reprA_leaf_iff] at hr
      simp only [hr, hpar]
      exact climbR_mono hcl (by omega)
    | nd l2 a2 v2 r2 =>
      simp only [maxA] at hm
      rw [reprA_nd_iff] at hr
      obtain ⟨n2, hn2, hrt2, hrest2⟩ := hr
      have hstep : climbR h a2 (some rt) (f + 1) = some res := by
        rw [climbR]
        simp only [hn]
        rw [if_pos hrt2, hpar]
        exact hcl
      have hrec := ihr (by rw [reprA_nd_iff]; exact ⟨n2, hn2, rfl, hrest2⟩) hm hstep
      exact findNextH_mono hrec (by simp [sizeA]; omega)

/-- Starting `operator--`'s climb at the leftmost node of a realised subtree
continues exactly like the climb that has just arrived at the subtree's root
with the subtree's parent. -/
theorem climbL_min {h : Heap} :
    ∀ {t : ATree} {rt par ma : Addr} {mv : Int} {f : Nat} {res : Option Addr},
      reprA h t (some rt) par → minA t = some (ma, mv) →
      climbL h rt (some par) f = some res →
      ∃ mn, h ma = some mn ∧ mn.left = none ∧ mn.val = some mv ∧
        climbL h ma mn.parent (f + sizeA t) = some res := by
  intro t
  induction t with
  | leaf => intro rt par ma mv f res hrep _ _; exact absurd hrep (by simp [reprA_leaf_iff])
  | nd l a v r ihl _ =>
    intro rt par ma mv f res hrep hm hcl
    rw [reprA_nd_iff] at hrep
    obtain ⟨n, hn, hrt, hpar, hval, hl, hr⟩ := hrep
    injection hrt with hrt
    subst hrt
    cases l with
    | leaf =>
      simp only [minA] at hm
      injection hm with hm
      cases hm
      rw [reprA_leaf_iff] at hl
      exact ⟨n, hn, hl, hval, by rw [hpar]; exact climbL_mono hcl (by omega)⟩
    | nd l2 a2 v2 r2 =>
      simp only [minA] at hm
      rw [reprA_nd_iff] at hl
      obtain ⟨n2, hn2, hrt2, hrest2⟩ := hl
      have hstep : climbL h a2 (some rt) (f + 1) = some res := by
        rw [climbL]
        simp only [hn]
        rw [if_pos hrt2, hpar]
        exact hcl
      obtain ⟨mn, hmn, hml, hmv, hrec⟩ :=
        ihl (by rw [reprA_nd_iff]; exact ⟨n2, hn2, rfl, hrest2⟩) hm hstep
      exact ⟨mn, hmn, hml, hmv, climbL_mono hrec (by simp [sizeA]; omega)⟩

/-- Address/value pairs of the tree in order. -/
def pairsA : ATree → List (Addr × Int)
  | .leaf => []
  | .nd l a v r => pairsA l ++ (a, v) :: pairsA r

theorem pairsA_map_fst : ∀ t : ATree, (pairsA t).map Prod.fst = addrsA t := by
  intro t
  induction t with
  | leaf => rfl
  | nd l a v r ihl ihr => simp [pairsA, addrsA, ihl, ihr]

theorem pairsA_map_snd : ∀ t : ATree, (pairsA t).map Prod.snd = inorderV t := by
  intro t
  induction t with
  | leaf => rfl
  | nd l a v r ihl ihr => simp [pairsA, inorderV, ihl, ihr]

theorem addrsA_ne_nil : ∀ {t : ATree}, t ≠ .leaf → addrsA t ≠ [] := by
  intro t ht
  cases t with
  | leaf => exact absurd rfl ht
  | nd l a v r => simp [addrsA]

theorem addrsA_head? :
    ∀ {t : ATree}, (addrsA t).head? = (minA t).map Prod.fst := by
  intro t
  induction t with
  | leaf => rfl
  | nd l a v r ihl _ =>
    cases l with
    | leaf => simp [addrsA, minA]
    | nd l2 a2 v2 r2 =>
      have hne : addrsA (ATree.nd l2 a2 v2 r2) ≠ [] := addrsA_ne_nil (by intro hc; cases hc)
      rw [addrsA, List.head?_append]
      rw [ihl]
      simp only [minA]
      obtain ⟨ma, mv, hm⟩ := minA_of_ne_leaf (t := ATree.nd l2 a2 v2 r2) (by intro hc; cases hc)
      rw [hm]
      rfl

theorem addrsA_getLast? :
    ∀ {t : ATree}, (addrsA t).getLast? = (maxA t).map Prod.fst := by
  intro t
  induction t with
  | leaf => rfl
  | nd l a v r _ ihr =>
    cases r with
    | leaf => simp [addrsA, maxA, List.getLast?_append]
    | nd l2 a2 v2 r2 =>
      have hne : addrsA (ATree.nd l2 a2 v2 r2) ≠ [] := addrsA_ne_nil (by intro hc; cases hc)
      rw [addrsA, List.getLast?_append_cons]
      rw [show (a :: addrsA (ATree.nd l2 a2 v2 r2)) = [a] ++ addrsA (ATree.nd l2 a2 v2 r2)
        from rfl]
      rw [List.getLast?_append_of_ne_nil _ hne, ihr]
      simp only [maxA]

theorem reprA_ptr {h : Heap} {t : ATree} {ptr : Option Addr} {par : Addr}
    (hrep : reprA h t ptr par) : ptr = rootO t := by
  cases t with
  | leaf => exact hrep
  | nd l a v r => rw [reprA_nd_iff] at hrep; obtain ⟨n, _, hp, _⟩ := hrep; exact hp

theorem rootO_mem {t : ATree} {rt : Addr} (hr : rootO t = some rt) : rt ∈ addrsA t := by
  cases t with
  | leaf => exact absurd hr (by simp [rootO])
  | nd l a v r =>
    rw [rootO] at hr
    injection hr with hr
    rw [mem_addrsA]
    exact Or.inr (Or.inl hr.symm)

/-- Within one realised subtree, `find_next` steps from each node to the
next one in address in-order. -/
theorem succ_chain {h : Heap} {F : Nat} :
    ∀ {t : ATree} {par : Addr},
      reprA h t (rootO t) par → (addrsA t).Nodup → sizeA t + 2 ≤ F →
      List.Chain' (fun x y => findNextH h x F = some (some y)) (addrsA t) := by
  intro t
  induction t with
  | leaf => intro par _ _ _; exact List.chain'_nil
  | nd l a v r ihl ihr =>
    intro par hrep hnd hF
    rw [reprA_nd_iff] at hrep
    obtain ⟨n, hn, _, hpar, hval, hl, hr⟩ := hrep
    have hlroot := reprA_ptr hl
    have hrroot := reprA_ptr hr
    rw [addrsA] at hnd ⊢
    obtain ⟨ndl, ndcr, hdisj⟩ := List.nodup_append.mp hnd
    obtain ⟨hanr, ndr⟩ := List.nodup_cons.mp ndcr
    rw [List.chain'_append]
    refine ⟨?_, ?_, ?_⟩
    · exact ihl (by rw [← hlroot]; exact hl) ndl (by simp [sizeA] at hF ⊢; omega)
    · rw [List.chain'_cons']
      constructor
      · intro y hy
        cases r with
        | leaf => simp [addrsA] at hy
        | nd l2 a2 v2 r2 =>
          obtain ⟨ma, mv, hm⟩ := minA_of_ne_leaf (t := ATree.nd l2 a2 v2 r2)
            (by intro hc; cases hc)
          rw [addrsA_head?, hm] at hy
          simp only [Option.map_some', Option.mem_def, Option.some.injEq] at hy
          subst hy
          rw [rootO] at hrroot
          have hr2 : reprA h (ATree.nd l2 a2 v2 r2) (some a2) a := by
            rw [← hrroot]; exact hr
          have hmin := findMinH_spec hr2 hm (f := F)
            (by simp [sizeA] at hF ⊢; omega)
          rw [findNextH]
          simp only [hn, hrroot, hmin, Option.map_some']
      · exact ihr (by rw [← hrroot]; exact hr) ndr (by simp [sizeA] at hF ⊢; omega)
    · intro x hx y hy
      simp only [List.head?_cons, Option.mem_def, Option.some.injEq] at hy
      subst hy
      cases l with
      | leaf => simp [addrsA] at hx
      | nd l2 a2 v2 r2 =>
        obtain ⟨xa, xv, hm⟩ := maxA_of_ne_leaf (t := ATree.nd l2 a2 v2 r2)
          (by intro hc; cases hc)
        rw [addrsA_getLast?, hm] at hx
        simp only [Option.map_some', Option.mem_def, Option.some.injEq] at hx
        subst hx
        rw [rootO] at hlroot
        have hcond : n.right ≠ some a2 := by
          intro hc
          rw [hrroot] at hc
          have ha2l : a2 ∈ addrsA (ATree.nd l2 a2 v2 r2) := by
            rw [mem_addrsA]; exact Or.inr (Or.inl rfl)
          exact hdisj ha2l (List.mem_cons_of_mem a (rootO_mem hc))
        have hstep : climbR h a2 (some a) 1 = some (some a) := by
          rw [climbR]
          simp only [hn]
          rw [if_neg hcond]
        have hrepl2 : reprA h (ATree.nd l2 a2 v2 r2) (some a2) a := by
          rw [← hlroot]; exact hl
        have := findNextH_max hrepl2 hm hstep
        exact findNextH_mono this (by simp [sizeA] at hF ⊢; omega)

theorem mem_pairsA_fst {t : ATree} {p : Addr × Int} (hp : p ∈ pairsA t) :
    p.1 ∈ addrsA t := by
  rw [← pairsA_map_fst]
  exact List.mem_map_of_mem Prod.fst hp

/-- Every in-order pair of a realised duplicate-free tree is backed by a live
node holding its value, whose `left` pointer is not a self-loop (so
`base_assert` passes on it). -/
theorem pairs_node_facts {h : Heap} :
    ∀ {t : ATree} {par : Addr}, reprA h t (rootO t) par → (addrsA t).Nodup →
      ∀ p ∈ pairsA t, ∃ n, h p.1 = some n ∧ n.val = some p.2 ∧ n.left ≠ some p.1 := by
  intro t
  induction t with
  | leaf => intro par _ _ p hp; simp [pairsA] at hp
  | nd l a v r ihl ihr =>
    intro par hrep hnd p hp
    rw [reprA_nd_iff] at hrep
    obtain ⟨n, hn, _, hpar, hval, hl, hr⟩ := hrep
    have hlroot := reprA_ptr hl
    have hrroot := reprA_ptr hr
    rw [addrsA] at hnd
    obtain ⟨ndl, ndcr, hdisj⟩ := List.nodup_append.mp hnd
    obtain ⟨hanr, ndr⟩ := List.nodup_cons.mp ndcr
    rw [pairsA, List.mem_append, List.mem_cons] at hp
    rcases hp with hp | hp | hp
    · exact ihl (by rw [← hlroot]; exact hl) ndl p hp
    · subst hp
      refine ⟨n, hn, hval, ?_⟩
      intro hc
      rw [hlroot] at hc
      exact hdisj (rootO_mem hc) (List.mem_cons_self a _)
    · exact ihr (by rw [← hrroot]; exact hr) ndr p hp

/-- The full successor chain of a well-formed container: walking `find_next`
from each element lands on the next element, and from the maximum lands on
the sentinel. -/
theorem wfs_chain {w : World} {s : SetSt} {t : ATree} (hw : WFS w s t) {F : Nat}
    (hF : sizeA t + 2 ≤ F) :
    List.Chain' (fun x y => findNextH w.heap x F = some (some y))
      (addrsA t ++ [s.fake]) := by
  rw [List.chain'_append]
  refine ⟨succ_chain hw.tree hw.nodup hF, List.chain'_singleton _, ?_⟩
  intro x hx y hy
  simp only [List.head?_cons, Option.mem_def, Option.some.injEq] at hy
  subst hy
  cases t with
  | leaf => simp [addrsA] at hx
  | nd l a v r =>
    obtain ⟨xa, xv, hm⟩ := maxA_of_ne_leaf (t := ATree.nd l a v r) (by intro hc; cases hc)
    rw [addrsA_getLast?, hm] at hx
    simp only [Option.map_some', Option.mem_def, Option.some.injEq] at hx
    subst hx
    obtain ⟨fn, hfn, hfr⟩ : ∃ fn, w.heap s.fake = some fn ∧ fn.right = none := by
      have := hw.fake_right
      rw [Option.map_eq_some'] at this
      obtain ⟨fn, h1, h2⟩ := this
      exact ⟨fn, h1, h2⟩
    have hstep : climbR w.heap a (some s.fake) 1 = some (some s.fake) := by
      rw [climbR]
      simp only [hfn]
      rw [if_neg (by rw [hfr]; intro hc; cases hc)]
    have := findNextH_max hw.tree hm hstep
    exact findNextH_mono this (by omega)

/-- Iterating `*it; ++it` along a list of element pairs linked by the
successor chain produces exactly the values, stopping at the sentinel. -/
theorem walkH_chain {h : Heap} {fake : Addr} {F : Nat} :
    ∀ (xs : List (Addr × Int)) (steps : Nat),
      List.Chain' (fun x y => findNextH h x F = some (some y))
        (xs.map Prod.fst ++ [fake]) →
      (∀ p ∈ xs, ∃ n, h p.1 = some n ∧ n.val = some p.2 ∧ n.left ≠ some p.1) →
      (∀ p ∈ xs, p.1 ≠ fake) →
      xs.length + 1 ≤ steps →
      walkH h fake ((xs.map Prod.fst).headD fake) steps F = some (xs.map Prod.snd) := by
  intro xs
  induction xs with
  | nil =>
    intro steps _ _ _ hsteps
    obtain ⟨st, rfl⟩ : ∃ st, steps = st + 1 := ⟨steps - 1, by omega⟩
    rw [walkH]
    simp
  | cons p rest ih =>
    intro steps hchain hnodes hnf hsteps
    obtain ⟨st, rfl⟩ : ∃ st, steps = st + 1 := ⟨steps - 1, by omega⟩
    obtain ⟨n, hn, hval, hleft⟩ := hnodes p (List.mem_cons_self p rest)
    have hne : p.1 ≠ fake := hnf p (List.mem_cons_self p rest)
    have hhd : ((rest.map Prod.fst ++ [fake])).head? =
        some ((rest.map Prod.fst).headD fake) := by
      cases rest <;> simp
    rw [List.map_cons, List.cons_append, List.chain'_cons'] at hchain
    obtain ⟨hhead, htail⟩ := hchain
    have hnext := hhead _ (by rw [hhd]; rfl)
    simp only [List.map_cons, List.headD_cons]
    rw [walkH]
    rw [if_neg hne]
    simp only [hn]
    rw [if_neg hleft]
    simp only [hval, hnext]
    rw [ih st htail (fun q hq => hnodes q (List.mem_cons_of_mem p hq))
      (fun q hq => hnf q (List.mem_cons_of_mem p hq)) (by simp at hsteps ⊢; omega)]
    rfl

theorem headD_of_head? {α : Type} {l : List α} {x d : α} (hl : l.head? = some x) :
    l.headD d = x := by
  cases l with
  | nil => simp at hl
  | cons a l => simp at hl; simp [hl]

theorem pairsA_length : ∀ t : ATree, (pairsA t).length = sizeA t := by
  intro t
  induction t with
  | leaf => rfl
  | nd l a v r ihl ihr => simp [pairsA, sizeA, ihl, ihr]; omega

/-- Iterating a well-formed container from `begin()` to `end()` produces the
in-order value sequence of its tree. -/
theorem iterate_spec {w : World} {s : SetSt} {t : ATree} (hw : WFS w s t)
    {steps F : Nat} (hsteps : sizeA t + 1 ≤ steps) (hF : sizeA t + 2 ≤ F) :
    iterateH w.heap s steps F = some (inorderV t) := by
  cases t with
  | leaf =>
    have hsz : s.size = 0 := by rw [hw.size_eq]; rfl
    obtain ⟨st, rfl⟩ : ∃ st, steps = st + 1 := ⟨steps - 1, by omega⟩
    rw [iterateH, beginH, if_pos hsz]
    rw [Option.some_bind]
    rw [walkH]
    simp [inorderV]
  | nd l a v r =>
    have htne : (ATree.nd l a v r) ≠ .leaf := by intro hc; cases hc
    have hsz : ¬ s.size = 0 := by rw [hw.size_eq]; simp [sizeA]
    obtain ⟨fn, hfn, hfl⟩ : ∃ fn, w.heap s.fake = some fn ∧
        fn.left = rootO (ATree.nd l a v r) := by
      have := hw.fake_root htne
      rw [Option.map_eq_some'] at this
      obtain ⟨fn, h1, h2⟩ := this
      exact ⟨fn, h1, h2⟩
    obtain ⟨ma, mv, hm⟩ := minA_of_ne_leaf htne
    have hmin : findMinH w.heap a F = some ma :=
      findMinH_spec hw.tree hm (by omega)
    rw [iterateH, beginH, if_neg hsz]
    rw [rootO] at hfl
    simp only [hfn, hfl, hmin]
    rw [Option.some_bind]
    have hchain := wfs_chain hw hF
    rw [← pairsA_map_fst] at hchain
    have hhead : ((pairsA (ATree.nd l a v r)).map Prod.fst).headD s.fake = ma := by
      rw [pairsA_map_fst]
      exact headD_of_head? (by rw [addrsA_head?, hm]; rfl)
    have hwalk := walkH_chain (F := F) (pairsA (ATree.nd l a v r)) steps
      hchain (pairs_node_facts hw.tree hw.nodup)
      (fun p hp hc => hw.fake_notin (hc ▸ mem_pairsA_fst hp))
      (by rw [pairsA_length]; omega)
    rw [hhead] at hwalk
    rw [hwalk, pairsA_map_snd]

/-! ## Insert refinement -/

/-- Functional mirror of the `insert` descent loop: either the attachment
parent (`Sum.inl`) or the address of the existing equal element (`Sum.inr`). -/
def insFind : ATree → Int → Option Addr → Option Addr ⊕ Addr
  | .leaf, _, pp => Sum.inl pp
  | .nd l a x r, v, pp =>
    if v < x then insFind l v (some a)
    else if x < v then insFind r v (some a)
    else Sum.inr a

/-- The pointer descent loop computes `insFind`. -/
theorem insLoop_spec {h : Heap} {v : Int} :
    ∀ {t : ATree} {par : Addr} {pp : Option Addr} {f : Nat},
      reprA h t (rootO t) par → sizeA t + 1 ≤ f →
      insLoop h v pp (rootO t) f = some (insFind t v pp) := by
  intro t
  induction t with
  | leaf => intro par pp f _ _; simp [insLoop, insFind, rootO]
  | nd l b y r ihl ihr =>
    intro par pp f hrep hf
    rw [reprA_nd_iff] at hrep
    obtain ⟨n, hn, _, hpar, hval, hl, hr⟩ := hrep
    have hlroot := reprA_ptr hl
    have hrroot := reprA_ptr hr
    obtain ⟨f', rfl⟩ : ∃ f', f = f' + 1 := ⟨f - 1, by omega⟩
    rw [rootO, insLoop]
    simp only [hn, hval]
    rw [insFind]
    by_cases hvy : v < y
    · rw [if_pos hvy, if_pos hvy, hlroot]
      exact ihl (by rw [← hlroot]; exact hl) (by simp [sizeA] at hf ⊢; omega)
    · rw [if_neg hvy, if_neg hvy]
      by_cases hyv : y < v
      · rw [if_pos hyv, if_pos hyv, hrroot]
        exact ihr (by rw [← hrroot]; exact hr) (by simp [sizeA] at hf ⊢; omega)
      · rw [if_neg hyv, if_neg hyv]

/-- The attachment parent returned by a failed search is a node of the tree. -/
theorem insFind_inl_mem {v : Int} :
    ∀ {t : ATree} {pp : Option Addr} {p : Addr},
      t ≠ .leaf → insFind t v pp = Sum.inl (some p) → p ∈ addrsA t := by
  intro t
  induction t with
  | leaf => intro pp p ht _; exact absurd rfl ht
  | nd l b y r ihl ihr =>
    intro pp p _ hfind
    rw [insFind] at hfind
    rw [mem_addrsA]
    by_cases hvy : v < y
    · rw [if_pos hvy] at hfind
      cases l with
      | leaf =>
        rw [insFind] at hfind
        injection hfind with hfind
        injection hfind with hfind
        exact Or.inr (Or.inl hfind.symm)
      | nd l2 a2 v2 r2 => exact Or.inl (ihl (by intro hc; cases hc) hfind)
    · rw [if_neg hvy] at hfind
      by_cases hyv : y < v
      · rw [if_pos hyv] at hfind
        cases r with
        | leaf =>
          rw [insFind] at hfind
          injection hfind with hfind
          injection hfind with hfind
          exact Or.inr (Or.inl hfind.symm)
        | nd l2 a2 v2 r2 => exact Or.inr (Or.inr (ihr (by intro hc; cases hc) hfind))
      · rw [if_neg hyv] at hfind
        cases hfind

/-- A successful search lands on the pair holding the searched value. -/
theorem insFind_found {v : Int} :
    ∀ {t : ATree}, BSTA t → v ∈ inorderV t →
      ∀ pp, ∃ c, insFind t v pp = Sum.inr c ∧ (c, v) ∈ pairsA t := by
  intro t
  induction t with
  | leaf => intro _ hv; simp [inorderV] at hv
  | nd l b y r ihl ihr =>
    intro hbst hv pp
    have hb : (∀ x ∈ inorderV l, x < y) ∧ (∀ x ∈ inorderV r, y < x) ∧ BSTA l ∧ BSTA r := hbst
    rw [inorderV, List.mem_append, List.mem_cons] at hv
    rw [insFind]
    by_cases hvy : v < y
    · rw [if_pos hvy]
      have hvl : v ∈ inorderV l := by
        rcases hv with hv | hv | hv
        · exact hv
        · omega
        · exact absurd (hb.2.1 v hv) (by omega)
      obtain ⟨c, hc, hcp⟩ := ihl hb.2.2.1 hvl (some b)
      exact ⟨c, hc, by rw [pairsA, List.mem_append]; exact Or.inl hcp⟩
    · rw [if_neg hvy]
      by_cases hyv : y < v
      · rw [if_pos hyv]
        have hvr : v ∈ inorderV r := by
          rcases hv with hv | hv | hv
          · exact absurd (hb.1 v hv) (by omega)
          · omega
          · exact hv
        obtain ⟨c, hc, hcp⟩ := ihr hb.2.2.2 hvr (some b)
        exact ⟨c, hc, by rw [pairsA, List.mem_append, List.mem_cons]; exact Or.inr (Or.inr hcp)⟩
      · rw [if_neg hyv]
        have : v = y := by omega
        subst this
        exact ⟨b, rfl, by rw [pairsA, List.mem_append, List.mem_cons]; exact Or.inr (Or.inl rfl)⟩

/-! ## Pure facts about `insertA` -/

theorem insertA_mem {v : Int} {na : Addr} :
    ∀ {t : ATree}, BSTA t →
      ∀ x, x ∈ inorderV (insertA t v na) ↔ x = v ∨ x ∈ inorderV t := by
  intro t
  induction t with
  | leaf => intro _ x; simp [insertA, inorderV]
  | nd l b y r ihl ihr =>
    intro hbst x
    have hb : (∀ x ∈ inorderV l, x < y) ∧ (∀ x ∈ inorderV r, y < x) ∧ BSTA l ∧ BSTA r := hbst
    rw [insertA]
    by_cases hvy : v < y
    · rw [if_pos hvy]
      simp only [inorderV, List.mem_append, List.mem_cons]
      rw [ihl hb.2.2.1]
      tauto
    · rw [if_neg hvy]
      by_cases hyv : y < v
      · rw [if_pos hyv]
        simp only [inorderV, List.mem_append, List.mem_cons]
        rw [ihr hb.2.2.2]
        tauto
      · rw [if_neg hyv]
        have : v = y := by omega
        subst this
        simp only [inorderV, List.mem_append, List.mem_cons]
        tauto

theorem insertA_bst {v : Int} {na : Addr} :
    ∀ {t : ATree}, BSTA t → BSTA (insertA t v na) := by
  intro t
  induction t with
  | leaf => intro _; refine ⟨?_, ?_, trivial, trivial⟩ <;> simp [inorderV]
  | nd l b y r ihl ihr =>
    intro hbst
    have hb : (∀ x ∈ inorderV l, x < y) ∧ (∀ x ∈ inorderV r, y < x) ∧ BSTA l ∧ BSTA r := hbst
    rw [insertA]
    by_cases hvy : v < y
    · rw [if_pos hvy]
      refine ⟨?_, hb.2.1, ihl hb.2.2.1, hb.2.2.2⟩
      intro x hx
      rw [insertA_mem hb.2.2.1] at hx
      rcases hx with rfl | hx
      · exact hvy
      · exact hb.1 x hx
    · rw [if_neg hvy]
      by_cases hyv : y < v
      · rw [if_pos hyv]
        refine ⟨hb.1, ?_, hb.2.2.1, ihr hb.2.2.2⟩
        intro x hx
        rw [insertA_mem hb.2.2.2] at hx
        rcases hx with rfl | hx
        · exact hyv
        · exact hb.2.1 x hx
      · rw [if_neg hyv]
        exact hbst

theorem insertA_size {v : Int} (na : Addr) :
    ∀ {t : ATree}, v ∉ inorderV t → sizeA (insertA t v na) = sizeA t + 1 := by
  intro t
  induction t with
  | leaf => intro _; rfl
  | nd l b y r ihl ihr =>
    intro hv
    rw [inorderV] at hv
    simp only [List.mem_append, List.mem_cons] at hv
    push_neg at hv
    rw [insertA]
    by_cases hvy : v < y
    · rw [if_pos hvy]; simp [sizeA, ihl hv.1]; omega
    · rw [if_neg hvy]
      by_cases hyv : y < v
      · rw [if_pos hyv]; simp [sizeA, ihr hv.2.2]; omega
      · exact absurd hv.2.1 (by omega)

theorem insertA_addr_mem {v : Int} {na : Addr} :
    ∀ {t : ATree}, v ∉ inorderV t →
      ∀ x, x ∈ addrsA (insertA t v na) ↔ x = na ∨ x ∈ addrsA t := by
  intro t
  induction t with
  | leaf => intro _ x; simp [insertA, addrsA]
  | nd l b y r ihl ihr =>
    intro hv x
    rw [inorderV] at hv
    simp only [List.mem_append, List.mem_cons] at hv
    push_neg at hv
    rw [insertA]
    by_cases hvy : v < y
    · rw [if_pos hvy]
      simp only [addrsA, List.mem_append, List.mem_cons]
      rw [ihl hv.1]
      tauto
    · rw [if_neg hvy]
      by_cases hyv : y < v
      · rw [if_pos hyv]
        simp only [addrsA, List.mem_append, List.mem_cons]
        rw [ihr hv.2.2]
        tauto
      · exact absurd hv.2.1 (by omega)

theorem insertA_nodup {v : Int} {na : Addr} :
    ∀ {t : ATree}, v ∉ inorderV t → (addrsA t).Nodup → na ∉ addrsA t →
      (addrsA (insertA t v na)).Nodup := by
  intro t
  induction t with
  | leaf => intro _ _ _; simp [insertA, addrsA]
  | nd l b y r ihl ihr =>
    intro hv hnd hna
    rw [inorderV] at hv
    simp only [List.mem_append, List.mem_cons] at hv
    push_neg at hv
    rw [addrsA] at hnd hna
    simp only [List.mem_append, List.mem_cons] at hna
    push_neg at hna
    obtain ⟨ndl, ndcr, hdisj⟩ := List.nodup_append.mp hnd
    obtain ⟨hbnr, ndr⟩ := List.nodup_cons.mp ndcr
    rw [insertA]
    by_cases hvy : v < y
    · rw [if_pos hvy]
      rw [addrsA, List.nodup_append]
      refine ⟨ihl hv.1 ndl hna.1, ndcr, ?_⟩
      intro x hx
      rw [insertA_addr_mem hv.1] at hx
      rcases hx with rfl | hx
      · intro hc
        rcases List.mem_cons.mp hc with rfl | hc
        · exact hna.2.1 rfl
        · exact hna.2.2 hc
      · exact hdisj hx
    · rw [if_neg hvy]
      by_cases hyv : y < v
      · rw [if_pos hyv]
        rw [addrsA, List.nodup_append]
        refine ⟨ndl, ?_, ?_⟩
        · rw [List.nodup_cons]
          refine ⟨?_, ihr hv.2.2 ndr hna.2.2⟩
          intro hc
          rw [insertA_addr_mem hv.2.2] at hc
          rcases hc with rfl | hc
          · exact hna.2.1 rfl
          · exact hbnr hc
        · intro x hx hc
          rcases List.mem_cons.mp hc with rfl | hc
          · exact hdisj hx (List.mem_cons_self _ _)
          · rw [insertA_addr_mem hv.2.2] at hc
            rcases hc with rfl | hc
            · exact hna.1 hx
            · exact hdisj hx (List.mem_cons_of_mem _ hc)
      · exact absurd hv.2.1 (by omega)

theorem insertA_root {v : Int} {na : Addr} {t : ATree} (ht : t ≠ .leaf) :
    rootO (insertA t v na) = rootO t := by
  cases t with
  | leaf => exact absurd rfl ht
  | nd l b y r =>
    rw [insertA]
    by_cases hvy : v < y
    · rw [if_pos hvy]; rfl
    · rw [if_neg hvy]
      by_cases hyv : y < v
      · rw [if_pos hyv]; rfl
      · rw [if_neg hyv]

theorem attach_frame {h : Heap} {na p : Addr} {nn : HNode} {x : Addr}
    (hxp : x ≠ p) (hxna : x ≠ na) (c : Prop) [Decidable c] :
    (if c then setL (hupd h na nn) p (some na)
     else setR (hupd h na nn) p (some na)) x = h x := by
  split
  · rw [setL_ne _ _ _ hxp, hupd_apply, if_neg hxna]
  · rw [setR_ne _ _ _ hxp, hupd_apply, if_neg hxna]

/-- Heap effect of a successful attachment: the loop returns a parent `p`
holding `pv`; the code allocates the new node at the fresh address `na` and
links it into `p`'s left or right slot according to `v < pv`; the resulting
heap realises `insertA t v na`. -/
theorem ins_attach {h : Heap} {v : Int} (na : Addr) :
    ∀ {t : ATree} {par : Addr} (pp : Option Addr),
      reprA h t (rootO t) par → BSTA t → v ∉ inorderV t → t ≠ .leaf →
      (addrsA t).Nodup → na ∉ addrsA t →
      ∃ p pn pv, insFind t v pp = Sum.inl (some p) ∧ h p = some pn ∧ pn.val = some pv ∧
        reprA (if v < pv then setL (hupd h na ⟨none, none, some p, some v⟩) p (some na)
               else setR (hupd h na ⟨none, none, some p, some v⟩) p (some na))
          (insertA t v na) (rootO t) par := by
  intro t
  induction t with
  | leaf => intro par pp _ _ _ ht _ _; exact absurd rfl ht
  | nd l b y r ihl ihr =>
    intro par pp hrep hbst hv _ hnd hna
    have hb : (∀ x ∈ inorderV l, x < y) ∧ (∀ x ∈ inorderV r, y < x) ∧
        BSTA l ∧ BSTA r := hbst
    rw [reprA_nd_iff] at hrep
    obtain ⟨n, hn, _, hpar, hval, hl, hr⟩ := hrep
    have hlroot := reprA_ptr hl
    have hrroot := reprA_ptr hr
    rw [inorderV] at hv
    simp only [List.mem_append, List.mem_cons] at hv
    push_neg at hv
    rw [addrsA] at hnd hna
    obtain ⟨ndl, ndcr, hdisj⟩ := List.nodup_append.mp hnd
    obtain ⟨hbnr, ndr⟩ := List.nodup_cons.mp ndcr
    simp only [List.mem_append, List.mem_cons] at hna
    push_neg at hna
    by_cases hvy : v < y
    · cases l with
      | leaf =>
        refine ⟨b, n, y, by rw [insFind, if_pos hvy]; rfl, hn, hval, ?_⟩
        rw [if_pos hvy, insertA, if_pos hvy, rootO, reprA_nd_iff]
        have hbna : b ≠ na := fun hc => hna.2.1 hc.symm
        refine ⟨{ n with left := some na }, ?_, rfl, hpar, hval, ?_, ?_⟩
        · rw [setL_apply, if_pos rfl, hupd_apply, if_neg hbna, hn]; rfl
        · rw [insertA, reprA_nd_iff]
          refine ⟨⟨none, none, some b, some v⟩, ?_, rfl, rfl, rfl, rfl, rfl⟩
          rw [setL_ne _ _ _ (fun hc : na = b => hna.2.1 hc), hupd_apply, if_pos rfl]
        · refine reprA_frame hr ?_
          intro x hx
          have hxb : x ≠ b := by
            intro hc; subst hc; exact hbnr hx
          have hxna : ¬ x = na := by
            intro hc; subst hc; exact hna.2.2 hx
          rw [setL_ne _ _ _ hxb, hupd_apply, if_neg hxna]
      | nd l2 a2 v2 r2 =>
        have hlne : (ATree.nd l2 a2 v2 r2) ≠ .leaf := by intro hc; cases hc
        obtain ⟨p, pn, pv, hfind, hp, hpv, hrepr⟩ :=
          ihl (some b) (by rw [← hlroot]; exact hl) hb.2.2.1 hv.1 hlne ndl hna.1
        have hpmem : p ∈ addrsA (ATree.nd l2 a2 v2 r2) := insFind_inl_mem hlne hfind
        have hbp : b ≠ p := fun hc => hdisj (hc ▸ hpmem) (List.mem_cons_self _ _)
        refine ⟨p, pn, pv, by rw [insFind, if_pos hvy]; exact hfind, hp, hpv, ?_⟩
        rw [insertA, if_pos hvy, rootO, reprA_nd_iff]
        refine ⟨n, ?_, rfl, hpar, hval, ?_, ?_⟩
        · rw [attach_frame hbp (fun hc => hna.2.1 hc.symm), hn]
        · rw [hlroot]
          exact hrepr
        · refine reprA_frame hr ?_
          intro x hx
          refine attach_frame ?_ ?_ _
          · intro hc
            subst hc
            exact hdisj hpmem (List.mem_cons_of_mem _ hx)
          · intro hc
            subst hc
            exact hna.2.2 hx
    · by_cases hyv : y < v
      · cases r with
        | leaf =>
          refine ⟨b, n, y, by rw [insFind, if_neg hvy, if_pos hyv]; rfl, hn, hval, ?_⟩
          rw [if_neg (by omega), insertA, if_neg hvy, if_pos hyv, rootO, reprA_nd_iff]
          have hbna : b ≠ na := fun hc => hna.2.1 hc.symm
          refine ⟨{ n with right := some na }, ?_, rfl, hpar, hval, ?_, ?_⟩
          · rw [setR_apply, if_pos rfl, hupd_apply, if_neg hbna, hn]; rfl
          · refine reprA_frame hl ?_
            intro x hx
            have hxb : x ≠ b := by
              intro hc
              subst hc
              exact hdisj hx (List.mem_cons_self _ _)
            have hxna : ¬ x = na := by
              intro hc
              subst hc
              exact hna.1 hx
            rw [setR_ne _ _ _ hxb, hupd_apply, if_neg hxna]
          · rw [insertA, reprA_nd_iff]
            refine ⟨⟨none, none, some b, some v⟩, ?_, rfl, rfl, rfl, rfl, rfl⟩
            rw [setR_ne _ _ _ (fun hc : na = b => hna.2.1 hc), hupd_apply, if_pos rfl]
        | nd l2 a2 v2 r2 =>
          have hrne : (ATree.nd l2 a2 v2 r2) ≠ .leaf := by intro hc; cases hc
          obtain ⟨p, pn, pv, hfind, hp, hpv, hrepr⟩ :=
            ihr (some b) (by rw [← hrroot]; exact hr) hb.2.2.2 hv.2.2 hrne ndr hna.2.2
          have hpmem : p ∈ addrsA (ATree.nd l2 a2 v2 r2) := insFind_inl_mem hrne hfind
          have hbp : b ≠ p := fun hc => hbnr (hc ▸ hpmem)
          refine ⟨p, pn, pv,
            by rw [insFind, if_neg hvy, if_pos hyv]; exact hfind, hp, hpv, ?_⟩
          rw [insertA, if_neg hvy, if_pos hyv, rootO, reprA_nd_iff]
          refine ⟨n, ?_, rfl, hpar, hval, ?_, ?_⟩
          · rw [attach_frame hbp (fun hc => hna.2.1 hc.symm), hn]
          · refine reprA_frame hl ?_
            intro x hx
            refine attach_frame ?_ ?_ _
            · intro hc
              subst hc
              exact hdisj hx (List.mem_cons_of_mem _ hpmem)
            · intro hc
              subst hc
              exact hna.1 hx
          · rw [hrroot]
            exact hrepr
      · exact absurd hv.2.1 (by omega)

theorem WFS.fake_rec {w : World} {s : SetSt} {t : ATree} (hw : WFS w s t) :
    ∃ fn, w.heap s.fake = some fn ∧ fn.right = none ∧ fn.val = none ∧
      (t ≠ .leaf → fn.left = rootO t) := by
  obtain ⟨fn, h1, h2⟩ := Option.map_eq_some'.mp hw.fake_right
  refine ⟨fn, h1, h2, ?_, ?_⟩
  · have := hw.fake_val
    rw [h1] at this
    injection this
  · intro ht
    have := hw.fake_root ht
    rw [h1] at this
    injection this

/-- `insert` on a value already present: finds the existing node, returns it
with `false`, and changes nothing. -/
theorem insertH_found {w : World} {s : SetSt} {t : ATree} {v : Int} {F : Nat}
    (hw : WFS w s t) (hv : v ∈ inorderV t) (hf : sizeA t + 1 ≤ F) :
    ∃ c n, insertH w s v F = some (w, s, c, false) ∧
      w.heap c = some n ∧ n.val = some v ∧ c ∈ addrsA t := by
  have htne : t ≠ .leaf := by
    intro hc
    subst hc
    simp [inorderV] at hv
  have hsz : ¬ s.size = 0 := by
    rw [hw.size_eq]
    cases t with
    | leaf => exact absurd rfl htne
    | nd l a x r => simp [sizeA]
  obtain ⟨fn, hfn, _, _, hflf⟩ := hw.fake_rec
  have hfl := hflf htne
  obtain ⟨c, hcfind, hcp⟩ := insFind_found hw.bst hv none
  obtain ⟨n, hn, hnval, _⟩ := pairs_node_facts hw.tree hw.nodup (c, v) hcp
  refine ⟨c, n, ?_, hn, hnval, mem_pairsA_fst hcp⟩
  rw [insertH, if_neg hsz]
  simp only [hfn, hfl, insLoop_spec hw.tree hf, hcfind]

/-- `insert` on an absent value: allocates the node at the fresh address,
attaches it, and the result is a well-formed container realising
`insertA t v w.next`. -/
theorem insertH_new {w : World} {s : SetSt} {t : ATree} {v : Int} {F : Nat}
    (hw : WFS w s t) (hv : v ∉ inorderV t) (hf : sizeA t + 1 ≤ F) :
    ∃ w' : World, insertH w s v F = some (w', ⟨s.fake, s.size + 1⟩, w.next, true) ∧
      WFS w' ⟨s.fake, s.size + 1⟩ (insertA t v w.next) ∧ w'.next = w.next + 1 := by
  obtain ⟨fn, hfn, hfr, hfv, hflf⟩ := hw.fake_rec
  have hfna : s.fake ≠ w.next := Nat.ne_of_lt hw.fake_lt
  cases t with
  | leaf =>
    have hsz : s.size = 0 := by rw [hw.size_eq]; rfl
    have heq : insertH w s v F =
        some (⟨setP (setL (hupd w.heap w.next ⟨none, none, some s.fake, some v⟩)
          s.fake (some w.next)) s.fake none, w.next + 1⟩,
          ⟨s.fake, s.size + 1⟩, w.next, true) := by
      rw [insertH, if_pos hsz]
    refine ⟨_, heq, ?_, rfl⟩
    have hfa : (setP (setL (hupd w.heap w.next ⟨none, none, some s.fake, some v⟩)
        s.fake (some w.next)) s.fake none) s.fake =
        some { fn with left := some w.next, parent := none } := by
      rw [setP_apply, if_pos rfl, setL_apply, if_pos rfl, hupd_apply, if_neg hfna, hfn]
      rfl
    have haa : (setP (setL (hupd w.heap w.next ⟨none, none, some s.fake, some v⟩)
        s.fake (some w.next)) s.fake none) w.next =
        some ⟨none, none, some s.fake, some v⟩ := by
      rw [setP_ne _ _ _ (Ne.symm hfna), setL_ne _ _ _ (Ne.symm hfna),
        hupd_apply, if_pos rfl]
    refine ⟨?_, ?_, ?_, ?_, ?_, ?_, ?_, ?_, ?_, ?_⟩ <;> try dsimp only
    · rw [hfa]
      simp only [Option.map_some']
      rw [hfr]
    · rw [hfa]
      simp only [Option.map_some']
      rw [hfv]
    · intro _
      rw [hfa]
      rfl
    · rw [insertA, rootO, reprA_nd_iff]
      exact ⟨_, haa, rfl, rfl, rfl, rfl, rfl⟩
    · simp [insertA, addrsA]
    · simp only [insertA, addrsA]
      intro hc
      simp at hc
      exact hfna hc
    · rw [hsz, insertA]
      rfl
    · exact insertA_bst trivial
    · intro x hx
      simp [insertA, addrsA] at hx
      subst hx
      exact Nat.lt_succ_self _
    · exact Nat.lt_succ_of_lt hw.fake_lt
  | nd l b y r =>
    have htne : (ATree.nd l b y r) ≠ .leaf := by intro hc; cases hc
    have hsz : ¬ s.size = 0 := by rw [hw.size_eq]; simp [sizeA]
    have hfl := hflf htne
    obtain ⟨p, pn, pv, hfind, hp, hpv, hrepr⟩ :=
      ins_attach w.next none hw.tree hw.bst hv htne hw.nodup
        (fun hc => absurd (hw.bound _ hc) (lt_irrefl _))
    have hpmem : p ∈ addrsA (ATree.nd l b y r) := insFind_inl_mem htne hfind
    have hfkp : s.fake ≠ p := fun hc => hw.fake_notin (hc ▸ hpmem)
    have heq : insertH w s v F =
        some (⟨(if v < pv
          then setL (hupd w.heap w.next ⟨none, none, some p, some v⟩) p (some w.next)
          else setR (hupd w.heap w.next ⟨none, none, some p, some v⟩) p (some w.next)),
          w.next + 1⟩, ⟨s.fake, s.size + 1⟩, w.next, true) := by
      rw [insertH, if_neg hsz]
      simp only [hfn, hfl, insLoop_spec hw.tree hf, hfind, hp, hpv]
    refine ⟨_, heq, ?_, rfl⟩
    · have hfake2 : (if v < pv
          then setL (hupd w.heap w.next ⟨none, none, some p, some v⟩) p (some w.next)
          else setR (hupd w.heap w.next ⟨none, none, some p, some v⟩) p (some w.next))
          s.fake = w.heap s.fake := attach_frame hfkp hfna _
      refine ⟨?_, ?_, ?_, ?_, ?_, ?_, ?_, ?_, ?_, ?_⟩ <;> try dsimp only
      · rw [hfake2]
        exact hw.fake_right
      · rw [hfake2]
        exact hw.fake_val
      · intro _
        rw [hfake2, insertA_root htne]
        exact hw.fake_root htne
      · rw [insertA_root htne]
        exact hrepr
      · exact insertA_nodup hv hw.nodup (fun hc => absurd (hw.bound _ hc) (lt_irrefl _))
      · intro hc
        rw [insertA_addr_mem hv] at hc
        rcases hc with hc | hc
        · exact hfna hc
        · exact hw.fake_notin hc
      · rw [hw.size_eq]
        exact (insertA_size w.next hv).symm
      · exact insertA_bst hw.bst
      · intro x hx
        rw [insertA_addr_mem hv] at hx
        rcases hx with rfl | hx
        · exact Nat.lt_succ_self _
        · exact Nat.lt_succ_of_lt (hw.bound _ hx)
      · exact Nat.lt_succ_of_lt hw.fake_lt

/-- A fresh `set()` is a well-formed empty container. -/
theorem mkSet_wfs (w : World) : WFS (mkSet w).1 (mkSet w).2 .leaf := by
  have hh : (mkSet w).1.heap (mkSet w).2.fake =
      some ⟨some w.next, none, some w.next, none⟩ := by
    show hupd w.heap w.next _ w.next = _
    rw [hupd_apply, if_pos rfl]
  refine ⟨?_, ?_, ?_, rfl, ?_, ?_, rfl, trivial, ?_, ?_⟩
  · rw [hh]; rfl
  · rw [hh]; rfl
  · intro hc; exact absurd rfl hc
  · simp [addrsA]
  · simp [addrsA]
  · intro x hx; simp [addrsA] at hx
  · exact Nat.lt_succ_self _

/-- Folding `insert` over a list keeps the container well formed; its
contents afterwards are the union of the previous contents and the list. -/
theorem insertList_inv :
    ∀ (vs : List Int) (w : World) (s : SetSt) (t : ATree) (F : Nat),
      WFS w s t → sizeA t + vs.length + 1 ≤ F →
      ∃ w' s' t', insertList w s vs F = some (w', s') ∧ WFS w' s' t' ∧
        (∀ x, x ∈ inorderV t' ↔ x ∈ vs ∨ x ∈ inorderV t) ∧
        sizeA t' ≤ sizeA t + vs.length := by
  intro vs
  induction vs with
  | nil =>
    intro w s t F hw _
    exact ⟨w, s, t, rfl, hw, by simp, by simp⟩
  | cons v rest ih =>
    intro w s t F hw hF
    by_cases hv : v ∈ inorderV t
    · obtain ⟨c, n, heq, _, _, _⟩ := insertH_found (F := F) hw hv (by simp at hF ⊢; omega)
      rw [insertList, heq, Option.some_bind]
      obtain ⟨w', s', t', ih1, ih2, ih3, ih4⟩ := ih w s t F hw (by simp at hF ⊢; omega)
      refine ⟨w', s', t', ih1, ih2, ?_, by simp; omega⟩
      intro x
      rw [ih3]
      simp only [List.mem_cons]
      constructor
      · tauto
      · rintro ((rfl | hx) | hx)
        · exact Or.inr hv
        · tauto
        · tauto
    · obtain ⟨w', heq, hw', hnext⟩ := insertH_new (F := F) hw hv (by simp at hF ⊢; omega)
      rw [insertList, heq, Option.some_bind]
      obtain ⟨w'', s'', t'', ih1, ih2, ih3, ih4⟩ :=
        ih w' ⟨s.fake, s.size + 1⟩ (insertA t v w.next) F hw'
          (by have := insertA_size w.next hv; simp at hF ⊢; omega)
      refine ⟨w'', s'', t'', ih1, ih2, ?_, ?_⟩
      · intro x
        rw [ih3, insertA_mem hw.bst]
        simp only [List.mem_cons]
        tauto
      · have := insertA_size w.next hv
        simp
        omega

/-- The in-order values of a search tree are strictly increasing. -/
theorem bst_chain : ∀ {t : ATree}, BSTA t → List.Chain' (· < ·) (inorderV t) := by
  intro t
  induction t with
  | leaf => intro _; exact List.chain'_nil
  | nd l b y r ihl ihr =>
    intro hbst
    have hb : (∀ x ∈ inorderV l, x < y) ∧ (∀ x ∈ inorderV r, y < x) ∧
        BSTA l ∧ BSTA r := hbst
    rw [inorderV, List.chain'_append]
    refine ⟨ihl hb.2.2.1, ?_, ?_⟩
    · rw [List.chain'_cons']
      exact ⟨fun z hz => hb.2.1 z (List.mem_of_mem_head? hz), ihr hb.2.2.2⟩
    · intro x hx z hz
      simp only [List.head?_cons, Option.mem_def, Option.some.injEq] at hz
      subst hz
      exact hb.1 x (List.mem_of_mem_getLast? hx)

/-! ## Lower / upper bound -/

/-- Functional mirror of the `lower_bound` descent (`result` also carries the
tracked node's value for the proofs). -/
def lbT : ATree → Int → Option (Addr × Int) → Option (Addr × Int)
  | .leaf, _, res => res
  | .nd l a x r, v, res => if v ≤ x then lbT l v (some (a, x)) else lbT r v res

/-- Functional mirror of the `upper_bound` descent. -/
def ubT : ATree → Int → Option (Addr × Int) → Option (Addr × Int)
  | .leaf, _, res => res
  | .nd l a x r, v, res => if v < x then ubT l v (some (a, x)) else ubT r v res

theorem lbLoop_spec {h : Heap} {v : Int} :
    ∀ {t : ATree} {par : Addr} (resT : Option (Addr × Int)) {f : Nat},
      reprA h t (rootO t) par → sizeA t + 1 ≤ f →
      lbLoop h v (rootO t) (resT.map Prod.fst) f = some ((lbT t v resT).map Prod.fst) := by
  intro t
  induction t with
  | leaf => intro par resT f _ _; simp [lbLoop, lbT, rootO]
  | nd l b y r ihl ihr =>
    intro par resT f hrep hf
    rw [reprA_nd_iff] at hrep
    obtain ⟨n, hn, _, hpar, hval, hl, hr⟩ := hrep
    have hlroot := reprA_ptr hl
    have hrroot := reprA_ptr hr
    obtain ⟨f', rfl⟩ : ∃ f', f = f' + 1 := ⟨f - 1, by omega⟩
    rw [rootO, lbLoop]
    simp only [hn, hval]
    rw [lbT]
    by_cases hvy : v ≤ y
    · rw [if_pos hvy, if_pos hvy, hlroot]
      have := ihl (some (b, y)) (by rw [← hlroot]; exact hl)
        (f := f') (by simp [sizeA] at hf ⊢; omega)
      exact this
    · rw [if_neg hvy, if_neg hvy, hrroot]
      exact ihr resT (by rw [← hrroot]; exact hr) (by simp [sizeA] at hf ⊢; omega)

theorem ubLoop_spec {h : Heap} {v : Int} :
    ∀ {t : ATree} {par : Addr} (resT : Option (Addr × Int)) {f : Nat},
      reprA h t (rootO t) par → sizeA t + 1 ≤ f →
      ubLoop h v (rootO t) (resT.map Prod.fst) f = some ((ubT t v resT).map Prod.fst) := by
  intro t
  induction t with
  | leaf => intro par resT f _ _; simp [ubLoop, ubT, rootO]
  | nd l b y r ihl ihr =>
    intro par resT f hrep hf
    rw [reprA_nd_iff] at hrep
    obtain ⟨n, hn, _, hpar, hval, hl, hr⟩ := hrep
    have hlroot := reprA_ptr hl
    have hrroot := reprA_ptr hr
    obtain ⟨f', rfl⟩ : ∃ f', f = f' + 1 := ⟨f - 1, by omega⟩
    rw [rootO, ubLoop]
    simp only [hn, hval]
    rw [ubT]
    by_cases hvy : v < y
    · rw [if_pos hvy, if_pos hvy, hlroot]
      exact ihl (some (b, y)) (by rw [← hlroot]; exact hl)
        (by simp [sizeA] at hf ⊢; omega)
    · rw [if_neg hvy, if_neg hvy, hrroot]
      exact ihr resT (by rw [← hrroot]; exact hr) (by simp [sizeA] at hf ⊢; omega)

/-- On a search tree, the `lower_bound` accumulator descent finds the first
in-order pair satisfying `v ≤ value`, falling back to the accumulator. -/
theorem lbT_eq {v : Int} :
    ∀ {t : ATree}, BSTA t → ∀ res,
      lbT t v res = ((pairsA t).find? (fun p => decide (v ≤ p.2))).or res := by
  intro t
  induction t with
  | leaf => intro _ res; simp [lbT, pairsA]
  | nd l b y r ihl ihr =>
    intro hbst res
    have hb : (∀ x ∈ inorderV l, x < y) ∧ (∀ x ∈ inorderV r, y < x) ∧
        BSTA l ∧ BSTA r := hbst
    rw [lbT, pairsA, List.find?_append]
    by_cases hvy : v ≤ y
    · rw [if_pos hvy, ihl hb.2.2.1 (some (b, y))]
      have hcons : List.find? (fun p => decide (v ≤ p.2)) ((b, y) :: pairsA r) =
          some (b, y) := by
        rw [List.find?_cons_of_pos]
        simp [hvy]
      rw [hcons]
      cases List.find? (fun p => decide (v ≤ p.2)) (pairsA l) <;> rfl
    · rw [if_neg hvy, ihr hb.2.2.2 res]
      have hnl : List.find? (fun p => decide (v ≤ p.2)) (pairsA l) = none := by
        rw [List.find?_eq_none]
        intro p hp
        simp only [decide_eq_true_eq]
        intro hc
        have hpv : p.2 ∈ inorderV l := by
          rw [← pairsA_map_snd]
          exact List.mem_map_of_mem Prod.snd hp
        have := hb.1 p.2 hpv
        omega
      have hcons : List.find? (fun p => decide (v ≤ p.2)) ((b, y) :: pairsA r) =
          List.find? (fun p => decide (v ≤ p.2)) (pairsA r) := by
        rw [List.find?_cons_of_neg]
        simp [hvy]
      rw [hnl, hcons, Option.none_or]

/-- On a search tree, the `upper_bound` accumulator descent finds the first
in-order pair satisfying `v < value`, falling back to the accumulator. -/
theorem ubT_eq {v : Int} :
    ∀ {t : ATree}, BSTA t → ∀ res,
      ubT t v res = ((pairsA t).find? (fun p => decide (v < p.2))).or res := by
  intro t
  induction t with
  | leaf => intro _ res; simp [ubT, pairsA]
  | nd l b y r ihl ihr =>
    intro hbst res
    have hb : (∀ x ∈ inorderV l, x < y) ∧ (∀ x ∈ inorderV r, y < x) ∧
        BSTA l ∧ BSTA r := hbst
    rw [ubT, pairsA, List.find?_append]
    by_cases hvy : v < y
    · rw [if_pos hvy, ihl hb.2.2.1 (some (b, y))]
      have hcons : List.find? (fun p => decide (v < p.2)) ((b, y) :: pairsA r) =
          some (b, y) := by
        rw [List.find?_cons_of_pos]
        simp [hvy]
      rw [hcons]
      cases List.find? (fun p => decide (v < p.2)) (pairsA l) <;> rfl
    · rw [if_neg hvy, ihr hb.2.2.2 res]
      have hnl : List.find? (fun p => decide (v < p.2)) (pairsA l) = none := by
        rw [List.find?_eq_none]
        intro p hp
        simp only [decide_eq_true_eq]
        intro hc
        have hpv : p.2 ∈ inorderV l := by
          rw [← pairsA_map_snd]
          exact List.mem_map_of_mem Prod.snd hp
        have := hb.1 p.2 hpv
        omega
      have hcons : List.find? (fun p => decide (v < p.2)) ((b, y) :: pairsA r) =
          List.find? (fun p => decide (v < p.2)) (pairsA r) := by
        rw [List.find?_cons_of_neg]
        simp [hvy]
      rw [hnl, hcons, Option.none_or]

/-- In a strictly sorted pair list, the first pair satisfying a predicate on
the value is the least one satisfying it. -/
theorem sorted_find?_first {P : Int → Bool} :
    ∀ (xs : List (Addr × Int)), List.Pairwise (· < ·) (xs.map Prod.snd) →
      (∀ q, xs.find? (fun p => P p.2) = some q →
        P q.2 = true ∧ q ∈ xs ∧ ∀ x ∈ xs.map Prod.snd, P x = true → q.2 ≤ x) ∧
      (xs.find? (fun p => P p.2) = none → ∀ x ∈ xs.map Prod.snd, P x = false) := by
  intro xs
  induction xs with
  | nil => intro _; exact ⟨fun q hq => by simp at hq, fun _ x hx => by simp at hx⟩
  | cons p rest ih =>
    intro hpw
    rw [List.map_cons, List.pairwise_cons] at hpw
    obtain ⟨hplt, hpw'⟩ := hpw
    obtain ⟨ihs, ihn⟩ := ih hpw'
    by_cases hP : P p.2 = true
    · constructor
      · intro q hq
        rw [List.find?_cons_of_pos _ (by simp [hP])] at hq
        injection hq with hq
        subst hq
        refine ⟨hP, List.mem_cons_self _ _, ?_⟩
        intro x hx _
        rw [List.map_cons, List.mem_cons] at hx
        rcases hx with rfl | hx
        · exact le_refl _
        · exact le_of_lt (hplt x hx)
      · intro hq
        rw [List.find?_cons_of_pos _ (by simp [hP])] at hq
        cases hq
    · constructor
      · intro q hq
        rw [List.find?_cons_of_neg _ (by simp [hP])] at hq
        obtain ⟨h1, h2, h3⟩ := ihs q hq
        refine ⟨h1, List.mem_cons_of_mem _ h2, ?_⟩
        intro x hx hPx
        rw [List.map_cons, List.mem_cons] at hx
        rcases hx with rfl | hx
        · rw [hPx] at hP; exact absurd rfl hP
        · exact h3 x hx hPx
      · intro hq x hx
        rw [List.find?_cons_of_neg _ (by simp [hP])] at hq
        rw [List.map_cons, List.mem_cons] at hx
        rcases hx with rfl | hx
        · exact Bool.not_eq_true _ ▸ (by simpa using hP)
        · exact ihn hq x hx

/-- Full `lower_bound` contract on a well-formed container: the least
element `≥ v`, or `end()` when every element is `< v`. -/
theorem lowerBoundH_spec {w : World} {s : SetSt} {t : ATree} {v : Int} {F : Nat}
    (hw : WFS w s t) (hF : sizeA t + 1 ≤ F) :
    ∃ r, lowerBoundH w.heap s v F = some r ∧
      ((r = endH s ∧ ∀ x ∈ inorderV t, x < v) ∨
       (∃ n y, w.heap r = some n ∧ n.val = some y ∧ v ≤ y ∧ y ∈ inorderV t ∧
         ∀ x ∈ inorderV t, v ≤ x → y ≤ x)) := by
  have hpw : List.Pairwise (· < ·) ((pairsA t).map Prod.snd) := by
    rw [pairsA_map_snd]
    exact List.chain'_iff_pairwise.mp (bst_chain hw.bst)
  obtain ⟨hsome, hnone⟩ := sorted_find?_first (P := fun y => decide (v ≤ y)) (pairsA t) hpw
  cases t with
  | leaf =>
    have hsz : s.size = 0 := by rw [hw.size_eq]; rfl
    rw [lowerBoundH, if_pos hsz]
    exact ⟨s.fake, rfl, Or.inl ⟨rfl, by simp [inorderV]⟩⟩
  | nd l b y r =>
    have htne : (ATree.nd l b y r) ≠ .leaf := by intro hc; cases hc
    have hsz : ¬ s.size = 0 := by rw [hw.size_eq]; simp [sizeA]
    obtain ⟨fn, hfn, _, _, hflf⟩ := hw.fake_rec
    have hfl := hflf htne
    have hloop := lbLoop_spec (v := v) none hw.tree hF
    rw [lowerBoundH, if_neg hsz]
    simp only [hfn, hfl]
    rw [show (none : Option Addr) = (none : Option (Addr × Int)).map Prod.fst from rfl]
    rw [hloop, lbT_eq hw.bst, Option.or_none]
    cases hfind : (pairsA (ATree.nd l b y r)).find? (fun p => decide (v ≤ p.2)) with
    | none =>
      refine ⟨s.fake, by rfl, Or.inl ⟨rfl, ?_⟩⟩
      intro x hx
      have := hnone hfind x (by rw [pairsA_map_snd]; exact hx)
      simp at this
      omega
    | some q =>
      obtain ⟨hq1, hq2, hq3⟩ := hsome q hfind
      obtain ⟨n, hn, hnv, _⟩ := pairs_node_facts hw.tree hw.nodup q hq2
      refine ⟨q.1, by rfl, Or.inr ⟨n, q.2, hn, hnv, by simpa using hq1, ?_, ?_⟩⟩
      · rw [← pairsA_map_snd]
        exact List.mem_map_of_mem Prod.snd hq2
      · intro x hx hvx
        exact hq3 x (by rw [pairsA_map_snd]; exact hx) (by simpa using hvx)

/-- Full `upper_bound` contract on a well-formed container: the least
element `> v`, or `end()` when every element is `≤ v`. -/
theorem upperBoundH_spec {w : World} {s : SetSt} {t : ATree} {v : Int} {F : Nat}
    (hw : WFS w s t) (hF : sizeA t + 1 ≤ F) :
    ∃ r, upperBoundH w.heap s v F = some r ∧
      ((r = endH s ∧ ∀ x ∈ inorderV t, x ≤ v) ∨
       (∃ n y, w.heap r = some n ∧ n.val = some y ∧ v < y ∧ y ∈ inorderV t ∧
         ∀ x ∈ inorderV t, v < x → y ≤ x)) := by
  have hpw : List.Pairwise (· < ·) ((pairsA t).map Prod.snd) := by
    rw [pairsA_map_snd]
    exact List.chain'_iff_pairwise.mp (bst_chain hw.bst)
  obtain ⟨hsome, hnone⟩ := sorted_find?_first (P := fun y => decide (v < y)) (pairsA t) hpw
  cases t with
  | leaf =>
    have hsz : s.size = 0 := by rw [hw.size_eq]; rfl
    rw [upperBoundH, if_pos hsz]
    exact ⟨s.fake, rfl, Or.inl ⟨rfl, by simp [inorderV]⟩⟩
  | nd l b y r =>
    have htne : (ATree.nd l b y r) ≠ .leaf := by intro hc; cases hc
    have hsz : ¬ s.size = 0 := by rw [hw.size_eq]; simp [sizeA]
    obtain ⟨fn, hfn, _, _, hflf⟩ := hw.fake_rec
    have hfl := hflf htne
    have hloop := ubLoop_spec (v := v) none hw.tree hF
    rw [upperBoundH, if_neg hsz]
    simp only [hfn, hfl]
    rw [show (none : Option Addr) = (none : Option (Addr × Int)).map Prod.fst from rfl]
    rw [hloop, ubT_eq hw.bst, Option.or_none]
    cases hfind : (pairsA (ATree.nd l b y r)).find? (fun p => decide (v < p.2)) with
    | none =>
      refine ⟨s.fake, by rfl, Or.inl ⟨rfl, ?_⟩⟩
      intro x hx
      have := hnone hfind x (by rw [pairsA_map_snd]; exact hx)
      simp at this
      omega
    | some q =>
      obtain ⟨hq1, hq2, hq3⟩ := hsome q hfind
      obtain ⟨n, hn, hnv, _⟩ := pairs_node_facts hw.tree hw.nodup q hq2
      refine ⟨q.1, by rfl, Or.inr ⟨n, q.2, hn, hnv, by simpa using hq1, ?_, ?_⟩⟩
      · rw [← pairsA_map_snd]
        exact List.mem_map_of_mem Prod.snd hq2
      · intro x hx hvx
        exact hq3 x (by rw [pairsA_map_snd]; exact hx) (by simpa using hvx)

/-! ## Subtree teardown and `clear` -/

/-- `del_subtree` frees exactly the nodes of the realised subtree. -/
theorem delSubtree_spec :
    ∀ {t : ATree} {h : Heap} {par : Addr} {F : Nat},
      reprA h t (rootO t) par → (addrsA t).Nodup → sizeA t + 1 ≤ F →
      ∃ h', delSubtreeH h (rootO t) F = some h' ∧
        ∀ x, h' x = if x ∈ addrsA t then none else h x := by
  intro t
  induction t with
  | leaf =>
    intro h par F _ _ _
    refine ⟨h, by simp [delSubtreeH, rootO], ?_⟩
    intro x
    rw [if_neg (by simp [addrsA])]
  | nd l a v r ihl ihr =>
    intro h par F hrep hnd hF
    rw [reprA_nd_iff] at hrep
    obtain ⟨n, hn, _, hpar, hval, hl, hr⟩ := hrep
    have hlroot := reprA_ptr hl
    have hrroot := reprA_ptr hr
    rw [addrsA] at hnd
    obtain ⟨ndl, ndcr, hdisj⟩ := List.nodup_append.mp hnd
    obtain ⟨hanr, ndr⟩ := List.nodup_cons.mp ndcr
    obtain ⟨F', rfl⟩ : ∃ F', F = F' + 1 := ⟨F - 1, by omega⟩
    obtain ⟨h1, hdl, hfr1⟩ := ihl (h := h) (by rw [← hlroot]; exact hl) ndl
      (F := F') (by simp [sizeA] at hF ⊢; omega)
    have hr1 : reprA h1 r (rootO r) a := by
      refine reprA_frame (by rw [← hrroot]; exact hr) ?_
      intro x hx
      rw [hfr1]
      rw [if_neg ?_]
      intro hc
      exact hdisj hc (List.mem_cons_of_mem _ hx)
    obtain ⟨h2, hdr, hfr2⟩ := ihr (h := h1) hr1 ndr (F := F') (by simp [sizeA] at hF ⊢; omega)
    refine ⟨hdel h2 a, ?_, ?_⟩
    · rw [rootO, delSubtreeH]
      simp only [hn, hlroot, hdl, hrroot, hdr]
    · intro x
      rw [hdel_apply, hfr2, hfr1]
      by_cases hxa : x = a
      · rw [if_pos hxa, if_pos (mem_addrsA.mpr (Or.inr (Or.inl hxa)))]
      · rw [if_neg hxa]
        by_cases hxr : x ∈ addrsA r
        · rw [if_pos hxr, if_pos (mem_addrsA.mpr (Or.inr (Or.inr hxr)))]
        · rw [if_neg hxr]
          by_cases hxl : x ∈ addrsA l
          · rw [if_pos hxl, if_pos (mem_addrsA.mpr (Or.inl hxl))]
          · rw [if_neg hxl, if_neg (fun hc => by
              rcases mem_addrsA.mp hc with hc | hc | hc <;> tauto)]

/-- `clear()` on a non-empty container tears the tree down and leaves the
sentinel's root-slot null (not the self-reference of a fresh container). -/
theorem clearH_spec {w : World} {s : SetSt} {t : ATree} {F : Nat}
    (hw : WFS w s t) (ht : t ≠ .leaf) (hF : sizeA t + 1 ≤ F) :
    ∃ w' , clearH w s F = some (w', ⟨s.fake, 0⟩) ∧
      (w'.heap s.fake).map HNode.left = some none ∧
      ∀ x ∈ addrsA t, w'.heap x = none := by
  have hsz : ¬ s.size = 0 := by
    rw [hw.size_eq]
    cases t with
    | leaf => exact absurd rfl ht
    | nd l a v r => simp [sizeA]
  obtain ⟨fn, hfn, _, _, hflf⟩ := hw.fake_rec
  have hfl := hflf ht
  obtain ⟨h1, hdl, hfr⟩ := delSubtree_spec hw.tree hw.nodup hF
  refine ⟨⟨setL h1 s.fake none, w.next⟩, ?_, ?_, ?_⟩
  · rw [clearH, if_neg hsz]
    simp only [hfn, hfl, hdl]
  · show ((setL h1 s.fake none) s.fake).map HNode.left = some none
    rw [setL_apply, if_pos rfl, hfr, if_neg hw.fake_notin, hfn]
    rfl
  · intro x hx
    show (setL h1 s.fake none) x = none
    rw [setL_ne _ _ _ (by intro hc; subst hc; exact hw.fake_notin hx), hfr, if_pos hx]

/-! ## Decrement at the first element -/

/-- The two behaviours of `operator--` on an iterator at the logical first
element, depending on the sentinel's `parent` pointer: with a null parent
(as left by `insert` on an empty set) the trailing `base_assert` fires; with
a self-referencing parent (as left by the copy constructor) the decrement
silently lands on the sentinel, i.e. on `end()`. -/
theorem decH_min_spec {w : World} {s : SetSt} {t : ATree} {ma : Addr} {mv : Int}
    {F : Nat} (hw : WFS w s t) (hm : minA t = some (ma, mv))
    (hF : sizeA t + 2 ≤ F) :
    ((w.heap s.fake).map HNode.parent = some none →
      decH w.heap (some ma) F = some none) ∧
    ((w.heap s.fake).map HNode.parent = some (some s.fake) →
      decH w.heap (some ma) F = some (some s.fake)) := by
  obtain ⟨fn, hfn, _, _, hflf⟩ := hw.fake_rec
  have htne : t ≠ .leaf := by
    intro hc
    subst hc
    simp [minA] at hm
  have hfl := hflf htne
  obtain ⟨rt, hrt⟩ : ∃ rt, rootO t = some rt := by
    cases t with
    | leaf => exact absurd rfl htne
    | nd l a v r => exact ⟨a, rfl⟩
  have htree : reprA w.heap t (some rt) s.fake := by rw [← hrt]; exact hw.tree
  have hrtnf : rt ≠ s.fake := by
    intro hc
    exact hw.fake_notin (hc ▸ rootO_mem hrt)
  constructor
  · intro hpar
    have hfp : fn.parent = none := by
      rw [hfn] at hpar
      injection hpar
    have hstep : climbL w.heap rt (some s.fake) 2 = some none := by
      rw [climbL]
      simp only [hfn]
      rw [if_pos (by rw [hfl, hrt]), hfp]
      rfl
    obtain ⟨mn, hmn, hml, _, hcl⟩ := climbL_min htree hm hstep
    rw [decH]
    simp only [hmn]
    rw [if_neg (by rw [hml]; intro hc; cases hc)]
    simp only [hml]
    rw [climbL_mono hcl (by omega)]
  · intro hpar
    have hfp : fn.parent = some s.fake := by
      rw [hfn] at hpar
      injection hpar
    have hstep : climbL w.heap rt (some s.fake) 2 = some (some s.fake) := by
      rw [climbL]
      simp only [hfn]
      rw [if_pos (by rw [hfl, hrt]), hfp, climbL]
      simp only [hfn]
      rw [if_neg (by rw [hfl, hrt]; intro hc; injection hc with hc; exact hrtnf hc)]
    obtain ⟨mn, hmn, hml, _, hcl⟩ := climbL_min htree hm hstep
    rw [decH]
    simp only [hmn]
    rw [if_neg (by rw [hml]; intro hc; cases hc)]
    simp only [hml]
    rw [climbL_mono hcl (by omega)]
    simp only [hfn]
    rw [if_neg (by rw [hfl, hrt]; intro hc; injection hc with hc; exact hrtnf hc)]

/-! ## Allocation failure during `insert` -/

/-- When an allocation fails inside `insert` (either the `new node` or the
iterator registration) the exception propagates and the container's tree,
contents and size are exactly as before the call; the node is never left
attached (in the non-empty `atIter` case it leaks, unattached, in the heap). -/
theorem insertHF_fail {w : World} {s : SetSt} {t : ATree} {v : Int}
    {fp : AllocFail} {F : Nat} (hw : WFS w s t) (hfp : fp ≠ .ok)
    (hv : v ∉ inorderV t) (hF : sizeA t + 1 ≤ F) :
    ∃ w' s' t', insertHF w s v fp F = some (Sum.inl (w', s')) ∧
      s'.fake = s.fake ∧ s'.size = s.size ∧ WFS w' s' t' ∧
      inorderV t' = inorderV t ∧ addrsA t' = addrsA t ∧
      (∀ a ∈ addrsA t, w'.heap a = w.heap a) := by
  obtain ⟨fn, hfn, hfr, hfv, hflf⟩ := hw.fake_rec
  have hfna : s.fake ≠ w.next := Nat.ne_of_lt hw.fake_lt
  cases t with
  | leaf =>
    have hsz : s.size = 0 := by rw [hw.size_eq]; rfl
    cases fp with
    | ok => exact absurd rfl hfp
    | atNode =>
      refine ⟨w, s, .leaf, ?_, rfl, rfl, hw, rfl, rfl, fun a ha => rfl⟩
      rw [insertHF, if_pos hsz]
    | atIter =>
      have hfa : (setL (hdel (setP (setL (hupd w.heap w.next
          ⟨none, none, some s.fake, some v⟩) s.fake (some w.next)) s.fake none)
          w.next) s.fake none) s.fake =
          some { fn with left := none, parent := none } := by
        rw [setL_apply, if_pos rfl, hdel_apply, if_neg hfna,
          setP_apply, if_pos rfl, setL_apply, if_pos rfl,
          hupd_apply, if_neg hfna, hfn]
        rfl
      have heq : insertHF w s v .atIter F = some (Sum.inl
          (⟨setL (hdel (setP (setL (hupd w.heap w.next
            ⟨none, none, some s.fake, some v⟩) s.fake (some w.next)) s.fake none)
            w.next) s.fake none, w.next + 1⟩, ⟨s.fake, 0⟩)) := by
        rw [insertHF, if_pos hsz]
      refine ⟨_, _, .leaf, heq, rfl, by rw [hsz], ?_, rfl, rfl,
        fun a ha => by simp [addrsA] at ha⟩
      refine ⟨?_, ?_, ?_, rfl, ?_, ?_, ?_, trivial, ?_, ?_⟩ <;> try dsimp only
      · show _ = some none
        rw [hfa]
        simp only [Option.map_some']
        rw [hfr]
      · show _ = some none
        rw [hfa]
        simp only [Option.map_some']
        rw [hfv]
      · intro hc; exact absurd rfl hc
      · simp [addrsA]
      · simp [addrsA]
      · rfl
      · intro x hx; simp [addrsA] at hx
      · exact Nat.lt_succ_of_lt hw.fake_lt
  | nd l b y r =>
    have htne : (ATree.nd l b y r) ≠ .leaf := by intro hc; cases hc
    have hsz : ¬ s.size = 0 := by rw [hw.size_eq]; simp [sizeA]
    have hfl := hflf htne
    obtain ⟨p, pn, pv, hfind, hp, hpv, _⟩ :=
      ins_attach w.next none hw.tree hw.bst hv htne hw.nodup
        (fun hc => absurd (hw.bound _ hc) (lt_irrefl _))
    cases fp with
    | ok => exact absurd rfl hfp
    | atNode =>
      refine ⟨w, s, .nd l b y r, ?_, rfl, rfl, hw, rfl, rfl, fun a ha => rfl⟩
      rw [insertHF, if_neg hsz]
      simp only [hfn, hfl, insLoop_spec hw.tree hF, hfind]
    | atIter =>
      have hframe : ∀ a ∈ addrsA (ATree.nd l b y r),
          hupd w.heap w.next ⟨none, none, some p, some v⟩ a = w.heap a := by
        intro a ha
        rw [hupd_apply, if_neg (by
          intro hc
          subst hc
          exact absurd (hw.bound _ ha) (lt_irrefl _))]
      have heq2 : insertHF w s v .atIter F = some (Sum.inl
          (⟨hupd w.heap w.next ⟨none, none, some p, some v⟩, w.next + 1⟩, s)) := by
        rw [insertHF, if_neg hsz]
        simp only [hfn, hfl, insLoop_spec hw.tree hF, hfind]
      refine ⟨_, s, .nd l b y r, heq2, rfl, rfl, ?_, rfl, rfl, hframe⟩
      · have hfake1 : hupd w.heap w.next ⟨none, none, some p, some v⟩ s.fake =
            w.heap s.fake := by
          rw [hupd_apply, if_neg hfna]
        refine ⟨?_, ?_, ?_, ?_, hw.nodup, hw.fake_notin, hw.size_eq, hw.bst, ?_, ?_⟩ <;>
          try dsimp only
        · show _ = some none
          rw [hfake1]
          exact hw.fake_right
        · show _ = some none
          rw [hfake1]
          exact hw.fake_val
        · intro _
          show _ = some (rootO (ATree.nd l b y r))
          rw [hfake1]
          exact hw.fake_root htne
        · exact reprA_frame hw.tree hframe
        · intro x hx
          exact Nat.lt_succ_of_lt (hw.bound _ hx)
        · exact Nat.lt_succ_of_lt hw.fake_lt

/-! ## Swap -/

theorem setP_left (h : Heap) (a : Addr) (p : Option Addr) (x : Addr) :
    (setP h a p x).map HNode.left = (h x).map HNode.left := by
  rw [setP_apply]; split
  · next he => rw [he, Option.map_map]; rfl
  · rfl

theorem setPO_left (h : Heap) (q p : Option Addr) (x : Addr) :
    (setPO h q p x).map HNode.left = (h x).map HNode.left := by
  cases q with
  | none => rfl
  | some a => exact setP_left h a p x

theorem setPO_val (h : Heap) (q p : Option Addr) (x : Addr) :
    (setPO h q p x).map HNode.val = (h x).map HNode.val := by
  cases q with
  | none => rfl
  | some a => exact setP_val h a p x

theorem setPO_isSome (h : Heap) (q p : Option Addr) (x : Addr) :
    (setPO h q p x).isSome = (h x).isSome := by
  cases q with
  | none => rfl
  | some a => exact setP_isSome h a p x

theorem setPO_ne (h : Heap) {q : Option Addr} (p : Option Addr) {x : Addr}
    (hx : q ≠ some x) : (setPO h q p) x = h x := by
  cases q with
  | none => rfl
  | some a => exact setP_ne h a p (by intro hc; exact hx (by rw [hc]))

/-- Dereferencing depends only on the node's existence, `left` field and
value; heaps agreeing on those at an address dereference identically. -/
theorem derefH_congr {h h' : Heap} {x : Addr}
    (hl : (h' x).map HNode.left = (h x).map HNode.left)
    (hv : (h' x).map HNode.val = (h x).map HNode.val) :
    derefH h' (some x) = derefH h (some x) := by
  cases hx : h x with
  | none =>
    have hx' : h' x = none := by
      rw [hx] at hl
      simp only [Option.map_none', Option.map_eq_none'] at hl
      exact hl
    simp only [derefH, hx, hx']
  | some n =>
    rw [hx] at hl hv
    cases hx2 : h' x with
    | none => rw [hx2] at hl; simp at hl
    | some n' =>
      rw [hx2] at hl hv
      simp only [Option.map_some', Option.some.injEq] at hl hv
      simp only [derefH, hx, hx2, hl, hv]

/-- Re-pointing the root's parent while leaving everything else of a
realised subtree untouched realises the subtree under the new parent. -/
theorem reprA_reparent {h h' : Heap} :
    ∀ {t : ATree} {rt par par' : Addr},
      reprA h t (some rt) par → (addrsA t).Nodup →
      (∀ x ∈ addrsA t, x ≠ rt → h' x = h x) →
      (∀ n, h rt = some n → h' rt = some { n with parent := some par' }) →
      reprA h' t (some rt) par' := by
  intro t
  cases t with
  | leaf => intro rt par par' hrep _ _ _; exact absurd hrep (by simp [reprA_leaf_iff])
  | nd l a v r =>
    intro rt par par' hrep hnd hfr hroot
    rw [reprA_nd_iff] at hrep
    obtain ⟨n, hn, hrt, hpar, hval, hl, hr⟩ := hrep
    injection hrt with hrt
    subst hrt
    rw [addrsA] at hnd hfr
    obtain ⟨ndl, ndcr, hdisj⟩ := List.nodup_append.mp hnd
    obtain ⟨hanr, _⟩ := List.nodup_cons.mp ndcr
    rw [reprA_nd_iff]
    refine ⟨{ n with parent := some par' }, hroot n hn, rfl, rfl, hval, ?_, ?_⟩
    · refine reprA_frame hl ?_
      intro x hx
      refine hfr x (by simp [hx]) ?_
      intro hc
      subst hc
      exact hdisj hx (List.mem_cons_self _ _)
    · refine reprA_frame hr ?_
      intro x hx
      refine hfr x (by simp [hx]) ?_
      intro hc
      subst hc
      exact hanr hx

/-- Effect of `swap(A, B)`: both sentinels stay at their addresses (so end
iterators keep comparing equal to their container's `end()`), every element
node keeps its record's `left` and value (so element iterators still
dereference to the same element), the sizes are exchanged, and each tree is
now realised, unchanged, under the *other* container's sentinel. -/
theorem swapH_spec {h : Heap} {A B : SetSt} {tA tB : ATree} {an bn : HNode}
    (hA : h A.fake = some an) (hB : h B.fake = some bn) (hAB : A.fake ≠ B.fake)
    (hAlf : tA ≠ .leaf → an.left = rootO tA)
    (hAlz : tA = .leaf → an.left = none ∨ an.left = some A.fake)
    (hBlf : tB ≠ .leaf → bn.left = rootO tB)
    (hBlz : tB = .leaf → bn.left = none ∨ bn.left = some B.fake)
    (htA : reprA h tA (rootO tA) A.fake) (htB : reprA h tB (rootO tB) B.fake)
    (hndA : (addrsA tA).Nodup) (hndB : (addrsA tB).Nodup)
    (hdisj : ∀ x, x ∈ addrsA tA → x ∈ addrsA tB → False)
    (hAfA : A.fake ∉ addrsA tA) (hAfB : A.fake ∉ addrsA tB)
    (hBfA : B.fake ∉ addrsA tA) (hBfB : B.fake ∉ addrsA tB) :
    ∃ h', swapH h A B = some (h', ⟨A.fake, B.size⟩, ⟨B.fake, A.size⟩) ∧
      (∀ x, x ≠ A.fake → x ≠ B.fake →
        derefH h' (some x) = derefH h (some x) ∧ (h' x).isSome = (h x).isSome) ∧
      reprA h' tA (rootO tA) B.fake ∧ reprA h' tB (rootO tB) A.fake := by
  have heq : swapH h A B = some (setPO (setPO
      (hupd (hupd h A.fake { an with left := bn.left, right := bn.right, parent := bn.parent })
        B.fake { bn with left := an.left, right := an.right, parent := an.parent })
      an.left (some B.fake)) bn.left (some A.fake),
      ⟨A.fake, B.size⟩, ⟨B.fake, A.size⟩) := by
    rw [swapH]
    simp only [hA, hB]
  set h2 := hupd (hupd h A.fake
      { an with left := bn.left, right := bn.right, parent := bn.parent })
    B.fake { bn with left := an.left, right := an.right, parent := an.parent } with hh2
  set h3 := setPO h2 an.left (some B.fake) with hh3
  set h4 := setPO h3 bn.left (some A.fake) with hh4
  have h2ne : ∀ x, x ≠ A.fake → x ≠ B.fake → h2 x = h x := by
    intro x hxa hxb
    rw [hh2, hupd_apply, if_neg hxb, hupd_apply, if_neg hxa]
  have hal_ne : ∀ x ∈ addrsA tB, an.left ≠ some x := by
    intro x hx hc
    cases tA with
    | leaf =>
      rcases hAlz rfl with hz | hz
      · rw [hz] at hc; cases hc
      · rw [hz] at hc
        injection hc with hc
        exact hAfB (hc ▸ hx)
    | nd la aa va ra =>
      rw [hAlf (by intro hk; cases hk)] at hc
      rw [rootO] at hc
      injection hc with hc
      subst hc
      exact hdisj _ (rootO_mem rfl) hx
  have hbl_ne : ∀ x ∈ addrsA tA, bn.left ≠ some x := by
    intro x hx hc
    cases tB with
    | leaf =>
      rcases hBlz rfl with hz | hz
      · rw [hz] at hc; cases hc
      · rw [hz] at hc
        injection hc with hc
        exact hBfA (hc ▸ hx)
    | nd lb ab vb rb =>
      rw [hBlf (by intro hk; cases hk)] at hc
      rw [rootO] at hc
      injection hc with hc
      subst hc
      exact hdisj _ hx (rootO_mem rfl)
  refine ⟨h4, heq, ?_, ?_, ?_⟩
  · intro x hxa hxb
    have hl4 : (h4 x).map HNode.left = (h x).map HNode.left := by
      rw [hh4, setPO_left, hh3, setPO_left, h2ne x hxa hxb]
    have hv4 : (h4 x).map HNode.val = (h x).map HNode.val := by
      rw [hh4, setPO_val, hh3, setPO_val, h2ne x hxa hxb]
    have hs4 : (h4 x).isSome = (h x).isSome := by
      rw [hh4, setPO_isSome, hh3, setPO_isSome, h2ne x hxa hxb]
    exact ⟨derefH_congr hl4 hv4, hs4⟩
  · cases tA with
    | leaf => exact rfl
    | nd la aa va ra =>
      have haa : aa ∈ addrsA (ATree.nd la aa va ra) := rootO_mem rfl
      have hroot : an.left = some aa := hAlf (by intro hk; cases hk)
      refine reprA_reparent htA hndA ?_ ?_
      · intro x hx hxr
        have hxa : x ≠ A.fake := by intro hc; subst hc; exact hAfA hx
        have hxb : x ≠ B.fake := by intro hc; subst hc; exact hBfA hx
        rw [hh4, setPO_ne _ _ (hbl_ne x hx), hh3, hroot,
          setPO_ne _ _ (by intro hc; injection hc with hc; exact hxr hc.symm),
          h2ne x hxa hxb]
      · intro n hn'
        have haaA : aa ≠ A.fake := by intro hc; subst hc; exact hAfA haa
        have haaB : aa ≠ B.fake := by intro hc; subst hc; exact hBfA haa
        rw [hh4, setPO_ne _ _ (hbl_ne aa haa), hh3, hroot]
        show setP h2 aa (some B.fake) aa = _
        rw [setP_apply, if_pos rfl, h2ne aa haaA haaB, hn']
        rfl
  · cases tB with
    | leaf => exact rfl
    | nd lb ab vb rb =>
      have hab : ab ∈ addrsA (ATree.nd lb ab vb rb) := rootO_mem rfl
      have hroot : bn.left = some ab := hBlf (by intro hk; cases hk)
      refine reprA_reparent htB hndB ?_ ?_
      · intro x hx hxr
        have hxa : x ≠ A.fake := by intro hc; subst hc; exact hAfB hx
        have hxb : x ≠ B.fake := by intro hc; subst hc; exact hBfB hx
        rw [hh4, hroot,
          setPO_ne _ _ (by intro hc; injection hc with hc; exact hxr hc.symm),
          hh3, setPO_ne _ _ (hal_ne x hx), h2ne x hxa hxb]
      · intro n hn'
        have habA : ab ≠ A.fake := by intro hc; subst hc; exact hAfB hab
        have habB : ab ≠ B.fake := by intro hc; subst hc; exact hBfB hab
        rw [hh4, hroot]
        show setP h3 ab (some A.fake) ab = _
        rw [setP_apply, if_pos rfl, hh3, setPO_ne _ _ (hal_ne ab hab),
          h2ne ab habA habB, hn']
        rfl

/-! ## Pure facts about `delMinT`, `mergeT`, `eraseAtT` -/

theorem delMin_pairs :
    ∀ {t : ATree} {ma : Addr} {mv : Int}, minA t = some (ma, mv) →
      pairsA t = (ma, mv) :: pairsA (delMinT t) := by
  intro t
  induction t with
  | leaf => intro ma mv hm; simp [minA] at hm
  | nd l a v r ihl _ =>
    intro ma mv hm
    cases l with
    | leaf =>
      simp only [minA] at hm
      injection hm with hm
      cases hm
      rw [pairsA, delMinT]
      rfl
    | nd l2 a2 v2 r2 =>
      simp only [minA] at hm
      have hd := ihl hm
      rw [pairsA, hd]
      simp [pairsA, delMinT]

theorem mergeT_pairs : ∀ (l r : ATree), pairsA (mergeT l r) = pairsA l ++ pairsA r := by
  intro l r
  cases l with
  | leaf => rw [mergeT]; rfl
  | nd ll la lv lr =>
    cases r with
    | leaf => rw [mergeT] <;> simp [pairsA]
    | nd rl ra rv rr =>
      obtain ⟨ma, mv, hm⟩ := minA_of_ne_leaf (t := ATree.nd rl ra rv rr)
        (by intro hc; cases hc)
      rw [mergeT, hm, pairsA, ← delMin_pairs hm] <;> (intro hc; cases hc)

theorem map_fst_filter (p : Addr) :
    ∀ xs : List (Addr × Int),
      ((xs.filter fun q => decide (q.1 ≠ p)).map Prod.fst) =
        (xs.map Prod.fst).filter fun x => decide (x ≠ p) := by
  intro xs
  induction xs with
  | nil => rfl
  | cons q qs ih =>
    by_cases hq : q.1 = p <;> simp [List.filter_cons, hq] <;> simpa using ih

theorem eraseAt_pairs :
    ∀ {t : ATree} {p : Addr}, (addrsA t).Nodup →
      pairsA (eraseAtT t p) = (pairsA t).filter (fun q => decide (q.1 ≠ p)) := by
  intro t
  induction t with
  | leaf => intro p _; rfl
  | nd l a v r ihl ihr =>
    intro p hnd
    rw [addrsA, List.nodup_append] at hnd
    obtain ⟨hndl, hndr, hdisj⟩ := hnd
    rw [List.nodup_cons] at hndr
    rw [eraseAtT, pairsA, List.filter_append, List.filter_cons]
    by_cases hap : a = p
    · subst hap
      have hfl : (pairsA l).filter (fun q => decide (q.1 ≠ a)) = pairsA l := by
        rw [List.filter_eq_self]
        intro q hq
        have hmem : q.1 ∈ addrsA l := by
          rw [← pairsA_map_fst]; exact List.mem_map_of_mem _ hq
        have hne : q.1 ≠ a := by
          intro hc
          exact hdisj hmem (by rw [hc]; exact List.mem_cons_self _ _)
        simp [hne]
      have hfr : (pairsA r).filter (fun q => decide (q.1 ≠ a)) = pairsA r := by
        rw [List.filter_eq_self]
        intro q hq
        have hmem : q.1 ∈ addrsA r := by
          rw [← pairsA_map_fst]; exact List.mem_map_of_mem _ hq
        have hne : q.1 ≠ a := by
          intro hc; rw [hc] at hmem; exact hndr.1 hmem
        simp [hne]
      rw [if_pos rfl, mergeT_pairs, hfl, hfr]
      simp
    · rw [if_neg hap, pairsA, ihl hndl, ihr hndr.2]
      simp [hap]

theorem eraseAt_addrs {t : ATree} {p : Addr} (hnd : (addrsA t).Nodup) :
    addrsA (eraseAtT t p) = (addrsA t).filter (fun x => decide (x ≠ p)) := by
  rw [← pairsA_map_fst, eraseAt_pairs hnd, map_fst_filter, pairsA_map_fst]

theorem eraseAt_nodup {t : ATree} {p : Addr} (hnd : (addrsA t).Nodup) :
    (addrsA (eraseAtT t p)).Nodup := by
  rw [eraseAt_addrs hnd]
  exact hnd.filter _

theorem eraseAt_not_mem {t : ATree} {p : Addr} (hnd : (addrsA t).Nodup) :
    p ∉ addrsA (eraseAtT t p) := by
  rw [eraseAt_addrs hnd]
  intro hc
  have := List.of_mem_filter hc
  simp at this

theorem filter_ne_middle {p : Addr} {l1 l2 : List Addr}
    (hnd : (l1 ++ p :: l2).Nodup) :
    (l1 ++ p :: l2).filter (fun x => decide (x ≠ p)) = l1 ++ l2 := by
  rw [List.nodup_append] at hnd
  obtain ⟨_, hndr, hdisj⟩ := hnd
  rw [List.nodup_cons] at hndr
  rw [List.filter_append, List.filter_cons]
  have hfl : l1.filter (fun x => decide (x ≠ p)) = l1 := by
    rw [List.filter_eq_self]
    intro x hx
    have hne : x ≠ p := by
      intro hc
      exact hdisj hx (by rw [hc]; exact List.mem_cons_self _ _)
    simp [hne]
  have hfr : l2.filter (fun x => decide (x ≠ p)) = l2 := by
    rw [List.filter_eq_self]
    intro x hx
    have hne : x ≠ p := by
      intro hc; rw [hc] at hx; exact hndr.1 hx
    simp [hne]
  rw [hfl, hfr]
  simp

theorem eraseAt_size {t : ATree} {p : Addr} (hnd : (addrsA t).Nodup)
    (hp : p ∈ addrsA t) : sizeA (eraseAtT t p) + 1 = sizeA t := by
  obtain ⟨l1, l2, hsplit⟩ := List.append_of_mem hp
  have hlen : ∀ u : ATree, (addrsA u).length = sizeA u := by
    intro u
    rw [← pairsA_map_fst, List.length_map, pairsA_length]
  rw [← hlen, ← hlen, eraseAt_addrs hnd, hsplit, filter_ne_middle (hsplit ▸ hnd)]
  simp
  omega

theorem chain_bst : ∀ {t : ATree},
    List.Chain' (· < ·) (inorderV t) → BSTA t := by
  intro t
  induction t with
  | leaf => intro _; trivial
  | nd l a v r ihl ihr =>
    intro hch
    rw [inorderV] at hch
    have hpw : (inorderV l ++ v :: inorderV r).Pairwise (· < ·) :=
      List.chain'_iff_pairwise.mp hch
    rw [List.pairwise_append] at hpw
    obtain ⟨hl, hr, hcross⟩ := hpw
    rw [List.pairwise_cons] at hr
    show (∀ x ∈ inorderV l, x < v) ∧ (∀ x ∈ inorderV r, v < x) ∧ BSTA l ∧ BSTA r
    refine ⟨fun x hx => hcross x hx v (List.mem_cons_self _ _),
      fun x hx => hr.1 x hx,
      ihl (List.chain'_iff_pairwise.mpr hl),
      ihr (List.chain'_iff_pairwise.mpr hr.2)⟩

theorem eraseAt_inorder_sublist {t : ATree} {p : Addr}
    (hnd : (addrsA t).Nodup) :
    (inorderV (eraseAtT t p)).Sublist (inorderV t) := by
  rw [← pairsA_map_snd, ← pairsA_map_snd, eraseAt_pairs hnd]
  exact ((pairsA t).filter_sublist).map Prod.snd

theorem eraseAt_bst {t : ATree} {p : Addr} (hnd : (addrsA t).Nodup)
    (hb : BSTA t) : BSTA (eraseAtT t p) := by
  refine chain_bst (List.chain'_iff_pairwise.mpr ?_)
  exact (List.chain'_iff_pairwise.mp (bst_chain hb)).sublist
    (eraseAt_inorder_sublist hnd)

theorem delMin_addrs {t : ATree} {ma : Addr} {mv : Int}
    (hm : minA t = some (ma, mv)) :
    addrsA t = ma :: addrsA (delMinT t) := by
  rw [← pairsA_map_fst, ← pairsA_map_fst, delMin_pairs hm]
  rfl

theorem delMin_inorder {t : ATree} {ma : Addr} {mv : Int}
    (hm : minA t = some (ma, mv)) :
    inorderV t = mv :: inorderV (delMinT t) := by
  rw [← pairsA_map_snd, ← pairsA_map_snd, delMin_pairs hm]
  rfl

theorem mergeT_addrs (l r : ATree) :
    addrsA (mergeT l r) = addrsA l ++ addrsA r := by
  rw [← pairsA_map_fst, ← pairsA_map_fst, ← pairsA_map_fst, mergeT_pairs]
  simp

theorem mergeT_inorder (l r : ATree) :
    inorderV (mergeT l r) = inorderV l ++ inorderV r := by
  rw [← pairsA_map_snd, ← pairsA_map_snd, ← pairsA_map_snd, mergeT_pairs]
  simp

/-- The detach step of `set::merge` on a heap: the parent of the (left-child)
minimum receives the minimum's right subtree in its `left` slot, and that
subtree, if any, is re-parented. -/
def detachH (h : Heap) (mp : Addr) (w : Option Addr) : Heap :=
  match w with
  | some rr => setP (setL h mp (some rr)) rr (some mp)
  | none => setL h mp none

/-- Splicing the minimum (when it is not the subtree root) out of a realised
tree: the heap after the detach writes realises `delMinT`, everything outside
the subtree is untouched, and the minimum's record itself is untouched. -/
theorem detachMin_spec {h : Heap} :
    ∀ {l : ATree} {a : Addr} {v : Int} {r : ATree} {par ma : Addr} {mv : Int},
      reprA h (.nd l a v r) (some a) par →
      (addrsA (.nd l a v r)).Nodup →
      minA (.nd l a v r) = some (ma, mv) →
      l ≠ .leaf →
      ∃ mn mp mpn,
        h ma = some mn ∧ mn.left = none ∧ mn.val = some mv ∧
        mn.parent = some mp ∧ h mp = some mpn ∧ mpn.left = some ma ∧
        mp ∈ addrsA (.nd l a v r) ∧
        reprA (detachH h mp mn.right) (delMinT (.nd l a v r)) (some a) par ∧
        (∀ x, x ∉ addrsA (.nd l a v r) → detachH h mp mn.right x = h x) ∧
        detachH h mp mn.right ma = h ma := by
  intro l
  induction l with
  | leaf => intro a v r par ma mv _ _ _ hne; exact absurd rfl hne
  | nd l2 a2 v2 r2 ihl _ =>
    intro a v r par ma mv hrep hnd hm _
    rw [reprA_nd_iff] at hrep
    obtain ⟨n, hn, _, hpar, hval, hl, hr⟩ := hrep
    rw [reprA_nd_iff] at hl
    obtain ⟨n2, hn2, hl2ptr, hpar2, hval2, hll, hlr⟩ := hl
    rw [addrsA] at hnd
    obtain ⟨hndl, hndar, hdisj⟩ := List.nodup_append.mp hnd
    obtain ⟨hanr, _⟩ := List.nodup_cons.mp hndar
    have hanl : a ∉ addrsA (ATree.nd l2 a2 v2 r2) :=
      fun hc => hdisj hc (List.mem_cons_self _ _)
    simp only [minA] at hm
    cases l2 with
    | leaf =>
      simp only [minA] at hm
      injection hm with hm
      have hma : a2 = ma := congrArg Prod.fst hm
      have hmv : v2 = mv := congrArg Prod.snd hm
      subst hma; subst hmv
      rw [reprA_leaf_iff] at hll
      have haa2 : a2 ≠ a := by
        intro hc
        exact hanl (hc ▸ rootO_mem (t := ATree.nd .leaf a2 v2 r2) rfl)
      have ha2nr2 : a2 ∉ addrsA r2 := by
        have : (addrsA (ATree.nd ATree.leaf a2 v2 r2)).Nodup := hndl
        rw [addrsA, addrsA] at this
        exact (List.nodup_cons.mp this).1
      refine ⟨n2, a, n, hn2, hll, hval2, hpar2, hn, hl2ptr, ?_, ?_, ?_, ?_⟩
      · rw [mem_addrsA]; exact Or.inr (Or.inl rfl)
      · -- realising `delMinT t = nd r2 a v r` after the detach writes
        show reprA (detachH h a n2.right) (ATree.nd r2 a v r) (some a) par
        cases r2 with
        | leaf =>
          rw [reprA_leaf_iff] at hlr
          rw [hlr, detachH]
          rw [reprA_nd_iff]
          refine ⟨{ n with left := none }, ?_, rfl, hpar, hval, by exact rfl, ?_⟩
          · rw [setL_apply, if_pos rfl, hn]; rfl
          · refine reprA_frame hr ?_
            intro b hb
            exact setL_ne h a none (fun hc => hanr (hc ▸ hb))
        | nd rl2 ra2 rv2 rr2 =>
          have hroot2 : rootO (ATree.nd rl2 ra2 rv2 rr2) = some ra2 := rfl
          rw [reprA_nd_iff] at hlr
          obtain ⟨nr, hnr, hrptr, hrpar, hrval, hrl, hrr⟩ := hlr
          have hra2l : ra2 ∈ addrsA (ATree.nd ATree.leaf a2 v2 (ATree.nd rl2 ra2 rv2 rr2)) := by
            rw [mem_addrsA]
            exact Or.inr (Or.inr (rootO_mem rfl))
          have hra2a : ra2 ≠ a := fun hc => hanl (hc ▸ hra2l)
          rw [hrptr, detachH]
          rw [reprA_nd_iff]
          refine ⟨{ n with left := some ra2 }, ?_, rfl, hpar, hval, ?_, ?_⟩
          · rw [setP_apply, if_neg (Ne.symm hra2a), setL_apply, if_pos rfl, hn]; rfl
          · -- the relocated right subtree of the minimum, re-parented to `a`
            show reprA (setP (setL h a (some ra2)) ra2 (some a))
              (ATree.nd rl2 ra2 rv2 rr2) (some ra2) a
            refine reprA_reparent
              (by rw [reprA_nd_iff]; exact ⟨nr, hnr, rfl, hrpar, hrval, hrl, hrr⟩)
              ((List.nodup_cons.mp (by rw [addrsA, addrsA] at hndl; exact hndl)).2)
              ?_ ?_
            · intro x hx hxr
              have hxl : x ∈ addrsA (ATree.nd ATree.leaf a2 v2 (ATree.nd rl2 ra2 rv2 rr2)) := by
                rw [mem_addrsA]
                exact Or.inr (Or.inr hx)
              have hxa : x ≠ a := by
                intro hc; rw [hc] at hxl; exact hanl hxl
              rw [setP_ne _ _ _ hxr, setL_ne _ _ _ hxa]
            · intro m hm2
              rw [setP_apply, if_pos rfl, setL_ne _ _ _ hra2a, hm2]
              rfl
          · refine reprA_frame hr ?_
            intro b hb
            have hba : b ≠ a := fun hc => hanr (hc ▸ hb)
            have hbr : b ≠ ra2 := by
              intro hc
              exact hdisj (hc ▸ hra2l) (List.mem_cons_of_mem _ hb)
            rw [setP_ne _ _ _ hbr, setL_ne _ _ _ hba]
      · intro x hx
        have hxa : x ≠ a := fun hc => hx (by rw [hc, mem_addrsA]; exact Or.inr (Or.inl rfl))
        cases hr2 : n2.right with
        | none => rw [detachH, setL_ne _ _ _ hxa]
        | some rr =>
          have hrrmem : rr ∈ addrsA (ATree.nd ATree.leaf a2 v2 r2) := by
            rw [hr2] at hlr
            cases r2 with
            | leaf => exact absurd hlr (by simp [reprA_leaf_iff])
            | nd u1 u2 u3 u4 =>
              rw [reprA_nd_iff] at hlr
              obtain ⟨_, _, hp, _⟩ := hlr
              injection hp with hp
              rw [mem_addrsA, hp]
              exact Or.inr (Or.inr (rootO_mem rfl))
          have hxrr : x ≠ rr := by
            intro hc
            exact hx (by rw [hc, mem_addrsA]; exact Or.inl hrrmem)
          rw [detachH, setP_ne _ _ _ hxrr, setL_ne _ _ _ hxa]
      · have h2a : a2 ≠ a := haa2
        cases hr2 : n2.right with
        | none => rw [detachH, setL_ne _ _ _ h2a]
        | some rr =>
          have h2rr : a2 ≠ rr := by
            intro hc
            rw [hr2] at hlr
            cases r2 with
            | leaf => exact absurd hlr (by simp [reprA_leaf_iff])
            | nd u1 u2 u3 u4 =>
              rw [reprA_nd_iff] at hlr
              obtain ⟨_, _, hp, _⟩ := hlr
              injection hp with hp
              exact ha2nr2 (by rw [hc, hp]; exact rootO_mem rfl)
          rw [detachH, setP_ne _ _ _ h2rr, setL_ne _ _ _ h2a]
    | nd l3 a3 v3 r3 =>
      obtain ⟨mn, mp, mpn, hmn, hmnl, hmnv, hmnp, hmp, hmpl, hmpmem, hrepd, hframe, hma⟩ :=
        ihl (by
          rw [reprA_nd_iff]
          exact ⟨n2, hn2, rfl, hpar2, hval2, hll, hlr⟩)
          hndl hm (fun hc => ATree.noConfusion hc)
      refine ⟨mn, mp, mpn, hmn, hmnl, hmnv, hmnp, hmp, hmpl, ?_, ?_, ?_, hma⟩
      · rw [mem_addrsA]; exact Or.inl hmpmem
      · show reprA (detachH h mp mn.right)
          (ATree.nd (delMinT (ATree.nd (ATree.nd l3 a3 v3 r3) a2 v2 r2)) a v r)
          (some a) par
        rw [reprA_nd_iff]
        refine ⟨n, by rw [hframe a hanl]; exact hn, rfl, hpar, hval, ?_, ?_⟩
        · rw [hl2ptr]
          exact hrepd
        · refine reprA_frame hr ?_
          intro b hb
          exact hframe b (fun hc => hdisj hc (List.mem_cons_of_mem _ hb))
      · intro x hx
        refine hframe x ?_
        intro hc
        exact hx (by rw [mem_addrsA]; exact Or.inl hc)

theorem detachH_val (h : Heap) (mp : Addr) (w : Option Addr) (x : Addr) :
    (detachH h mp w x).map HNode.val = (h x).map HNode.val := by
  cases w with
  | none => rw [detachH, setL_val]
  | some rr => rw [detachH, setP_val, setL_val]

theorem detachH_isSome (h : Heap) (mp : Addr) (w : Option Addr) (x : Addr) :
    (detachH h mp w x).isSome = (h x).isSome := by
  cases w with
  | none => rw [detachH, setL_isSome]
  | some rr => rw [detachH, setP_isSome, setL_isSome]

/-- `set::merge` refines `mergeT`: it succeeds, returns the root of
`mergeT lt rt`, touches no address outside the two subtrees, never moves a
value or frees a node, and — once the caller re-parents the returned root —
the heap realises `mergeT lt rt`. -/
theorem mergeH_spec {h : Heap} {lt rt : ATree} {p : Addr} {F : Nat}
    (hl : reprA h lt (rootO lt) p) (hr : reprA h rt (rootO rt) p)
    (hnd : (addrsA lt ++ addrsA rt).Nodup)
    (hF : sizeA rt + 1 ≤ F) :
    ∃ h1, mergeH h (rootO lt) (rootO rt) F = some (h1, rootO (mergeT lt rt)) ∧
      (∀ x, x ∉ addrsA lt → x ∉ addrsA rt → h1 x = h x) ∧
      (∀ x, (h1 x).map HNode.val = (h x).map HNode.val) ∧
      (∀ x, (h1 x).isSome = (h x).isSome) ∧
      (∀ q, reprA (setPO h1 (rootO (mergeT lt rt)) (some q)) (mergeT lt rt)
        (rootO (mergeT lt rt)) q) := by
  obtain ⟨hndl, hndr, hdisj⟩ := List.nodup_append.mp hnd
  cases lt with
  | leaf =>
    refine ⟨h, ?_, fun x _ _ => rfl, fun x => rfl, fun x => rfl, ?_⟩
    · rw [mergeT]
      rfl
    · intro q
      rw [mergeT]
      cases rt with
      | leaf => exact rfl
      | nd rl ra rv rr =>
        show reprA (setP h ra (some q)) (ATree.nd rl ra rv rr) (some ra) q
        refine reprA_reparent hr hndr ?_ ?_
        · intro x _ hxr
          exact setP_ne _ _ _ hxr
        · intro n hn
          rw [setP_apply, if_pos rfl, hn]
          rfl
  | nd ll la lv lr =>
    have hlaMem : la ∈ addrsA (ATree.nd ll la lv lr) := rootO_mem rfl
    cases rt with
    | leaf =>
      have hmt : mergeT (ATree.nd ll la lv lr) .leaf = ATree.nd ll la lv lr := rfl
      refine ⟨h, ?_, fun x _ _ => rfl, fun x => rfl, fun x => rfl, ?_⟩
      · rw [hmt]
        rfl
      · intro q
        rw [hmt]
        show reprA (setP h la (some q)) (ATree.nd ll la lv lr) (some la) q
        refine reprA_reparent hl hndl ?_ ?_
        · intro x _ hxr
          exact setP_ne _ _ _ hxr
        · intro n hn
          rw [setP_apply, if_pos rfl, hn]
          rfl
    | nd rl ra rv rr =>
      obtain ⟨ma, mv, hm⟩ := minA_of_ne_leaf (t := .nd rl ra rv rr)
        (fun hc => ATree.noConfusion hc)
      have hfind : findMinH h ra F = some ma := findMinH_spec hr hm hF
      have hmamem : ma ∈ addrsA (ATree.nd rl ra rv rr) := minA_mem_addrs hm
      have hraMem : ra ∈ addrsA (ATree.nd rl ra rv rr) := by
        rw [mem_addrsA]; exact Or.inr (Or.inl rfl)
      have hmt : mergeT (ATree.nd ll la lv lr) (ATree.nd rl ra rv rr)
          = ATree.nd (ATree.nd ll la lv lr) ma mv (delMinT (ATree.nd rl ra rv rr)) := by
        rw [mergeT, hm] <;> (intro hc; cases hc)
      have hlaRa : la ≠ ra := fun hc => hdisj hlaMem (by rw [hc]; exact hraMem)
      have hlaMa : la ≠ ma := fun hc => hdisj hlaMem (by rw [hc]; exact hmamem)
      rw [addrsA] at hndr
      obtain ⟨hndrl, hndrar, hdisjr⟩ := List.nodup_append.mp hndr
      obtain ⟨hranr, hndrr⟩ := List.nodup_cons.mp hndrar
      rw [reprA_nd_iff] at hr
      obtain ⟨rn, hrn, _, hrpar, hrval, hrl, hrr⟩ := hr
      by_cases hEq : ma = ra
      · -- the minimum of the right subtree is its root: `rl` must be empty
        have hrl_leaf : rl = .leaf := by
          cases rl with
          | leaf => rfl
          | nd x1 x2 x3 x4 =>
            exfalso
            simp only [minA] at hm
            have hmem := minA_mem_addrs hm
            exact hdisjr hmem (by rw [← hEq]; exact List.mem_cons_self _ _)
        subst hrl_leaf
        simp only [minA] at hm
        injection hm with hm
        have h1 : ra = ma := congrArg Prod.fst hm
        have h2 : rv = mv := congrArg Prod.snd hm
        subst h1; subst h2
        refine ⟨setP (setL h ra (some la)) la (some ra), ?_, ?_, ?_, ?_, ?_⟩
        · rw [hmt]
          show mergeH h (some la) (some ra) F =
            some (setP (setL h ra (some la)) la (some ra), some ra)
          simp only [mergeH, hfind]
          simp
        · intro x hxl hxr
          have hxla : x ≠ la := fun hc => hxl (by rw [hc]; exact hlaMem)
          have hxra : x ≠ ra := fun hc => hxr (by rw [hc]; exact hraMem)
          rw [setP_ne _ _ _ hxla, setL_ne _ _ _ hxra]
        · intro x
          rw [setP_val, setL_val]
        · intro x
          rw [setP_isSome, setL_isSome]
        · intro q
          rw [hmt]
          show reprA (setP (setP (setL h ra (some la)) la (some ra)) ra (some q))
            (ATree.nd (ATree.nd ll la lv lr) ra rv rr) (some ra) q
          rw [reprA_nd_iff]
          refine ⟨{ rn with left := some la, parent := some q }, ?_, rfl, rfl,
            hrval, ?_, ?_⟩
          · rw [setP_apply, if_pos rfl, setP_ne _ _ _ (Ne.symm hlaRa),
              setL_apply, if_pos rfl, hrn]
            rfl
          · show reprA (setP (setP (setL h ra (some la)) la (some ra)) ra (some q))
              (ATree.nd ll la lv lr) (some la) ra
            refine reprA_reparent hl hndl ?_ ?_
            · intro x hx hxla
              have hxrt : x ∉ addrsA (ATree.nd ATree.leaf ra rv rr) :=
                fun hc => hdisj hx hc
              have hxra : x ≠ ra := fun hc => hxrt (by rw [hc]; exact hraMem)
              rw [setP_ne _ _ _ hxra, setP_ne _ _ _ hxla, setL_ne _ _ _ hxra]
            · intro n hn
              rw [setP_ne _ _ _ hlaRa, setP_apply, if_pos rfl,
                setL_ne _ _ _ hlaRa, hn]
              rfl
          · refine reprA_frame hrr ?_
            intro b hb
            have hbrt : b ∈ addrsA (ATree.nd ATree.leaf ra rv rr) := by
              rw [mem_addrsA]; exact Or.inr (Or.inr hb)
            have hbra : b ≠ ra := fun hc => hranr (by rw [← hc]; exact hb)
            have hbla : b ≠ la := fun hc => hdisj (by rw [hc]; exact hlaMem) hbrt
            rw [setP_ne _ _ _ hbra, setP_ne _ _ _ hbla, setL_ne _ _ _ hbra]
      · -- the minimum is strictly inside: detach it, then relink
        have hrlne : rl ≠ .leaf := by
          intro hc
          subst hc
          simp only [minA] at hm
          injection hm with hm
          exact hEq (congrArg Prod.fst hm).symm
        have hrt : reprA h (ATree.nd rl ra rv rr) (some ra) p := by
          rw [reprA_nd_iff]
          exact ⟨rn, hrn, rfl, hrpar, hrval, hrl, hrr⟩
        have hndrt : (addrsA (ATree.nd rl ra rv rr)).Nodup := by
          rw [addrsA]
          exact List.nodup_append.mpr ⟨hndrl, hndrar, hdisjr⟩
        obtain ⟨mn, mp, mpn, hmn, hmnl, hmnv, hmnp, hmp, hmpl, hmpmem, hrepd,
          hframe, hma⟩ := detachMin_spec hrt hndrt hm hrlne
        have hRaMa : ra ≠ ma := fun hc => hEq hc.symm
        have hdelmem : ∀ x ∈ addrsA (delMinT (ATree.nd rl ra rv rr)),
            x ∈ addrsA (ATree.nd rl ra rv rr) := by
          intro x hx
          rw [delMin_addrs hm]
          exact List.mem_cons_of_mem _ hx
        have hmandel : ma ∉ addrsA (delMinT (ATree.nd rl ra rv rr)) := by
          have := hndrt
          rw [delMin_addrs hm] at this
          exact (List.nodup_cons.mp this).1
        have hnddel : (addrsA (delMinT (ATree.nd rl ra rv rr))).Nodup := by
          have := hndrt
          rw [delMin_addrs hm] at this
          exact (List.nodup_cons.mp this).2
        have hcomp : mergeH h (some la) (some ra) F =
            some (setP (setP (setR (setL (detachH h mp mn.right) ma (some la))
              ma (some ra)) la (some ma)) ra (some ma), some ma) := by
          cases hmnr : mn.right with
          | none =>
            simp only [mergeH, hfind, if_neg hEq, hmn, hmnp, hmp, if_pos hmpl,
              hmnr, detachH]
          | some rr2 =>
            simp only [mergeH, hfind, if_neg hEq, hmn, hmnp, hmp, if_pos hmpl,
              hmnr, detachH]
        refine ⟨setP (setP (setR (setL (detachH h mp mn.right) ma (some la))
          ma (some ra)) la (some ma)) ra (some ma), ?_, ?_, ?_, ?_, ?_⟩
        · rw [hmt]
          exact hcomp
        · intro x hxl hxr
          have hxla : x ≠ la := fun hc => hxl (by rw [hc]; exact hlaMem)
          have hxra : x ≠ ra := fun hc => hxr (by rw [hc]; exact hraMem)
          have hxma : x ≠ ma := fun hc => hxr (by rw [hc]; exact hmamem)
          rw [setP_ne _ _ _ hxra, setP_ne _ _ _ hxla, setR_ne _ _ _ hxma,
            setL_ne _ _ _ hxma, hframe x hxr]
        · intro x
          rw [setP_val, setP_val, setR_val, setL_val, detachH_val]
        · intro x
          rw [setP_isSome, setP_isSome, setR_isSome, setL_isSome, detachH_isSome]
        · intro q
          rw [hmt]
          show reprA (setP (setP (setP (setR (setL (detachH h mp mn.right) ma
              (some la)) ma (some ra)) la (some ma)) ra (some ma)) ma (some q))
            (ATree.nd (ATree.nd ll la lv lr) ma mv
              (delMinT (ATree.nd rl ra rv rr))) (some ma) q
          rw [reprA_nd_iff]
          refine ⟨{ mn with left := some la, right := some ra, parent := some q },
            ?_, rfl, rfl, hmnv, ?_, ?_⟩
          · rw [setP_apply, if_pos rfl, setP_ne _ _ _ hEq,
              setP_ne _ _ _ (Ne.symm hlaMa), setR_apply, if_pos rfl, setL_apply,
              if_pos rfl, hma, hmn]
            rfl
          · show reprA (setP (setP (setP (setR (setL (detachH h mp mn.right) ma
                (some la)) ma (some ra)) la (some ma)) ra (some ma)) ma (some q))
              (ATree.nd ll la lv lr) (some la) ma
            refine reprA_reparent hl hndl ?_ ?_
            · intro x hx hxla
              have hxrt : x ∉ addrsA (ATree.nd rl ra rv rr) :=
                fun hc => hdisj hx hc
              have hxra : x ≠ ra := fun hc => hxrt (by rw [hc]; exact hraMem)
              have hxma : x ≠ ma := fun hc => hxrt (by rw [hc]; exact hmamem)
              rw [setP_ne _ _ _ hxma, setP_ne _ _ _ hxra, setP_ne _ _ _ hxla,
                setR_ne _ _ _ hxma, setL_ne _ _ _ hxma, hframe x hxrt]
            · intro n hn
              have hlart : la ∉ addrsA (ATree.nd rl ra rv rr) :=
                fun hc => hdisj hlaMem hc
              rw [setP_ne _ _ _ hlaMa, setP_ne _ _ _ hlaRa, setP_apply,
                if_pos rfl, setR_ne _ _ _ hlaMa, setL_ne _ _ _ hlaMa,
                hframe la hlart, hn]
              rfl
          · show reprA (setP (setP (setP (setR (setL (detachH h mp mn.right) ma
                (some la)) ma (some ra)) la (some ma)) ra (some ma)) ma (some q))
              (delMinT (ATree.nd rl ra rv rr)) (some ra) ma
            refine reprA_reparent hrepd hnddel ?_ ?_
            · intro x hx hxra
              have hxrt := hdelmem x hx
              have hxma : x ≠ ma := fun hc => hmandel (by rw [← hc]; exact hx)
              have hxla : x ≠ la := fun hc => hdisj (by rw [hc]; exact hlaMem) hxrt
              rw [setP_ne _ _ _ hxma, setP_ne _ _ _ hxra, setP_ne _ _ _ hxla,
                setR_ne _ _ _ hxma, setL_ne _ _ _ hxma]
            · intro n hn
              rw [setP_ne _ _ _ hRaMa, setP_apply, if_pos rfl,
                setP_ne _ _ _ (Ne.symm hlaRa), setR_ne _ _ _ hRaMa,
                setL_ne _ _ _ hRaMa, hn]
              rfl

theorem eraseAtT_not_mem : ∀ {t : ATree} {p : Addr},
    p ∉ addrsA t → eraseAtT t p = t := by
  intro t
  induction t with
  | leaf => intro p _; rfl
  | nd l a v r ihl ihr =>
    intro p hp
    rw [mem_addrsA] at hp
    push_neg at hp
    rw [eraseAtT, if_neg (fun hc => hp.2.1 hc.symm), ihl hp.1, ihr hp.2.2]

/-- The parent-slot relink of `erase`: the child slot of `dp` that held the
erased node receives the merged subtree `m`, and `m` (if non-null) is
re-parented to `dp`. -/
def linkH (h1 : Heap) (dp p : Addr) (dpn : HNode) (m : Option Addr) : Heap :=
  setPO (if dpn.left = some p then setL h1 dp m else setR h1 dp m) m (some dp)

theorem linkH_val (h1 : Heap) (dp p : Addr) (dpn : HNode) (m : Option Addr)
    (x : Addr) :
    (linkH h1 dp p dpn m x).map HNode.val = (h1 x).map HNode.val := by
  rw [linkH, setPO_val]
  split
  · rw [setL_val]
  · rw [setR_val]

theorem linkH_isSome (h1 : Heap) (dp p : Addr) (dpn : HNode) (m : Option Addr)
    (x : Addr) :
    (linkH h1 dp p dpn m x).isSome = (h1 x).isSome := by
  rw [linkH, setPO_isSome]
  split
  · rw [setL_isSome]
  · rw [setR_isSome]

theorem linkH_ne (h1 : Heap) (dp p : Addr) (dpn : HNode) (m : Option Addr)
    {x : Addr} (hxdp : x ≠ dp) (hxm : m ≠ some x) :
    linkH h1 dp p dpn m x = h1 x := by
  rw [linkH, setPO_ne _ _ hxm]
  split
  · rw [setL_ne _ _ _ hxdp]
  · rw [setR_ne _ _ _ hxdp]

theorem setPO_congr_at {h h' : Heap} {m pp : Option Addr} {x : Addr}
    (hx : h' x = h x) (hm : ∀ mr, m = some mr → h' mr = h mr) :
    setPO h' m pp x = setPO h m pp x := by
  cases m with
  | none => exact hx
  | some mr =>
    show setP h' mr pp x = setP h mr pp x
    rw [setP_apply, setP_apply, hm mr rfl]
    split
    · rfl
    · exact hx

/-- The splice phase of `set::erase(pos)` refines `eraseAtT`: reading the
doomed node `p`, merging its children, and relinking the result into `p`'s
parent slot yields a heap realising `eraseAtT t p`; everything outside the
subtree (except the parent record) is untouched, no value moves and no node
is freed yet, the merged root is never `p` itself, and the parent record's
update is exactly "the child slot that held `p` now holds `m`". -/
theorem eraseLink_spec {h : Heap} :
    ∀ {t : ATree} {par p : Addr} {parn : HNode} {F : Nat},
      reprA h t (rootO t) par → (addrsA t).Nodup → par ∉ addrsA t →
      h par = some parn → p ∈ addrsA t → sizeA t + 1 ≤ F →
      ∃ pn dp h1 m dpn,
        h p = some pn ∧ pn.parent = some dp ∧
        mergeH h pn.left pn.right F = some (h1, m) ∧
        h1 dp = some dpn ∧
        reprA (linkH h1 dp p dpn m) (eraseAtT t p) (rootO (eraseAtT t p)) par ∧
        (∀ x, x ∉ addrsA t → x ≠ dp → linkH h1 dp p dpn m x = h x) ∧
        (∀ x, (linkH h1 dp p dpn m x).map HNode.val = (h x).map HNode.val) ∧
        (∀ x, (linkH h1 dp p dpn m x).isSome = (h x).isSome) ∧
        m ≠ some p ∧
        (rootO t = some p → dp = par ∧ m = rootO (eraseAtT t p) ∧
          linkH h1 dp p dpn m par =
            some (if parn.left = some p then { parn with left := m }
                  else { parn with right := m })) ∧
        (rootO t ≠ some p → dp ∈ addrsA t ∧
          rootO (eraseAtT t p) = rootO t ∧
          (∀ x, x ∉ addrsA t → linkH h1 dp p dpn m x = h x)) := by
  intro t
  induction t with
  | leaf => intro par p parn F _ _ _ _ hp _; simp [addrsA] at hp
  | nd l a v r ihl ihr =>
    intro par p parn F hrep hnd hparn hhpar hp hF
    rw [reprA_nd_iff] at hrep
    obtain ⟨n, hn, _, hpar, hval, hl, hr⟩ := hrep
    rw [addrsA] at hnd
    obtain ⟨hndl, hndar, hdisj⟩ := List.nodup_append.mp hnd
    obtain ⟨hanr, hndr⟩ := List.nodup_cons.mp hndar
    have hanl : a ∉ addrsA l := fun hc => hdisj hc (List.mem_cons_self _ _)
    have hparl : par ∉ addrsA l :=
      fun hc => hparn (by rw [mem_addrsA]; exact Or.inl hc)
    have hparr : par ∉ addrsA r :=
      fun hc => hparn (by rw [mem_addrsA]; exact Or.inr (Or.inr hc))
    have hpara : par ≠ a :=
      fun hc => hparn (by rw [mem_addrsA]; exact Or.inr (Or.inl hc))
    by_cases hpa : p = a
    · -- erasing the root of this subtree
      subst hpa
      have heq : eraseAtT (ATree.nd l p v r) p = mergeT l r := by
        rw [eraseAtT, if_pos rfl]
      have hndlr : (addrsA l ++ addrsA r).Nodup := by
        refine List.Nodup.sublist ?_ hnd
        exact List.Sublist.append_left (List.sublist_cons_self _ _) _
      have hFr : sizeA r + 1 ≤ F := by rw [sizeA] at hF; omega
      obtain ⟨h1, hcomp, hfr, hval1, hsome1, hrepr⟩ :=
        mergeH_spec (p := p) (by rw [← reprA_ptr hl]; exact hl)
          (by rw [← reprA_ptr hr]; exact hr) hndlr hFr
      have hmem_sub : ∀ x ∈ addrsA (mergeT l r),
          x ∈ addrsA (ATree.nd l p v r) := by
        intro x hx
        rw [mergeT_addrs] at hx
        rw [mem_addrsA]
        rcases List.mem_append.mp hx with hx | hx
        · exact Or.inl hx
        · exact Or.inr (Or.inr hx)
      have hmpar : rootO (mergeT l r) ≠ some par := by
        intro hc
        exact hparn (hmem_sub par (rootO_mem hc))
      have hpar1 : h1 par = some parn := by
        rw [hfr par hparl hparr, hhpar]
      have hagree : ∀ x ∈ addrsA (mergeT l r),
          linkH h1 par p parn (rootO (mergeT l r)) x =
            setPO h1 (rootO (mergeT l r)) (some par) x := by
        intro x hx
        have hxpar : x ≠ par := fun hc => hparn (by rw [← hc]; exact hmem_sub x hx)
        rw [linkH]
        refine setPO_congr_at ?_ ?_
        · split
          · exact setL_ne _ _ _ hxpar
          · exact setR_ne _ _ _ hxpar
        · intro mr hmr
          have hmrpar : mr ≠ par :=
            fun hc => hparn (by rw [← hc]; exact hmem_sub mr (rootO_mem hmr))
          split
          · exact setL_ne _ _ _ hmrpar
          · exact setR_ne _ _ _ hmrpar
      refine ⟨n, par, h1, rootO (mergeT l r), parn, hn, hpar, ?_, hpar1,
        ?_, ?_, ?_, ?_, ?_, ?_, ?_⟩
      · rw [reprA_ptr hl, reprA_ptr hr]
        exact hcomp
      · rw [heq]
        exact reprA_frame (hrepr par) hagree
      · intro x hx hxpar
        have hxm : rootO (mergeT l r) ≠ some x := by
          intro hc
          exact hx (hmem_sub x (rootO_mem hc))
        rw [linkH_ne _ _ _ _ _ hxpar hxm]
        refine hfr x ?_ ?_
        · intro hc; exact hx (by rw [mem_addrsA]; exact Or.inl hc)
        · intro hc; exact hx (by rw [mem_addrsA]; exact Or.inr (Or.inr hc))
      · intro x
        rw [linkH_val, hval1]
      · intro x
        rw [linkH_isSome, hsome1]
      · intro hc
        have hpm : p ∈ addrsA (mergeT l r) := rootO_mem hc
        rw [mergeT_addrs] at hpm
        rcases List.mem_append.mp hpm with hpm | hpm
        · exact hanl hpm
        · exact hanr hpm
      · intro _
        refine ⟨rfl, by rw [heq], ?_⟩
        rw [linkH, setPO_ne _ _ hmpar]
        by_cases hsp : parn.left = some p
        · rw [if_pos hsp, if_pos hsp, setL_apply, if_pos rfl, hpar1]
          rfl
        · rw [if_neg hsp, if_neg hsp, setR_apply, if_pos rfl, hpar1]
          rfl
      · intro hc
        exact absurd rfl hc
    · -- the doomed node lies strictly inside a child subtree
      have hne : a ≠ p := fun hc => hpa hc.symm
      have hmem : p ∈ addrsA l ∨ p ∈ addrsA r := by
        rw [mem_addrsA] at hp
        rcases hp with hp | hp | hp
        · exact Or.inl hp
        · exact absurd hp hpa
        · exact Or.inr hp
      rcases hmem with hpl | hpr
      · -- recurse into the left subtree
        have hpnr : p ∉ addrsA r := fun hc => hdisj hpl (List.mem_cons_of_mem _ hc)
        have herr : eraseAtT r p = r := eraseAtT_not_mem hpnr
        have het : eraseAtT (ATree.nd l a v r) p
            = ATree.nd (eraseAtT l p) a v r := by
          rw [eraseAtT, if_neg hne, herr]
        have hFl : sizeA l + 1 ≤ F := by rw [sizeA] at hF; omega
        obtain ⟨pn, dp, h1, m, dpn, hpn, hpnp, hmerge, hdpn, hrep3, hfr3,
          hval3, hsome3, hmne, hroot6, hroot7⟩ :=
          ihl (by rw [← reprA_ptr hl]; exact hl) hndl hanl hn hpl hFl
        refine ⟨pn, dp, h1, m, dpn, hpn, hpnp, hmerge, hdpn, ?_, ?_, hval3,
          hsome3, hmne, ?_, ?_⟩
        · rw [het]
          rw [reprA_nd_iff]
          by_cases hlp : rootO l = some p
          · obtain ⟨hdpa, hmroot, hslot⟩ := hroot6 hlp
            subst hdpa
            have hnl : n.left = some p := by rw [reprA_ptr hl]; exact hlp
            rw [if_pos hnl] at hslot
            refine ⟨{ n with left := m }, hslot, rfl, hpar, hval, ?_, ?_⟩
            · show reprA (linkH h1 dp p dpn m) (eraseAtT l p) m dp
              rw [← hmroot] at hrep3
              exact hrep3
            · refine reprA_frame hr ?_
              intro b hb
              have hba : b ≠ dp := fun hc => hanr (by rw [← hc]; exact hb)
              have hbl : b ∉ addrsA l :=
                fun hc => hdisj hc (List.mem_cons_of_mem _ hb)
              exact hfr3 b hbl hba
          · obtain ⟨hdpl, hleq, hfrall⟩ := hroot7 hlp
            have hadp : a ≠ dp := fun hc => hanl (by rw [hc]; exact hdpl)
            refine ⟨n, by rw [hfrall a hanl]; exact hn, rfl, hpar, hval, ?_, ?_⟩
            · show reprA (linkH h1 dp p dpn m) (eraseAtT l p) n.left a
              rw [reprA_ptr hl, ← hleq]
              exact hrep3
            · refine reprA_frame hr ?_
              intro b hb
              exact hfrall b (fun hc => hdisj hc (List.mem_cons_of_mem _ hb))
        · intro x hx hxdp
          refine hfr3 x ?_ hxdp
          intro hc
          exact hx (by rw [mem_addrsA]; exact Or.inl hc)
        · intro hc
          rw [rootO] at hc
          injection hc with hc
          exact absurd hc.symm hpa
        · intro _
          have hdpmem : dp ∈ addrsA (ATree.nd l a v r) := by
            by_cases hlp : rootO l = some p
            · rw [(hroot6 hlp).1, mem_addrsA]
              exact Or.inr (Or.inl rfl)
            · rw [mem_addrsA]
              exact Or.inl (hroot7 hlp).1
          refine ⟨hdpmem, by rw [het]; rfl, ?_⟩
          intro x hx
          have hxl : x ∉ addrsA l :=
            fun hc => hx (by rw [mem_addrsA]; exact Or.inl hc)
          refine hfr3 x hxl ?_
          intro hc
          rw [hc] at hx
          exact hx hdpmem
      · -- recurse into the right subtree
        have hpnl : p ∉ addrsA l := fun hc => hdisj hc (List.mem_cons_of_mem _ hpr)
        have herl : eraseAtT l p = l := eraseAtT_not_mem hpnl
        have het : eraseAtT (ATree.nd l a v r) p
            = ATree.nd l a v (eraseAtT r p) := by
          rw [eraseAtT, if_neg hne, herl]
        have hFr : sizeA r + 1 ≤ F := by rw [sizeA] at hF; omega
        obtain ⟨pn, dp, h1, m, dpn, hpn, hpnp, hmerge, hdpn, hrep3, hfr3,
          hval3, hsome3, hmne, hroot6, hroot7⟩ :=
          ihr (by rw [← reprA_ptr hr]; exact hr) hndr hanr hn hpr hFr
        refine ⟨pn, dp, h1, m, dpn, hpn, hpnp, hmerge, hdpn, ?_, ?_, hval3,
          hsome3, hmne, ?_, ?_⟩
        · rw [het]
          rw [reprA_nd_iff]
          by_cases hrp : rootO r = some p
          · obtain ⟨hdpa, hmroot, hslot⟩ := hroot6 hrp
            subst hdpa
            have hnl : n.left ≠ some p := by
              rw [reprA_ptr hl]
              intro hc
              exact hpnl (rootO_mem hc)
            rw [if_neg hnl] at hslot
            refine ⟨{ n with right := m }, hslot, rfl, hpar, hval, ?_, ?_⟩
            · refine reprA_frame hl ?_
              intro b hb
              have hba : b ≠ dp := fun hc => hanl (by rw [← hc]; exact hb)
              have hbr : b ∉ addrsA r :=
                fun hc => hdisj hb (List.mem_cons_of_mem _ hc)
              exact hfr3 b hbr hba
            · show reprA (linkH h1 dp p dpn m) (eraseAtT r p) m dp
              rw [← hmroot] at hrep3
              exact hrep3
          · obtain ⟨hdpr, hreq, hfrall⟩ := hroot7 hrp
            have hadp : a ≠ dp := fun hc => hanr (by rw [hc]; exact hdpr)
            refine ⟨n, by rw [hfrall a hanr]; exact hn, rfl, hpar, hval, ?_, ?_⟩
            · refine reprA_frame hl ?_
              intro b hb
              exact hfrall b (fun hc => hdisj hb (List.mem_cons_of_mem _ hc))
            · show reprA (linkH h1 dp p dpn m) (eraseAtT r p) n.right a
              rw [reprA_ptr hr, ← hreq]
              exact hrep3
        · intro x hx hxdp
          refine hfr3 x ?_ hxdp
          intro hc
          exact hx (by rw [mem_addrsA]; exact Or.inr (Or.inr hc))
        · intro hc
          rw [rootO] at hc
          injection hc with hc
          exact absurd hc.symm hpa
        · intro _
          have hdpmem : dp ∈ addrsA (ATree.nd l a v r) := by
            by_cases hrp : rootO r = some p
            · rw [(hroot6 hrp).1, mem_addrsA]
              exact Or.inr (Or.inl rfl)
            · rw [mem_addrsA]
              exact Or.inr (Or.inr (hroot7 hrp).1)
          refine ⟨hdpmem, by rw [het]; rfl, ?_⟩
          intro x hx
          have hxr : x ∉ addrsA r :=
            fun hc => hx (by rw [mem_addrsA]; exact Or.inr (Or.inr hc))
          refine hfr3 x hxr ?_
          intro hc
          rw [hc] at hx
          exact hx hdpmem

/-- `set::erase(pos)` on a well-formed container: succeeds, returns the
container's sentinel shell with `size - 1` and the in-order successor of `p`
captured before any mutation, frees exactly the node at `p`, leaves every
other node's existence and value untouched (no value is copied between
nodes), and leaves a well-formed container realising `eraseAtT t p`. -/
theorem eraseH_spec {w : World} {s : SetSt} {t : ATree} {p : Addr} {F : Nat}
    (hw : WFS w s t) (hp : p ∈ addrsA t) (hF : sizeA t + 2 ≤ F) :
    ∃ h5 nxt,
      eraseH w s (some p) F =
        some (⟨h5, w.next⟩, ⟨s.fake, s.size - 1⟩, some nxt) ∧
      WFS ⟨h5, w.next⟩ ⟨s.fake, s.size - 1⟩ (eraseAtT t p) ∧
      h5 p = none ∧
      (∀ x, x ≠ p → (h5 x).map HNode.val = (w.heap x).map HNode.val) ∧
      (∀ x, x ≠ p → (h5 x).isSome = (w.heap x).isSome) ∧
      (∀ l1 l2, addrsA t = l1 ++ p :: l2 →
        nxt = (l2 ++ [s.fake]).headD s.fake) ∧
      (eraseAtT t p = .leaf → (h5 s.fake).map HNode.left = some none) := by
  have htne : t ≠ .leaf := by
    intro hc
    rw [hc] at hp
    simp [addrsA] at hp
  obtain ⟨fn, hfn⟩ : ∃ fn, w.heap s.fake = some fn := by
    have := hw.fake_right
    rw [Option.map_eq_some'] at this
    obtain ⟨fn, h1, _⟩ := this
    exact ⟨fn, h1⟩
  have hfnr : fn.right = none := by
    have := hw.fake_right
    rw [hfn] at this
    simp only [Option.map_some', Option.some.injEq] at this
    exact this
  have hfnv : fn.val = none := by
    have := hw.fake_val
    rw [hfn] at this
    simp only [Option.map_some', Option.some.injEq] at this
    exact this
  have hfnl : fn.left = rootO t := by
    have := hw.fake_root htne
    rw [hfn] at this
    simp only [Option.map_some', Option.some.injEq] at this
    exact this
  have hsucc : ∀ l1 l2, addrsA t = l1 ++ p :: l2 →
      findNextH w.heap p F = some (some ((l2 ++ [s.fake]).headD s.fake)) := by
    intro l1 l2 hsplit
    have hch := wfs_chain hw hF
    rw [hsplit, List.append_assoc, List.cons_append] at hch
    have hch2 := (List.chain'_append.mp hch).2.1
    obtain ⟨y, rest, hyrest, hy⟩ : ∃ y rest,
        l2 ++ [s.fake] = y :: rest ∧ y = (l2 ++ [s.fake]).headD s.fake := by
      cases l2 <;> simp
    rw [hyrest] at hch2
    rw [← hy]
    exact (List.chain'_cons.mp hch2).1
  obtain ⟨l1, l2, hsplit⟩ := List.append_of_mem hp
  have hnext := hsucc l1 l2 hsplit
  have hsz : ¬ s.size = 0 := by
    rw [hw.size_eq]
    cases t with
    | leaf => exact absurd rfl htne
    | nd a b c d => simp [sizeA]
  obtain ⟨pn, dp, h1, m, dpn, hpn, hpnp, hmerge, hdpn, hrep3, hfr3, hval3,
    hsome3, hmne, hroot6, hroot7⟩ :=
    eraseLink_spec (F := F) hw.tree hw.nodup hw.fake_notin hfn hp
      (by omega)
  have hpnotin : p ∉ addrsA (eraseAtT t p) := eraseAt_not_mem hw.nodup
  have hfake_upd : (rootO t = some p →
        linkH h1 dp p dpn m s.fake = some { fn with left := m }) ∧
      (rootO t ≠ some p → linkH h1 dp p dpn m s.fake = w.heap s.fake) := by
    constructor
    · intro hroot
      obtain ⟨hdpf, _, hslot⟩ := hroot6 hroot
      have hfl : fn.left = some p := by rw [hfnl, hroot]
      rw [if_pos hfl] at hslot
      exact hslot
    · intro hroot
      exact (hroot7 hroot).2.2 s.fake hw.fake_notin
  have hrootnow : ¬ ((linkH h1 dp p dpn m s.fake).bind HNode.left = some p) := by
    by_cases hroot : rootO t = some p
    · rw [hfake_upd.1 hroot]
      exact fun hc => hmne hc
    · rw [hfake_upd.2 hroot, hfn]
      show fn.left = some p → False
      rw [hfnl]
      exact hroot
  have hcomp : eraseH w s (some p) F =
      some (⟨hdel (linkH h1 dp p dpn m) p, w.next⟩,
        ⟨s.fake, s.size - 1⟩, some ((l2 ++ [s.fake]).headD s.fake)) := by
    have hrootnow2 := hrootnow
    rw [linkH] at hrootnow2
    rw [eraseH, if_neg hsz]
    simp only [hpn, hnext, hpnp, hmerge, hdpn, linkH]
    rw [if_neg hrootnow2]
  have hfakep : s.fake ≠ p := fun hc => hw.fake_notin (by rw [hc]; exact hp)
  refine ⟨hdel (linkH h1 dp p dpn m) p, (l2 ++ [s.fake]).headD s.fake,
    hcomp, ?_, ?_, ?_, ?_, ?_, ?_⟩
  · -- well-formedness of the resulting container
    have hsub : ∀ x ∈ addrsA (eraseAtT t p), x ∈ addrsA t := by
      intro x hx
      rw [eraseAt_addrs hw.nodup] at hx
      exact List.mem_of_mem_filter hx
    have hframe_del : ∀ x ∈ addrsA (eraseAtT t p),
        hdel (linkH h1 dp p dpn m) p x = linkH h1 dp p dpn m x := by
      intro x hx
      rw [hdel_apply, if_neg (fun hc => hpnotin (by rw [hc] at hx; exact hx))]
    refine ⟨?_, ?_, ?_, ?_, eraseAt_nodup hw.nodup, ?_, ?_,
      eraseAt_bst hw.nodup hw.bst, ?_, ?_⟩
    · -- fake_right
      show (hdel (linkH h1 dp p dpn m) p s.fake).map HNode.right = some none
      rw [hdel_apply, if_neg hfakep]
      by_cases hroot : rootO t = some p
      · rw [hfake_upd.1 hroot]
        simp only [Option.map_some', Option.some.injEq]
        exact hfnr
      · rw [hfake_upd.2 hroot, hfn]
        simp only [Option.map_some', Option.some.injEq]
        exact hfnr
    · -- fake_val
      show (hdel (linkH h1 dp p dpn m) p s.fake).map HNode.val = some none
      rw [hdel_apply, if_neg hfakep, hval3 s.fake, hfn]
      simp only [Option.map_some', Option.some.injEq]
      exact hfnv
    · -- fake_root
      intro hne
      show (hdel (linkH h1 dp p dpn m) p s.fake).map HNode.left =
        some (rootO (eraseAtT t p))
      rw [hdel_apply, if_neg hfakep]
      by_cases hroot : rootO t = some p
      · rw [hfake_upd.1 hroot]
        simp only [Option.map_some', Option.some.injEq]
        exact (hroot6 hroot).2.1
      · rw [hfake_upd.2 hroot, hfn]
        simp only [Option.map_some', Option.some.injEq]
        rw [hfnl]
        exact ((hroot7 hroot).2.1).symm
    · -- tree realisation
      exact reprA_frame hrep3 hframe_del
    · -- fake ∉ tree
      exact fun hc => hw.fake_notin (hsub _ hc)
    · -- size
      show s.size - 1 = sizeA (eraseAtT t p)
      have := eraseAt_size hw.nodup hp
      have := hw.size_eq
      omega
    · -- bound
      intro a ha
      exact hw.bound a (hsub a ha)
    · exact hw.fake_lt
  · rw [hdel_apply, if_pos rfl]
  · intro x hxp
    rw [hdel_apply, if_neg hxp, hval3]
  · intro x hxp
    rw [hdel_apply, if_neg hxp]
    exact hsome3 x
  · intro l1' l2' hsplit'
    have h2 := hsucc l1' l2' hsplit'
    rw [hnext] at h2
    exact Option.some.inj (Option.some.inj h2)
  · intro hleaf
    rw [hdel_apply, if_neg hfakep]
    by_cases hroot : rootO t = some p
    · rw [hfake_upd.1 hroot]
      simp only [Option.map_some', Option.some.injEq]
      have := (hroot6 hroot).2.1
      rw [hleaf] at this
      exact this
    · exfalso
      have := (hroot7 hroot).2.1
      rw [hleaf] at this
      cases t with
      | leaf => exact htne rfl
      | nd a b c d => exact Option.noConfusion this

/-! ## Concrete container states used by the claim witnesses -/

/-- A one-element container: sentinel at 0, the value 5 at address 1. -/
def ex1W : World :=
  ⟨fun a => if a = 0 then some ⟨some 1, none, none, none⟩
    else if a = 1 then some ⟨none, none, some 0, some 5⟩ else none, 2⟩

def ex1S : SetSt := ⟨0, 1⟩

def ex1T : ATree := .nd .leaf 1 5 .leaf

/-- A two-element container {5, 7}: root 5 at 1, right child 7 at 2. -/
def ex2W : World :=
  ⟨fun a => if a = 0 then some ⟨some 1, none, none, none⟩
    else if a = 1 then some ⟨none, some 2, some 0, some 5⟩
    else if a = 2 then some ⟨none, none, some 1, some 7⟩ else none, 3⟩

def ex2S : SetSt := ⟨0, 2⟩

def ex2T : ATree := .nd .leaf 1 5 (.nd .leaf 2 7 .leaf)

/-- The container {1, 3, 5, 7} of the spec's `lower_bound` examples. -/
def ex7W : World :=
  ⟨fun a => if a = 0 then some ⟨some 2, none, none, none⟩
    else if a = 1 then some ⟨none, none, some 2, some 1⟩
    else if a = 2 then some ⟨some 1, some 3, some 0, some 3⟩
    else if a = 3 then some ⟨none, some 4, some 2, some 5⟩
    else if a = 4 then some ⟨none, none, some 3, some 7⟩ else none, 5⟩

def ex7S : SetSt := ⟨0, 4⟩

def ex7T : ATree := .nd (.nd .leaf 1 1 .leaf) 2 3 (.nd .leaf 3 5 (.nd .leaf 4 7 .leaf))

/-- Two disjoint one-element containers in one heap, for `swap`. -/
def exABh : Heap :=
  fun a => if a = 0 then some ⟨some 1, none, none, none⟩
    else if a = 1 then some ⟨none, none, some 0, some 5⟩
    else if a = 2 then some ⟨some 3, none, none, none⟩
    else if a = 3 then some ⟨none, none, some 2, some 7⟩ else none

def exA : SetSt := ⟨0, 1⟩

def exB : SetSt := ⟨2, 1⟩

/-! ## The claims -/

/-- C1: erasing an element `e` (at node address `p`) transitions exactly the
iterators recorded on `e`'s node to the singular state — the freed node's
teardown nulls precisely the share-list entries equal to `some p` — and every
iterator positioned on any other element `e2 ≠ e` remains valid: it
dereferenced to `e2`'s value before and still does afterwards. -/
theorem claim_C1 {w : World} {s : SetSt} {t : ATree} {p : Addr} {F : Nat}
    (hw : WFS w s t) (hp : p ∈ addrsA t) (hF : sizeA t + 2 ≤ F) :
    ∃ h5 nxt,
      eraseH w s (some p) F =
        some (⟨h5, w.next⟩, ⟨s.fake, s.size - 1⟩, some nxt) ∧
      h5 p = none ∧
      (∀ its : List (Option Addr), eraseIterEffect p its =
        its.map fun n => if n = some p then none else n) ∧
      (∀ q y, (q, y) ∈ pairsA t → q ≠ p →
        derefH w.heap (some q) = some y ∧ derefH h5 (some q) = some y) := by
  obtain ⟨h5, nxt, hcomp, hwfs, hfree, hval, hsome, hsucc, hempty⟩ :=
    eraseH_spec hw hp hF
  have hderef : ∀ (h : Heap) (q : Addr) (n : HNode) (y : Int), h q = some n →
      n.val = some y → n.left ≠ some q → derefH h (some q) = some y := by
    intro h q n y hn hv hl
    simp only [derefH, hn]
    rw [if_neg hl]
    exact hv
  refine ⟨h5, nxt, hcomp, hfree, fun its => rfl, ?_⟩
  intro q y hqy hqp
  obtain ⟨n, hn, hnv, hnl⟩ := pairs_node_facts hw.tree hw.nodup (q, y) hqy
  have hqy' : (q, y) ∈ pairsA (eraseAtT t p) := by
    rw [eraseAt_pairs hw.nodup]
    exact List.mem_filter.mpr ⟨hqy, by simp [hqp]⟩
  obtain ⟨n', hn', hnv', hnl'⟩ :=
    pairs_node_facts hwfs.tree hwfs.nodup (q, y) hqy'
  exact ⟨hderef _ q n y hn hnv hnl, hderef _ q n' y hn' hnv' hnl'⟩

/-- C1 witness: the two-element container {5, 7}, erasing 7 (node 2). -/
theorem claim_C1_witness :
    ∃ h5 nxt,
      eraseH ex2W ex2S (some 2) 4 =
        some (⟨h5, ex2W.next⟩, ⟨ex2S.fake, ex2S.size - 1⟩, some nxt) ∧
      h5 2 = none ∧
      (∀ its : List (Option Addr), eraseIterEffect 2 its =
        its.map fun n => if n = some 2 then none else n) ∧
      (∀ q y, (q, y) ∈ pairsA ex2T → q ≠ 2 →
        derefH ex2W.heap (some q) = some y ∧ derefH h5 (some q) = some y) :=
  claim_C1 ⟨by decide, by decide, by decide, by decide, by decide, by decide,
    by decide, by decide, by decide, by decide⟩ (by decide) (by decide)

/-- C2: running any finite sequence of `insert` calls on a fresh empty set
and then iterating from `begin()` to `end()` yields a strictly increasing
list whose members are exactly the inserted values (duplicates having added
nothing). -/
theorem claim_C2 (vs : List Int) :
    ∃ w s out, runInserts vs = some (w, s) ∧
      iterateH w.heap s (vs.length + 1) (vs.length + 2) = some out ∧
      List.Chain' (· < ·) out ∧
      (∀ x, x ∈ out ↔ x ∈ vs) := by
  obtain ⟨w, s, t, heq, hw, hmem, hsize⟩ :=
    insertList_inv vs (mkSet emptyWorld).1 (mkSet emptyWorld).2 .leaf
      (vs.length + 2) (mkSet_wfs emptyWorld) (by simp [sizeA])
  refine ⟨w, s, inorderV t, heq, ?_, bst_chain hw.bst, ?_⟩
  · exact iterate_spec hw (by simp [sizeA] at hsize ⊢; omega)
      (by simp [sizeA] at hsize ⊢; omega)
  · intro x
    rw [hmem x]
    simp [inorderV]

/-- C2 witness: the insert sequence [2, 1, 3]. -/
theorem claim_C2_witness :
    ∃ w s out, runInserts [2, 1, 3] = some (w, s) ∧
      iterateH w.heap s 4 5 = some out ∧
      List.Chain' (· < ·) out ∧
      (∀ x, x ∈ out ↔ x ∈ [2, 1, 3]) :=
  claim_C2 [2, 1, 3]

/-- C3: inserting a value already present returns the address of the existing
node holding that value together with `false`, and the world and the
container shell are returned exactly unchanged (same heap, same allocator
mark, same size). -/
theorem claim_C3 {w : World} {s : SetSt} {t : ATree} {v : Int} {F : Nat}
    (hw : WFS w s t) (hv : v ∈ inorderV t) (hF : sizeA t + 1 ≤ F) :
    ∃ c n, insertH w s v F = some (w, s, c, false) ∧
      w.heap c = some n ∧ n.val = some v ∧ c ∈ addrsA t :=
  insertH_found hw hv hF

/-- C3 witness: inserting 5 into the one-element container {5}. -/
theorem claim_C3_witness :
    ∃ c n, insertH ex1W ex1S 5 2 = some (ex1W, ex1S, c, false) ∧
      ex1W.heap c = some n ∧ n.val = some 5 ∧ c ∈ addrsA ex1T :=
  claim_C3 ⟨by decide, by decide, by decide, by decide, by decide, by decide,
    by decide, by decide, by decide, by decide⟩ (by decide) (by decide)

/-- C4: if an allocation fails inside `insert` of an absent value (either the
node allocation or the iterator registration), the exception escapes and the
container still realises a tree with the same contents, the same node
addresses, the same physical nodes, and the same size — no partial node is
left attached. -/
theorem claim_C4 {w : World} {s : SetSt} {t : ATree} {v : Int}
    {fp : AllocFail} {F : Nat} (hw : WFS w s t) (hfp : fp ≠ .ok)
    (hv : v ∉ inorderV t) (hF : sizeA t + 1 ≤ F) :
    ∃ w' s' t', insertHF w s v fp F = some (Sum.inl (w', s')) ∧
      s'.fake = s.fake ∧ s'.size = s.size ∧ WFS w' s' t' ∧
      inorderV t' = inorderV t ∧ addrsA t' = addrsA t ∧
      (∀ a ∈ addrsA t, w'.heap a = w.heap a) :=
  insertHF_fail hw hfp hv hF

/-- C4 witness: the node allocation fails while inserting 3 into {5}. -/
theorem claim_C4_witness :
    ∃ w' s' t', insertHF ex1W ex1S 3 .atNode 2 = some (Sum.inl (w', s')) ∧
      s'.fake = ex1S.fake ∧ s'.size = ex1S.size ∧ WFS w' s' t' ∧
      inorderV t' = inorderV ex1T ∧ addrsA t' = addrsA ex1T ∧
      (∀ a ∈ addrsA ex1T, w'.heap a = ex1W.heap a) :=
  claim_C4 ⟨by decide, by decide, by decide, by decide, by decide, by decide,
    by decide, by decide, by decide, by decide⟩ (by decide) (by decide)
    (by decide)

/-- C5 (amended): a freshly constructed container's root-slot is a
self-reference to the anchor, but the other two ways of becoming empty leave
a *null* root-slot instead: `clear()` writes `nullptr` into it, and erasing
the last element splices the empty merge (`nullptr`) into it. -/
theorem claim_C5 :
    (∀ w : World, ((mkSet w).1.heap (mkSet w).2.fake).map HNode.left =
      some (some (mkSet w).2.fake)) ∧
    (∀ (w : World) (s : SetSt) (t : ATree) (F : Nat), WFS w s t → t ≠ .leaf →
      sizeA t + 1 ≤ F →
      ∃ w', clearH w s F = some (w', ⟨s.fake, 0⟩) ∧
        (w'.heap s.fake).map HNode.left = some none) ∧
    (∀ (w : World) (s : SetSt) (t : ATree) (p : Addr) (F : Nat), WFS w s t →
      p ∈ addrsA t → sizeA t + 2 ≤ F → eraseAtT t p = .leaf →
      ∃ h5 nxt, eraseH w s (some p) F =
          some (⟨h5, w.next⟩, ⟨s.fake, s.size - 1⟩, some nxt) ∧
        (h5 s.fake).map HNode.left = some none) := by
  refine ⟨?_, ?_, ?_⟩
  · intro w
    show (hupd w.heap w.next ⟨some w.next, none, some w.next, none⟩
      w.next).map HNode.left = _
    rw [hupd_apply, if_pos rfl]
    rfl
  · intro w s t F hw ht hF
    obtain ⟨w', heq, hleft, _⟩ := clearH_spec hw ht hF
    exact ⟨w', heq, hleft⟩
  · intro w s t p F hw hp hF hleaf
    obtain ⟨h5, nxt, hcomp, _, _, _, _, _, hempty⟩ := eraseH_spec hw hp hF
    exact ⟨h5, nxt, hcomp, hempty hleaf⟩

/-- C5 witness: the fresh container, and erasing the only element of {5}. -/
theorem claim_C5_witness :
    ((mkSet emptyWorld).1.heap (mkSet emptyWorld).2.fake).map HNode.left =
      some (some (mkSet emptyWorld).2.fake) ∧
    (∃ h5 nxt, eraseH ex1W ex1S (some 1) 3 =
        some (⟨h5, ex1W.next⟩, ⟨ex1S.fake, ex1S.size - 1⟩, some nxt) ∧
      (h5 ex1S.fake).map HNode.left = some none) :=
  ⟨claim_C5.1 emptyWorld,
   claim_C5.2.2 ex1W ex1S ex1T 1 3
     ⟨by decide, by decide, by decide, by decide, by decide, by decide,
      by decide, by decide, by decide, by decide⟩ (by decide) (by decide)
     (by decide)⟩

/-- C5 counterexample: erasing the last element of {5} leaves the anchor's
root-slot null, not the self-reference the original claim asserts. -/
theorem claim_C5_counterexample :
    ∃ w1 r, eraseH ex1W ex1S (some 1) 3 = some (w1, ⟨0, 0⟩, r) ∧
      (w1.heap 0).map HNode.left = some none ∧
      ¬ (w1.heap 0).map HNode.left = some (some 0) := by
  refine ⟨_, _, rfl, by decide, by decide⟩

/-- C6: `erase(p)` on a valid element position of a non-empty set returns
the in-order successor that was captured before any mutation (the next tree
address after `p`, or the sentinel = `end()`), frees exactly the one node at
`p` while every other node keeps its identity and value (so the relocated
successor node is moved, never copied), splices the merge of `p`'s two
children into `p`'s former parent slot leaving a well-formed container
realising `eraseAtT t p` (whose anchor root-slot is fixed whenever `p` was
the root), and decrements the size by one. -/
theorem claim_C6 {w : World} {s : SetSt} {t : ATree} {p : Addr} {F : Nat}
    (hw : WFS w s t) (hp : p ∈ addrsA t) (hF : sizeA t + 2 ≤ F) :
    ∃ h5 nxt,
      eraseH w s (some p) F =
        some (⟨h5, w.next⟩, ⟨s.fake, s.size - 1⟩, some nxt) ∧
      WFS ⟨h5, w.next⟩ ⟨s.fake, s.size - 1⟩ (eraseAtT t p) ∧
      h5 p = none ∧
      (∀ x, x ≠ p → (h5 x).isSome = (w.heap x).isSome) ∧
      (∀ x, x ≠ p → (h5 x).map HNode.val = (w.heap x).map HNode.val) ∧
      (∀ l1 l2, addrsA t = l1 ++ p :: l2 →
        nxt = (l2 ++ [s.fake]).headD s.fake) := by
  obtain ⟨h5, nxt, hcomp, hwfs, hfree, hval, hsome, hsucc, _⟩ :=
    eraseH_spec hw hp hF
  exact ⟨h5, nxt, hcomp, hwfs, hfree, hsome, hval, hsucc⟩

/-- C6 witness: erasing the root 5 of {5, 7}; the merge relocates node 2
(holding 7) to the root without copying its value anywhere. -/
theorem claim_C6_witness :
    ∃ h5 nxt,
      eraseH ex2W ex2S (some 1) 4 =
        some (⟨h5, ex2W.next⟩, ⟨ex2S.fake, ex2S.size - 1⟩, some nxt) ∧
      WFS ⟨h5, ex2W.next⟩ ⟨ex2S.fake, ex2S.size - 1⟩ (eraseAtT ex2T 1) ∧
      h5 1 = none ∧
      (∀ x, x ≠ 1 → (h5 x).isSome = (ex2W.heap x).isSome) ∧
      (∀ x, x ≠ 1 → (h5 x).map HNode.val = (ex2W.heap x).map HNode.val) ∧
      (∀ l1 l2, addrsA ex2T = l1 ++ 1 :: l2 →
        nxt = (l2 ++ [ex2S.fake]).headD ex2S.fake) :=
  claim_C6 ⟨by decide, by decide, by decide, by decide, by decide, by decide,
    by decide, by decide, by decide, by decide⟩ (by decide) (by decide)

/-- C7: `lower_bound(v)` returns the position of the least element `≥ v` and
`upper_bound(v)` the position of the least element `> v`, each falling back
to `end()` exactly when no such element exists. -/
theorem claim_C7 {w : World} {s : SetSt} {t : ATree} {v : Int} {F : Nat}
    (hw : WFS w s t) (hF : sizeA t + 1 ≤ F) :
    (∃ r, lowerBoundH w.heap s v F = some r ∧
      ((r = endH s ∧ ∀ x ∈ inorderV t, x < v) ∨
       (∃ n y, w.heap r = some n ∧ n.val = some y ∧ v ≤ y ∧ y ∈ inorderV t ∧
         ∀ x ∈ inorderV t, v ≤ x → y ≤ x))) ∧
    (∃ r, upperBoundH w.heap s v F = some r ∧
      ((r = endH s ∧ ∀ x ∈ inorderV t, x ≤ v) ∨
       (∃ n y, w.heap r = some n ∧ n.val = some y ∧ v < y ∧ y ∈ inorderV t ∧
         ∀ x ∈ inorderV t, v < x → y ≤ x))) :=
  ⟨lowerBoundH_spec hw hF, upperBoundH_spec hw hF⟩

/-- C7 witness: the container {1, 3, 5, 7} of the spec's examples, with
query value 2. -/
theorem claim_C7_witness :
    (∃ r, lowerBoundH ex7W.heap ex7S 2 5 = some r ∧
      ((r = endH ex7S ∧ ∀ x ∈ inorderV ex7T, x < 2) ∨
       (∃ n y, ex7W.heap r = some n ∧ n.val = some y ∧ 2 ≤ y ∧
         y ∈ inorderV ex7T ∧ ∀ x ∈ inorderV ex7T, 2 ≤ x → y ≤ x))) ∧
    (∃ r, upperBoundH ex7W.heap ex7S 2 5 = some r ∧
      ((r = endH ex7S ∧ ∀ x ∈ inorderV ex7T, x ≤ 2) ∨
       (∃ n y, ex7W.heap r = some n ∧ n.val = some y ∧ 2 < y ∧
         y ∈ inorderV ex7T ∧ ∀ x ∈ inorderV ex7T, 2 < x → y ≤ x))) :=
  claim_C7 ⟨by decide, by decide, by decide, by decide, by decide, by decide,
    by decide, by decide, by decide, by decide⟩ (by decide)

/-- C8: after `swap(A, B)` the two anchors stay at their addresses, so an
iterator holding `A.end()` from before the swap still compares equal (via
`operator==`, same container tag) to the end of the container anchored at
`A.fake`; every element iterator still dereferences to the same value and no
element node is freed or moved, with each tree now realised under the other
container's sentinel. -/
theorem claim_C8 {h : Heap} {A B : SetSt} {tA tB : ATree} {an bn : HNode}
    (hA : h A.fake = some an) (hB : h B.fake = some bn) (hAB : A.fake ≠ B.fake)
    (hAlf : tA ≠ .leaf → an.left = rootO tA)
    (hAlz : tA = .leaf → an.left = none ∨ an.left = some A.fake)
    (hBlf : tB ≠ .leaf → bn.left = rootO tB)
    (hBlz : tB = .leaf → bn.left = none ∨ bn.left = some B.fake)
    (htA : reprA h tA (rootO tA) A.fake) (htB : reprA h tB (rootO tB) B.fake)
    (hndA : (addrsA tA).Nodup) (hndB : (addrsA tB).Nodup)
    (hdisj : ∀ x, x ∈ addrsA tA → x ∈ addrsA tB → False)
    (hAfA : A.fake ∉ addrsA tA) (hAfB : A.fake ∉ addrsA tB)
    (hBfA : B.fake ∉ addrsA tA) (hBfB : B.fake ∉ addrsA tB) :
    ∃ h', swapH h A B = some (h', ⟨A.fake, B.size⟩, ⟨B.fake, A.size⟩) ∧
      iterEqH ⟨some (endH A), some A.fake⟩
        ⟨some (endH ⟨A.fake, B.size⟩), some A.fake⟩ = some true ∧
      (∀ x, x ≠ A.fake → x ≠ B.fake →
        derefH h' (some x) = derefH h (some x) ∧ (h' x).isSome = (h x).isSome) ∧
      reprA h' tA (rootO tA) B.fake ∧ reprA h' tB (rootO tB) A.fake := by
  obtain ⟨h', heq, hpres, hrA, hrB⟩ := swapH_spec hA hB hAB hAlf hAlz hBlf hBlz
    htA htB hndA hndB hdisj hAfA hAfB hBfA hBfB
  refine ⟨h', heq, ?_, hpres, hrA, hrB⟩
  simp [iterEqH, endH]

/-- C8 witness: swapping the one-element containers {5} and {7}. -/
theorem claim_C8_witness :
    ∃ h', swapH exABh exA exB = some (h', ⟨exA.fake, exB.size⟩, ⟨exB.fake, exA.size⟩) ∧
      iterEqH ⟨some (endH exA), some exA.fake⟩
        ⟨some (endH ⟨exA.fake, exB.size⟩), some exA.fake⟩ = some true ∧
      (∀ x, x ≠ exA.fake → x ≠ exB.fake →
        derefH h' (some x) = derefH exABh (some x) ∧
          (h' x).isSome = (exABh x).isSome) ∧
      reprA h' (ATree.nd .leaf 1 5 .leaf) (rootO (ATree.nd .leaf 1 5 .leaf)) exB.fake ∧
      reprA h' (ATree.nd .leaf 3 7 .leaf) (rootO (ATree.nd .leaf 3 7 .leaf)) exA.fake :=
  @claim_C8 exABh exA exB (ATree.nd .leaf 1 5 .leaf) (ATree.nd .leaf 3 7 .leaf)
    ⟨some 1, none, none, none⟩ ⟨some 3, none, none, none⟩
    (by decide) (by decide) (by decide) (by decide) (by decide) (by decide)
    (by decide) (by decide) (by decide) (by decide) (by decide) (by decide)
    (by decide) (by decide) (by decide) (by decide)

/-- C9 (amended): what `--it` does on the logical first element depends on
the anchor's `parent` pointer.  With a null anchor parent (the state `insert`
leaves after filling a default-constructed set) the decrement's trailing
`base_assert` fires.  But with a self-referencing anchor parent (the state
the copy constructor leaves, since it never resets `fake_.parent`) the
decrement silently lands on the anchor — i.e. it yields `end()` without any
contract check firing, contradicting the original claim's "regardless of how
the set was constructed". -/
theorem claim_C9 {w : World} {s : SetSt} {t : ATree} {ma : Addr} {mv : Int}
    {F : Nat} (hw : WFS w s t) (hm : minA t = some (ma, mv))
    (hF : sizeA t + 2 ≤ F) :
    ((w.heap s.fake).map HNode.parent = some none →
      decH w.heap (some ma) F = some none) ∧
    ((w.heap s.fake).map HNode.parent = some (some s.fake) →
      decH w.heap (some ma) F = some (some s.fake)) :=
  decH_min_spec hw hm hF

/-- C9 witness: on {5} with a null anchor parent, decrementing the iterator
at the minimum is caught by the assertion (`some none`). -/
theorem claim_C9_witness : decH ex1W.heap (some 1) 4 = some none :=
  (@claim_C9 ex1W ex1S ex1T 1 5 4
    ⟨by decide, by decide, by decide, by decide, by decide, by decide,
     by decide, by decide, by decide, by decide⟩ (by decide) (by decide)).1
    (by decide)

/-- C9 counterexample: copy-constructing {5} and decrementing the iterator
on its first element does *not* fail — it silently returns the copy's own
anchor, i.e. a position equal to `end()`, because the copy constructor left
`fake_.parent` self-referencing. -/
theorem claim_C9_counterexample :
    ∃ w' s', copySetH ex1W ex1S 3 = some (w', s') ∧
      beginH w'.heap s' 3 = some 3 ∧
      decH w'.heap (some 3) 4 = some (some s'.fake) ∧
      s'.fake ≠ 3 := by
  refine ⟨_, _, rfl, by decide, by decide, by decide⟩

/-- C10: `erase` on an empty container returns immediately with `end()`,
whatever iterator position is passed (including `end()` itself and the
singular iterator): the world and the shell are returned untouched, no node
is freed and no assertion is reached. -/
theorem claim_C10 {w : World} {s : SetSt} (pos : Option Addr) (F : Nat)
    (hs : s.size = 0) :
    eraseH w s pos F = some (w, s, some (endH s)) := by
  cases pos with
  | none => rw [eraseH, if_pos hs]; rfl
  | some p => rw [eraseH, if_pos hs]; rfl

/-- C10 witness: erasing `end()` of a freshly constructed empty set. -/
theorem claim_C10_witness :
    eraseH (mkSet emptyWorld).1 (mkSet emptyWorld).2
      (some (endH (mkSet emptyWorld).2)) 3 =
      some ((mkSet emptyWorld).1, (mkSet emptyWorld).2,
        some (endH (mkSet emptyWorld).2)) :=
  claim_C10 (some (endH (mkSet emptyWorld).2)) 3 rfl

end DebugSet
